import Mathlib

/-!
# SOFTUDIO project scanner: a shallow embedding of its core

The development embeds, from the C++ sources,

* `projectinfo.h`: the `ProjectInfo` record and its `operator==`;
* `projectfilevalidatorworker.{h,cpp}`: the line-reading loop and the content
  judgement of `performActualValidation`, and the single-slot request
  handler `validateProject`;
* `scannerdialog.cpp`: the coordinator's list-handling slots
  (`addFoundProjectToInternalList`, `onProjectFileValidated`,
  `onScanWorkerFinished`) and its start path (`startActualScan`,
  `startScanThreads`, `stopScanThreadsAndCleanup`).

Conventions.  A `QString` is a Lean `String`; every string operation the
sources use is written on the character list.  Slots become functions from
the receiver's state to its next state together with the list of signals the
slot emits.  Widgets, logging and timing have no effect on the modelled
state and are left out.
-/

namespace Softudio

/-! ## Qt string primitives used by the sources -/

/-- A `QString`, as a Lean string. -/
abbrev QString := String

namespace Qt

/-- Method `QString::isEmpty`: the string has no characters. -/
def isEmpty (s : QString) : Bool := decide (s = "")

/-- Method `QChar::isSpace`: the ASCII blanks `\t \n \v \f \r` and the space, NEL,
no-break space, and the Unicode separator categories Zs, Zl and Zp. -/
def isSpace (c : Char) : Bool :=
  let n := c.toNat
  (9 ≤ n && n ≤ 13) || n == 0x20 || n == 0x85 || n == 0xA0 || n == 0x1680 ||
    (0x2000 ≤ n && n ≤ 0x200A) || n == 0x2028 || n == 0x2029 || n == 0x202F ||
    n == 0x205F || n == 0x3000

/-- Method `QString::trimmed`: whitespace removed from both ends. -/
def trimmed (s : QString) : QString :=
  ⟨((s.data.dropWhile isSpace).reverse.dropWhile isSpace).reverse⟩

/-- Method `QString::startsWith(const QString &)`, case sensitive. -/
def startsWith (s p : QString) : Bool := p.data.isPrefixOf s.data

/-- Method `QString::mid(position)`: the characters from `position` to the end. -/
def mid (s : QString) (position : Nat) : QString := ⟨s.data.drop position⟩

/-- Expression `QFileInfo(path).fileName()`: what follows the last `/` of the path. -/
def fileName (path : QString) : QString :=
  ⟨(path.data.reverse.takeWhile (fun c => c != '/')).reverse⟩

end Qt

/-! ## `projectinfo.h` -/

/-- The record `struct ProjectInfo`.  The `QIcon icon` member is presentation
data that none of the embedded functions reads or writes; it is not carried. -/
structure ProjectInfo where
  name : QString := ""
  path : QString := ""
  uid : QString := ""
  type : QString := ""
  isSoftudioProjectFlag : Bool := false
  isValidatedSoftudioProject : Bool := false
  heuristicallyFound : Bool := false
  deriving DecidableEq

namespace ProjectInfo

/-- Operator `ProjectInfo::operator==`:
`path == other.path && (uid.isEmpty() || other.uid.isEmpty() || uid == other.uid)`. -/
def equals (self other : ProjectInfo) : Bool :=
  decide (self.path = other.path) &&
    (Qt.isEmpty self.uid || Qt.isEmpty other.uid || decide (self.uid = other.uid))

end ProjectInfo

/-! ## `projectfilevalidatorworker.{h,cpp}` -/

/-- The record `struct ValidationResult`. -/
structure ValidationResult where
  originalInfo : ProjectInfo
  isValid : Bool
  validatedName : QString
  validatedUid : QString
  timedOut : Bool
  errorMessage : QString
  deriving DecidableEq

namespace ProjectFileValidatorWorker

/-- Constant `SOFTUDIO_FILE_SIGNATURE`. -/
def SOFTUDIO_FILE_SIGNATURE : QString := "SOFTUDIO_PROJECT_FILE_V1.0"

/-- Constant `maxLinesToRead` of `performActualValidation`. -/
def maxLinesToRead : Nat := 1000

/-- The locals of the reading loop of `performActualValidation`. -/
structure FoundFields where
  foundSignature : QString := ""
  foundUid : QString := ""
  foundProjectNameInFile : QString := ""
  lineCount : Nat := 0
  deriving DecidableEq

/-- The locals as declared before the loop: three empty strings, count 0. -/
def initialFields : FoundFields := {}

/-- One pass through the loop body after the interruption test: read a line,
trim it, store the text after whichever prefix it starts with, count it. -/
def processLine (f : FoundFields) (rawLine : QString) : FoundFields :=
  let line := Qt.trimmed rawLine
  if Qt.startsWith line "Signature: " then
    { f with foundSignature := Qt.mid line ("Signature: ".length),
             lineCount := f.lineCount + 1 }
  else if Qt.startsWith line "UID: " then
    { f with foundUid := Qt.mid line ("UID: ".length),
             lineCount := f.lineCount + 1 }
  else if Qt.startsWith line "ProjectName: " then
    { f with foundProjectNameInFile := Qt.mid line ("ProjectName: ".length),
             lineCount := f.lineCount + 1 }
  else
    { f with lineCount := f.lineCount + 1 }

/-- How the reading loop ends: by the interruption `return`, or by falling
out of the `while` with the locals it has collected. -/
inductive ReadOutcome where
  | interrupted
  | finished (f : FoundFields)
  deriving DecidableEq

/-- The loop `while (!in.atEnd() && lineCount < maxLinesToRead)`.  The unread
lines of the stream are the list; `interruptionRequested k` is the answer of
`QThread::currentThread()->isInterruptionRequested()` at the iteration that
starts with `lineCount = k`. -/
def readLoop (interruptionRequested : Nat → Bool) :
    List QString → FoundFields → ReadOutcome
  | [], f => .finished f
  | rawLine :: rest, f =>
    if f.lineCount < maxLinesToRead then
      if interruptionRequested f.lineCount then .interrupted
      else readLoop interruptionRequested rest (processLine f rawLine)
    else .finished f

/-- The judgement after the loop (source lines 156 to 170).  `errorMessageOut`
is the local of that name as it stands when the loop has been left. -/
def judge (projectToValidate : ProjectInfo) (folderName errorMessageOut : QString)
    (f : FoundFields) : ValidationResult :=
  if f.foundSignature = SOFTUDIO_FILE_SIGNATURE ∧ Qt.isEmpty f.foundUid = false then
    { originalInfo := projectToValidate
      isValid := true
      validatedName :=
        if Qt.isEmpty f.foundProjectNameInFile then folderName else f.foundProjectNameInFile
      validatedUid := f.foundUid
      timedOut := false
      errorMessage := errorMessageOut }
  else
    { originalInfo := projectToValidate
      isValid := false
      validatedName := ""
      validatedUid := ""
      timedOut := false
      errorMessage :=
        if Qt.isEmpty errorMessageOut then
          if f.foundSignature ≠ SOFTUDIO_FILE_SIGNATURE then
            "Signature mismatch in project file. Expected: '" ++ SOFTUDIO_FILE_SIGNATURE ++
              "', Found: '" ++ f.foundSignature ++ "'."
          else if Qt.isEmpty f.foundUid then "UID not found in project file."
          else "Validation failed due to content mismatch (unknown reason)."
        else errorMessageOut }

/-- The part of `performActualValidation` that runs once the project file is
open (source lines 125 to 170): the reading loop, then either the
interruption result or the judgement.  Every earlier failure has returned,
so `errorMessageOut` is still empty when the loop starts. -/
def performActualValidationOnOpenFile (interruptionRequested : Nat → Bool)
    (projectToValidate : ProjectInfo) (folderName : QString) (lines : List QString) :
    ValidationResult :=
  match readLoop interruptionRequested lines initialFields with
  | .interrupted =>
    { originalInfo := projectToValidate
      isValid := false
      validatedName := ""
      validatedUid := ""
      timedOut := false
      errorMessage := "Validation interrupted." }
  | .finished f => judge projectToValidate folderName "" f

/-- No interruption is ever requested. -/
def neverInterrupted : Nat → Bool := fun _ => false

/-- A raw line carries a field tag when, once trimmed, it starts with it. -/
def carries (tag rawLine : QString) : Bool := Qt.startsWith (Qt.trimmed rawLine) tag

/-- The value a carrying line gives: its trimmed text after the tag. -/
def valueAfter (tag rawLine : QString) : QString := Qt.mid (Qt.trimmed rawLine) tag.length

/-! ### The single-slot request handling of the validator -/

/-- Constant `VALIDATION_TIMEOUT_MILLISECONDS`. -/
def VALIDATION_TIMEOUT_MILLISECONDS : Nat := 15000

/-- The members of `ProjectFileValidatorWorker` that its slots read and write:
the busy flag and the record stored for the timeout case. -/
structure State where
  m_isBusy : Bool := false
  m_currentProjectInfo : ProjectInfo := {}
  deriving DecidableEq

/-- What a slot of the validator does to the outside, in program order: emit
the signal `projectValidated` with its six arguments, hand a record to
`QtConcurrent::run` (and the future to the watcher), start or stop the
single-shot timeout timer, cancel the watched future. -/
inductive Effect where
  | emitProjectValidated (result : ValidationResult)
  | runValidation (projectToValidate : ProjectInfo)
  | startTimeoutTimer (milliseconds : Nat)
  | stopTimeoutTimer
  | cancelValidation
  deriving DecidableEq

/-- Slot `validateProject` (source lines 33 to 54). -/
def validateProject (s : State) (projectToValidate : ProjectInfo) : State × List Effect :=
  if s.m_isBusy then
    (s, [.emitProjectValidated
      { originalInfo := projectToValidate
        isValid := false
        validatedName := ""
        validatedUid := ""
        timedOut := true
        errorMessage := "Validator was busy, request skipped." }])
  else
    ({ s with m_isBusy := true, m_currentProjectInfo := projectToValidate },
      [.runValidation projectToValidate, .startTimeoutTimer VALIDATION_TIMEOUT_MILLISECONDS])

end ProjectFileValidatorWorker

/-! ## `scannerdialog.{h,cpp}`: the coordinator -/

namespace ScannerDialog

/-- An entry of `m_currentScanErrors`: the pair (path, reason). -/
abbrev ScanError := QString × QString

/-- The members of `ScannerDialog` that the scan session reads and writes.
The two worker pointers are carried as "is non-null", the two `QThread`
members as "is running"; the known-uid `QSet` is a list used only through
membership. -/
structure State where
  m_allFoundProjectsInternalList : List ProjectInfo := []
  m_currentScanErrors : List ScanError := []
  m_validatedProjectsForResultsTable : List ProjectInfo := []
  m_knownProjectUids : List QString := []
  m_scanInProgress : Bool := false
  m_scanCancelled : Bool := false
  m_scanWorker : Bool := false
  m_validatorWorker : Bool := false
  scanWorkerThreadRunning : Bool := false
  validatorThreadRunning : Bool := false
  deriving DecidableEq

/-- The dialog as its constructor leaves it: null workers, no scan in
progress, empty lists. -/
def constructed : State := {}

/-- Method `setKnownProjectUids` (source lines 111 to 114). -/
def setKnownProjectUids (s : State) (knownUids : List QString) : State :=
  { s with m_knownProjectUids := knownUids }

/-- The signals the dialog emits towards the workers. -/
inductive Signal where
  | requestScanWorkerStart (scanRoots : List QString) (scanType : QString)
  | requestScanWorkerStop
  deriving DecidableEq

/-- Method `stopScanThreadsAndCleanup` (source lines 617 to 644): clear the progress
flag, ask a running walker to stop, then quit each running thread and wait for
it (terminating it when the wait expires), so that neither thread is running
on return.  The deferred deletion of the worker objects, done later by the
handlers of `QThread::finished`, is not part of this function. -/
def stopScanThreadsAndCleanup (s : State) : State × List Signal :=
  ({ s with m_scanInProgress := false,
            scanWorkerThreadRunning := false,
            validatorThreadRunning := false },
    if s.m_scanWorker && s.scanWorkerThreadRunning then [.requestScanWorkerStop] else [])

/-- Method `startScanThreads` (source lines 581 to 615). -/
def startScanThreads (s : State) : State × List Signal :=
  if s.m_scanInProgress then (s, [])
  else
    let stopped := stopScanThreadsAndCleanup s
    ({ stopped.1 with m_scanWorker := true,
                      m_validatorWorker := true,
                      scanWorkerThreadRunning := true,
                      validatorThreadRunning := true,
                      m_scanInProgress := true,
                      m_scanCancelled := false },
      stopped.2)

/-- Slot `startActualScan` (source lines 852 to 881).  `selectedScanPaths` and
`selectedScanType` are what `getSelectedScanPaths()` and
`getSelectedScanType()` return from the configuration page. -/
def startActualScan (s : State) (selectedScanPaths : List QString)
    (selectedScanType : QString) : State × List Signal :=
  let cleared : State :=
    { s with m_allFoundProjectsInternalList := [],
             m_validatedProjectsForResultsTable := [],
             m_currentScanErrors := [],
             m_scanCancelled := false,
             m_scanInProgress := true }
  let started := startScanThreads cleared
  (started.1, started.2 ++ [.requestScanWorkerStart selectedScanPaths selectedScanType])

/-- Slot `addFoundProjectToInternalList` (source lines 1091 to 1104). -/
def addFoundProjectToInternalList (s : State) (project : ProjectInfo) : State :=
  if s.m_allFoundProjectsInternalList.any (fun p => decide (p.path = project.path)) then s
  else { s with m_allFoundProjectsInternalList := s.m_allFoundProjectsInternalList ++ [project] }

/-- The record `updatedInfo` that `onProjectFileValidated` builds from its
arguments (source lines 1108 to 1126). -/
def updatedInfo (originalInfo : ProjectInfo) (isValid : Bool)
    (validatedName validatedUid : QString) : ProjectInfo :=
  let copy : ProjectInfo := { originalInfo with isValidatedSoftudioProject := isValid }
  if isValid then
    { copy with name := if Qt.isEmpty validatedName then Qt.fileName originalInfo.path
                        else validatedName,
                uid := validatedUid,
                type := "softudio_project" }
  else if !copy.heuristicallyFound then { copy with type := "validation_failed" }
  else copy

/-- The error list after the not-valid branch of `onProjectFileValidated`
(source lines 1118 to 1122); the valid branch leaves it alone. -/
def errorsAfterValidation (errors : List ScanError) (originalInfo : ProjectInfo)
    (isValid timedOut : Bool) (error : QString) : List ScanError :=
  if isValid then errors
  else if timedOut then errors ++ [(originalInfo.path, "Validation timed out.")]
  else if !Qt.isEmpty error then errors ++ [(originalInfo.path, "Validation failed: " ++ error)]
  else errors

/-- The master-list loop of `onProjectFileValidated` (source lines 1130 to
1139): overwrite the first record with the path of `updated`, keeping the
logical OR of the two heuristic flags; `none` when no record has that path. -/
def overwriteFirstByPath (updated : ProjectInfo) : List ProjectInfo → Option (List ProjectInfo)
  | [] => none
  | p :: rest =>
    if p.path = updated.path then
      some ({ updated with
                heuristicallyFound := p.heuristicallyFound || updated.heuristicallyFound } :: rest)
    else (overwriteFirstByPath updated rest).map (fun l => p :: l)

/-- The master list after `onProjectFileValidated` (source lines 1129 to 1142). -/
def masterAfterValidation (master : List ProjectInfo) (updated : ProjectInfo) :
    List ProjectInfo :=
  match overwriteFirstByPath updated master with
  | some l => l
  | none => master ++ [updated]

/-- The results list after `onProjectFileValidated` (source lines 1146 to 1164). -/
def resultsAfterValidation (results : List ProjectInfo) (known : List QString)
    (updated : ProjectInfo) : List ProjectInfo :=
  if updated.isValidatedSoftudioProject then
    if !Qt.isEmpty updated.uid && known.contains updated.uid then results
    else if results.any (fun p_res =>
        decide (p_res.path = updated.path) ||
          (!Qt.isEmpty p_res.uid && !Qt.isEmpty updated.uid && decide (p_res.uid = updated.uid)))
      then results
    else results ++ [updated]
  else results

/-- Slot `onProjectFileValidated` (source lines 1106 to 1167). -/
def onProjectFileValidated (s : State) (originalInfo : ProjectInfo) (isValid : Bool)
    (validatedName validatedUid : QString) (timedOut : Bool) (error : QString) : State :=
  let updated := updatedInfo originalInfo isValid validatedName validatedUid
  { s with
    m_currentScanErrors :=
      errorsAfterValidation s.m_currentScanErrors originalInfo isValid timedOut error,
    m_allFoundProjectsInternalList :=
      masterAfterValidation s.m_allFoundProjectsInternalList updated,
    m_validatedProjectsForResultsTable :=
      resultsAfterValidation s.m_validatedProjectsForResultsTable s.m_knownProjectUids updated }

/-- Slot `onScanWorkerFinished` (source lines 909 to 1003), as far as the
members go: the progress flag is cleared and the error list is cleared and
then refilled with the walker's errors.  `allFoundProjectsDuringScan` and
`extra` are unused for the members; the rest of the slot sets up widgets. -/
def onScanWorkerFinished (s : State) (_allFoundProjectsDuringScan : List ProjectInfo)
    (_outcome : QString) (_extra : List (QString × QString)) (errors : List ScanError) : State :=
  { s with m_scanInProgress := false,
           m_currentScanErrors := ([] : List ScanError) ++ errors }

/-- The events delivered to the coordinator during a session: the walker's
`projectFound`, the validator's `projectValidated`, the walker's
`scanFinished`. -/
inductive Event where
  | projectFound (project : ProjectInfo)
  | projectValidated (originalInfo : ProjectInfo) (isValid : Bool)
      (validatedName validatedUid : QString) (timedOut : Bool) (errorMessage : QString)
  | scanFinished (allFoundProjects : List ProjectInfo) (outcome : QString)
      (extra : List (QString × QString)) (errors : List ScanError)
  deriving DecidableEq

/-- Delivery of one event to the slot connected to it in `startScanThreads`. -/
def deliver (s : State) : Event → State
  | .projectFound project => addFoundProjectToInternalList s project
  | .projectValidated originalInfo isValid validatedName validatedUid timedOut errorMessage =>
    onProjectFileValidated s originalInfo isValid validatedName validatedUid timedOut errorMessage
  | .scanFinished allFoundProjects outcome extra errors =>
    onScanWorkerFinished s allFoundProjects outcome extra errors

/-- Delivery of a sequence of events, in order. -/
def deliverAll (s : State) (events : List Event) : State := events.foldl deliver s

end ScannerDialog

/-! ## Paths and the file system, as the walker and the validator see them

Paths are absolute and use `/`; `QDir::toNativeSeparators` is then the
identity.  A directory tree is given as the view `QFileInfo` and `QDir` offer
of it: every entry has a name, a kind, the two flags `isReadable` and
`isSymbolicLink`, and, for a directory, its entries in the order
`entryInfoList` lists them with `QDir::Name`.  An entry reached through a
symbolic link is described as `QFileInfo` describes it, that is by its target
(kind `missing` for a dangling link). -/

namespace Qt

/-- Method `QString::endsWith(QChar)`. -/
def endsWithChar (s : QString) (c : Char) : Bool := s.data.getLast? == some c

/-- Method `QString::removeIf(pred)`: the characters satisfying `pred` are
removed, the others keep their order. -/
def removeIf (s : QString) (pred : Char → Bool) : QString :=
  ⟨s.data.filter (fun c => !pred c)⟩

/-- Order of two strings as `QString::operator<` and so `QMap<QString, _>`
see it: lexicographic on the character codes. -/
def lessChars : List Char → List Char → Bool
  | [], [] => false
  | [], _ :: _ => true
  | _ :: _, [] => false
  | a :: as, b :: bs =>
    if a.toNat < b.toNat then true
    else if b.toNat < a.toNat then false
    else lessChars as bs

/-- Operator `QString::operator<`. -/
def lessThan (a b : QString) : Bool := lessChars a.data b.data

/-- Function `QDir::toNativeSeparators`, on a platform whose separator is `/`. -/
def toNativeSeparators (path : QString) : QString := path

/-- The path a `QDir` keeps for the path it is constructed from: one trailing
`/` is dropped unless the path is `/` itself. -/
def dirPath (path : QString) : QString :=
  if endsWithChar path '/' && decide (1 < path.length) then ⟨path.data.dropLast⟩ else path

/-- Method `QDir::dirName`: the last segment of the directory's path, empty
for the root directory. -/
def dirName (path : QString) : QString := fileName (dirPath path)

/-- Expression `QFileInfo(path).dir()`: the path up to its last `/` (`/` when
that is the first character, `.` when there is none). -/
def parentPath (path : QString) : QString :=
  match path.data.reverse.dropWhile (fun c => c != '/') with
  | [] => "."
  | _ :: before => if before.isEmpty then "/" else ⟨before.reverse⟩

/-- Method `QDir::filePath(name)`, also `QFileInfo::absoluteFilePath` of the
entry `name` of the directory: the directory's path, a `/` unless it ends in
one, the name. -/
def filePath (directory name : QString) : QString :=
  if endsWithChar directory '/' then directory ++ name else directory ++ "/" ++ name

/-- A name filter of the form `*rest`, as `QDir::entryList` applies it: the
name ends in `rest`, the case of ASCII letters being ignored. -/
def matchesNameFilter (filter name : QString) : Bool :=
  ((filter.data.drop 1).map Char.toLower).isSuffixOf (name.data.map Char.toLower)

end Qt

/-- The kind `QFileInfo` reports for an entry: a regular file, a directory,
or nothing there (`exists()` is false, as for a dangling link). -/
inductive FsKind where
  | file
  | dir
  | missing
  deriving DecidableEq

/-- An entry of the directory tree. -/
inductive FsNode where
  | node (name : QString) (kind : FsKind) (isReadable : Bool) (isSymbolicLink : Bool)
      (children : List FsNode)

namespace FsNode

/-- Method `QFileInfo::fileName` of the entry. -/
def name : FsNode → QString
  | node n _ _ _ _ => n

/-- The kind of the entry. -/
def kind : FsNode → FsKind
  | node _ k _ _ _ => k

/-- Method `QFileInfo::isReadable` (and `QDir::isReadable` for a directory). -/
def isReadable : FsNode → Bool
  | node _ _ r _ _ => r

/-- Method `QFileInfo::isSymbolicLink`. -/
def isSymbolicLink : FsNode → Bool
  | node _ _ _ l _ => l

/-- The entries of a directory. -/
def children : FsNode → List FsNode
  | node _ _ _ _ c => c

/-- Method `QFileInfo::exists`. -/
def «exists» (n : FsNode) : Bool := decide (n.kind ≠ FsKind.missing)

/-- Method `QFileInfo::isDir` (and `QDir::exists` for a `QDir` on the entry). -/
def isDir (n : FsNode) : Bool := decide (n.kind = FsKind.dir)

/-- Method `QFileInfo::isFile`. -/
def isFile (n : FsNode) : Bool := decide (n.kind = FsKind.file)

/-- What `QFileInfo` reports for a path at which there is nothing. -/
def absent : FsNode := node "" FsKind.missing false false []

/-- The entry called `entryName` of a directory, `absent` when there is none:
`QFileInfo(dir.filePath(entryName))`. -/
def entry (n : FsNode) (entryName : QString) : FsNode :=
  (n.children.find? (fun c => decide (c.name = entryName))).getD absent

/-- Method `QDir::cd(part)`: succeeds when the entry `part` is a directory. -/
def cd (n : FsNode) (part : QString) : Option FsNode :=
  if (n.entry part).isDir then some (n.entry part) else none

end FsNode

/-- The surroundings of the two workers: the Unicode table behind
`QChar::isLetterOrNumber`, what the file system holds at a path, where
`QDir(path).cdUp()` leads when it succeeds, the name
`QFileInfo(path).absoluteDir().dirName()`, and the outcome of opening a file
for reading as text: its lines, or the error string. -/
structure Env where
  isLetterOrNumber : Char → Bool
  info : QString → FsNode
  cdUp : QString → Option QString
  absoluteDirName : QString → QString
  openText : QString → Except QString (List QString)

/-- Walk `QDir::cd` along `parts`, keeping the path of the `QDir`; on failure
the part that was not found and the path reached so far.  The walk starts at
the path the `QDir` keeps for the path it is constructed from, `Qt.dirPath`. -/
def cdChain : List QString → FsNode → QString → Except (QString × QString) (FsNode × QString)
  | [], n, path => .ok (n, path)
  | part :: rest, n, path =>
    match n.cd part with
    | some c => cdChain rest c (Qt.filePath path part)
    | none => .error (part, path)

namespace ProjectInfo

/-- Constructor `ProjectInfo(QString pPath, QString pType = "unknown")`
(source lines 24 to 39 of `projectinfo.h`). -/
def construct (env : Env) (pPath pType : QString) : ProjectInfo :=
  let fresh : ProjectInfo := { path := pPath, type := pType }
  if Qt.isEmpty fresh.name && !Qt.isEmpty pPath then
    if (env.info pPath).isDir then
      let name := Qt.dirName (Qt.parentPath pPath)
      if name = "." ∨ name = ".." then
        { fresh with name := Qt.dirName ((env.cdUp pPath).getD pPath) }
      else { fresh with name := name }
    else { fresh with name := Qt.fileName pPath }
  else fresh

end ProjectInfo

namespace ProjectFileValidatorWorker

/-- Constant `SOFTUDIO_FILE_EXTENSION` of the validator. -/
def SOFTUDIO_FILE_EXTENSION : QString := ".softudio"

/-- Constant `SOFTUDIO_NESTED_PATH_PARTS` of the validator. -/
def SOFTUDIO_NESTED_PATH_PARTS : List QString :=
  ["softudio", "engine", "built-in", "core", "project", "packages",
   "assets", "system", "system-binaries", "data", "engine-core-files",
   "genetic-identifier", "project-data"]

/-- The local `folderName` of `performActualValidation` (source lines 70 to 79). -/
def folderNameOf (env : Env) (projectRootPath : QString) : QString :=
  let dirName := Qt.dirName projectRootPath
  let afterCdUp :=
    if Qt.isEmpty dirName &&
        (Qt.endsWithChar projectRootPath '/' || Qt.endsWithChar projectRootPath '\\') then
      match env.cdUp projectRootPath with
      | some up => Qt.dirName up
      | none => dirName
    else dirName
  if Qt.isEmpty afterCdUp || decide (afterCdUp = ".") || decide (afterCdUp = "..") then
    let fileName := Qt.fileName projectRootPath
    if Qt.isEmpty fileName || decide (fileName = ".") || decide (fileName = "..") then
      env.absoluteDirName projectRootPath
    else fileName
  else afterCdUp

/-- The local `validFolderNameForFile` (source lines 81 and 82). -/
def validFolderNameForFile (env : Env) (folderName : QString) : QString :=
  Qt.removeIf folderName (fun c => !env.isLetterOrNumber c && c != '_')

/-- The local `expectedFileName` (source line 103). -/
def expectedFileName (env : Env) (folderName : QString) : QString :=
  "." ++ validFolderNameForFile env folderName ++ SOFTUDIO_FILE_EXTENSION

/-- A not-valid, not-timed-out result carrying a message, as every early
`return` of `performActualValidation` builds it. -/
def failure (projectToValidate : ProjectInfo) (errorMessageOut : QString) : ValidationResult :=
  { originalInfo := projectToValidate
    isValid := false
    validatedName := ""
    validatedUid := ""
    timedOut := false
    errorMessage := errorMessageOut }

/-- Method `performActualValidation` (source lines 56 to 171). -/
def performActualValidation (env : Env) (interruptionRequested : Nat → Bool)
    (projectToValidate : ProjectInfo) : ValidationResult :=
  let projectRootPath := projectToValidate.path
  let rootDir := env.info projectRootPath
  if !rootDir.isDir || !rootDir.isReadable then
    failure projectToValidate
      ("Root directory does not exist or is not readable: " ++ projectRootPath)
  else
    let folderName := folderNameOf env projectRootPath
    match cdChain SOFTUDIO_NESTED_PATH_PARTS rootDir (Qt.dirPath projectRootPath) with
    | .error (part, reached) =>
      failure projectToValidate
        ("Required Softudio nested directory structure part not found: " ++ part ++
          " within " ++ reached)
    | .ok (nestedDir, fullNestedDirPathStr) =>
      if !nestedDir.isDir then
        failure projectToValidate
          ("Final required Softudio nested directory does not exist: " ++ fullNestedDirPathStr)
      else
        let expectedFilePath := Qt.filePath fullNestedDirPathStr (expectedFileName env folderName)
        let projectFileInfo := nestedDir.entry (expectedFileName env folderName)
        if !projectFileInfo.exists || !projectFileInfo.isFile then
          failure projectToValidate
            ("Expected Softudio project file not found: " ++
              Qt.toNativeSeparators expectedFilePath)
        else if !projectFileInfo.isReadable then
          failure projectToValidate
            ("Softudio project file is not readable: " ++ Qt.toNativeSeparators expectedFilePath)
        else
          match env.openText expectedFilePath with
          | .error errorString =>
            failure projectToValidate
              ("Could not open Softudio project file for reading: " ++
                Qt.toNativeSeparators expectedFilePath ++ " Error: " ++ errorString)
          | .ok lines =>
            performActualValidationOnOpenFile interruptionRequested projectToValidate
              folderName lines

/-- Slot `handleValidationFinished` (source lines 173 to 188).  `timerActive`
is the answer of `m_timeoutTimer.isActive()` and `result` that of
`m_validationWatcher.result()`. -/
def handleValidationFinished (s : State) (timerActive : Bool) (result : ValidationResult) :
    State × List Effect :=
  if !s.m_isBusy then (s, [])
  else
    ({ s with m_isBusy := false },
      (if timerActive then [Effect.stopTimeoutTimer] else []) ++
        [Effect.emitProjectValidated
          { originalInfo := result.originalInfo
            isValid := result.isValid
            validatedName := result.validatedName
            validatedUid := result.validatedUid
            timedOut := result.timedOut
            errorMessage := result.errorMessage }])

/-- Slot `handleValidationTimeout` (source lines 190 to 206).
`watcherRunning` is the answer of `m_validationWatcher.isRunning()`. -/
def handleValidationTimeout (s : State) (watcherRunning : Bool) : State × List Effect :=
  if !s.m_isBusy then (s, [])
  else
    ({ s with m_isBusy := false },
      (if watcherRunning then [Effect.cancelValidation] else []) ++
        [Effect.emitProjectValidated
          { originalInfo := s.m_currentProjectInfo
            isValid := false
            validatedName := ""
            validatedUid := ""
            timedOut := true
            errorMessage :=
              "Validation timed out after " ++
                toString (VALIDATION_TIMEOUT_MILLISECONDS / 1000) ++ "s." }])

end ProjectFileValidatorWorker

/-! ### The validator among the Qt objects it owns

The three slots of the validator are driven by the coordinator's requests, by
the `finished` signal of `m_validationWatcher` and by the `timeout` signal of
`m_timeoutTimer`.  `Running` adds to the members what those two objects hold:
the record captured by the future last handed to the watcher, whether that
future is still running, whether the timer is active. -/

namespace ProjectFileValidatorWorker

/-- The validator with its watcher and its timer. -/
structure Running where
  worker : State := {}
  watched : Option ProjectInfo := none
  futureRunning : Bool := false
  timerActive : Bool := false

/-- What is delivered to the validator: a call of `validateProject`; the
watcher's `finished` signal, the watched validation having run in the
surroundings `env` under the interruption requests `interruptionRequested`;
the timer's `timeout` signal. -/
inductive Delivery where
  | validateProjectCalled (projectToValidate : ProjectInfo)
  | watcherFinished (env : Env) (interruptionRequested : Nat → Bool)
  | timerTimeout

/-- What the outside sees of a request: it was accepted (a validation was
started for it), it was rejected with a result, or a result was emitted for
the accepted request in flight. -/
inductive Observed where
  | accepted (projectToValidate : ProjectInfo)
  | rejected (result : ValidationResult)
  | answered (result : ValidationResult)
  deriving DecidableEq

/-- The effects of a slot on the watcher and the timer. -/
def applyEffects (r : Running) : List Effect → Running
  | [] => r
  | .runValidation p :: rest =>
    applyEffects { r with watched := some p, futureRunning := true } rest
  | .startTimeoutTimer _ :: rest => applyEffects { r with timerActive := true } rest
  | .stopTimeoutTimer :: rest => applyEffects { r with timerActive := false } rest
  | .cancelValidation :: rest => applyEffects r rest
  | .emitProjectValidated _ :: rest => applyEffects r rest

/-- The emissions among the effects of a slot. -/
def emissions : List Effect → List ValidationResult
  | [] => []
  | .emitProjectValidated result :: rest => result :: emissions rest
  | _ :: rest => emissions rest

/-- One delivery: the slot connected to it runs, its effects reach the watcher
and the timer, and what the outside sees is noted. -/
def deliverOne (r : Running) : Delivery → Running × List Observed
  | .validateProjectCalled p =>
    if r.worker.m_isBusy then
      (applyEffects { r with worker := (validateProject r.worker p).1 }
          (validateProject r.worker p).2,
        (emissions (validateProject r.worker p).2).map Observed.rejected)
    else
      (applyEffects { r with worker := (validateProject r.worker p).1 }
          (validateProject r.worker p).2,
        [Observed.accepted p])
  | .watcherFinished env interruptionRequested =>
    match r.watched with
    | none => (r, [])
    | some p =>
      (applyEffects
          { r with worker := (handleValidationFinished r.worker r.timerActive
                      (performActualValidation env interruptionRequested p)).1,
                   futureRunning := false }
          (handleValidationFinished r.worker r.timerActive
            (performActualValidation env interruptionRequested p)).2,
        (emissions (handleValidationFinished r.worker r.timerActive
          (performActualValidation env interruptionRequested p)).2).map Observed.answered)
  | .timerTimeout =>
    (applyEffects
        { r with worker := (handleValidationTimeout r.worker r.futureRunning).1,
                 timerActive := false }
        (handleValidationTimeout r.worker r.futureRunning).2,
      (emissions (handleValidationTimeout r.worker r.futureRunning).2).map Observed.answered)

/-- A sequence of deliveries, with all that the outside sees, in order. -/
def deliverSequence (r : Running) : List Delivery → Running × List Observed
  | [] => (r, [])
  | d :: rest =>
    ((deliverSequence (deliverOne r d).1 rest).1,
      (deliverOne r d).2 ++ (deliverSequence (deliverOne r d).1 rest).2)

/-- Reading of "each accepted request produces at most one result": going
through what the outside sees, with `inFlight` the accepted request not yet
answered, every result answers the request in flight and closes it.  The
outcome is `none` as soon as a result comes with no request in flight or for
another record. -/
def checkAnswers : Option ProjectInfo → List Observed → Option (Option ProjectInfo)
  | inFlight, [] => some inFlight
  | _, .accepted p :: rest => checkAnswers (some p) rest
  | inFlight, .rejected _ :: rest => checkAnswers inFlight rest
  | some p, .answered result :: rest =>
    if result.originalInfo = p then checkAnswers none rest else none
  | none, .answered _ :: _ => none

/-- What links the validator to the reading of what the outside sees: while
busy, the watcher holds the future of the stored record, which is the request
in flight; while idle no request is in flight. -/
def InFlight (r : Running) (inFlight : Option ProjectInfo) : Prop :=
  (r.worker.m_isBusy = true →
    r.watched = some r.worker.m_currentProjectInfo ∧
      inFlight = some r.worker.m_currentProjectInfo) ∧
  (r.worker.m_isBusy = false → inFlight = none)

end ProjectFileValidatorWorker

/-! ## `scanworker.{h,cpp}`: the walker -/

namespace ScanWorker

/-- Constant `SCAN_TYPE_QUICK`. -/
def SCAN_TYPE_QUICK : QString := "Quick Scan (Faster, checks top levels)"

/-- Constant `SCAN_TYPE_DEEP`. -/
def SCAN_TYPE_DEEP : QString := "Deep Scan (Slower, checks all subfolders)"

/-- Constant `QUICK_SCAN_DEPTH_LIMIT`. -/
def QUICK_SCAN_DEPTH_LIMIT : Nat := 3

/-- Constant `SOFTUDIO_FILE_EXTENSION` of the walker. -/
def SOFTUDIO_FILE_EXTENSION : QString := ".softudio"

/-- Constant `SOFTUDIO_NESTED_PATH_PARTS` of the walker. -/
def SOFTUDIO_NESTED_PATH_PARTS : List QString :=
  ["softudio", "engine", "built-in", "core", "project", "packages",
   "assets", "system", "system-binaries", "data", "engine-core-files",
   "genetic-identifier", "project-data"]

/-- Insertion into a `QMap<QString, QString>`, kept as the list of its pairs
in ascending key order, which is the order a `QMapIterator` follows. -/
def qmapInsert (key value : QString) : List (QString × QString) → List (QString × QString)
  | [] => [(key, value)]
  | (k, v) :: rest =>
    if Qt.lessThan key k then (key, value) :: (k, v) :: rest
    else if Qt.lessThan k key then (k, v) :: qmapInsert key value rest
    else (key, value) :: rest

/-- A `QMap` built from an initializer list. -/
def qmapOfList (pairs : List (QString × QString)) : List (QString × QString) :=
  pairs.foldl (fun m kv => qmapInsert kv.1 kv.2 m) []

/-- Constant `HEURISTIC_FILES_MAP`, from its initializer list. -/
def HEURISTIC_FILES_MAP : List (QString × QString) :=
  qmapOfList
    [("CMakeLists.txt", "cmake"), ("package.json", "npm_yarn"), (".git", "git_repo"),
     (".sln", "vs_solution"), (".uproject", "unreal"), ("*.csproj", "csharp_proj"),
     ("Makefile", "make"), ("pom.xml", "maven"), ("build.gradle", "gradle"),
     ("setup.py", "python_setup")]

/-- Constant `HEURISTIC_DIRS_MAP`, from its initializer list. -/
def HEURISTIC_DIRS_MAP : List (QString × QString) :=
  qmapOfList
    [("src", "source_dir"), ("include", "include_dir"), ("lib", "library_dir"),
     ("source", "source_dir"), ("Sources", "source_dir"), ("Source", "source_dir"),
     ("includes", "include_dir"), ("headers", "include_dir")]

/-- The signals of `ScanWorker`.  The elapsed-time argument of `scanProgress`
is not carried, nor the elapsed time inside the `stop_details` of `extra`. -/
inductive Signal where
  | scanProgress (pathMsg : QString) (totalFoldersEst foldersScanned : Nat) (isEstimating : Bool)
  | projectFound (project : ProjectInfo)
  | validationRequested (projectToValidate : ProjectInfo)
  | scanFinished (allFoundProjectsDuringScan : List ProjectInfo) (outcome : QString)
      (extra : List (QString × QString)) (errors : List (QString × QString))
  deriving DecidableEq

/-- The members of `ScanWorker`, with three additions that record what the
code does to the outside: `emitted`, the signals emitted so far in order;
`visited`, the directories counted by `processDirectory` so far with the depth
they were processed at; and `stopArrivesAfter`, the number of reads of the
volatile `m_stopRequested` that still see it clear before `stopScan()`, run
from the requesting thread, sets it (`none`: no stop is requested).  The
progress emissions driven by the 750 ms timer are not modelled. -/
structure State where
  m_scanRoots : List QString := []
  m_scanType : QString := ""
  m_stopRequested : Bool := false
  m_totalFoldersEstimate : Nat := 0
  m_foldersScannedCount : Nat := 0
  m_foundProjectsList : List ProjectInfo := []
  m_scanErrors : List (QString × QString) := []
  m_currentScanRootForProgress : QString := ""
  m_lastProcessedPathForPeriodicEmit : QString := ""
  m_currentScanRootIndex : Nat := 0
  m_totalScanRoots : Nat := 0
  m_isCurrentlyEstimatingForPeriodicEmit : Bool := false
  emitted : List Signal := []
  visited : List (QString × Nat) := []
  stopArrivesAfter : Option Nat := none
  deriving DecidableEq

/-- An `emit`. -/
def emit (s : State) (signal : Signal) : State := { s with emitted := s.emitted ++ [signal] }

/-- One read of the volatile member `m_stopRequested`. -/
def readStopRequested (s : State) : Bool × State :=
  if s.m_stopRequested then (true, s)
  else
    match s.stopArrivesAfter with
    | none => (false, s)
    | some 0 => (true, { s with m_stopRequested := true, stopArrivesAfter := none })
    | some (k + 1) => (false, { s with stopArrivesAfter := some k })

/-- The total-estimate argument of the `scanProgress` emissions of phase 2:
`m_scanType == SCAN_TYPE_DEEP ? m_totalFoldersEstimate : 0`. -/
def estimateForProgress (s : State) : Nat :=
  if s.m_scanType = SCAN_TYPE_DEEP then s.m_totalFoldersEstimate else 0

/-- Method `handleWalkError` (source lines 353 to 359). -/
def handleWalkError (s : State) (path errorMsg : QString) : State :=
  match readStopRequested s with
  | (false, s1) =>
    { s1 with m_scanErrors := s1.m_scanErrors ++ [(Qt.toNativeSeparators path, errorMsg)] }
  | (true, s1) => s1

/-- The local `originalFolderName` of `checkForSoftudioProject` (source lines
257 to 264); `currentDirName` of `checkForHeuristicProjects` is computed the
same way (source lines 301 to 306). -/
def originalFolderName (dirPath : QString) : QString :=
  let dirName := Qt.dirName dirPath
  if Qt.isEmpty dirName || decide (dirName = ".") || decide (dirName = "..") then
    let fileName := Qt.fileName dirPath
    if Qt.isEmpty fileName then Qt.dirName (Qt.parentPath dirPath) else fileName
  else dirName

/-- The local `sanitizedFolderName` (source lines 266 and 267). -/
def sanitizedFolderName (env : Env) (folderName : QString) : QString :=
  Qt.removeIf folderName (fun c => !env.isLetterOrNumber c && c != '_')

/-- The local `expectedFileName` of `checkForSoftudioProject` (source line 281). -/
def expectedFileName (env : Env) (folderName : QString) : QString :=
  "." ++ (if Qt.isEmpty (sanitizedFolderName env folderName) then ""
          else sanitizedFolderName env folderName) ++ SOFTUDIO_FILE_EXTENSION

/-- Method `checkForSoftudioProject` (source lines 255 to 290): the answer and
the record passed by reference. -/
def checkForSoftudioProject (env : Env) (node : FsNode) (dirPath : QString)
    (projectInfo : ProjectInfo) : Bool × ProjectInfo :=
  match cdChain SOFTUDIO_NESTED_PATH_PARTS node (Qt.dirPath dirPath) with
  | .error _ => (false, projectInfo)
  | .ok (nestedDir, _) =>
    if !nestedDir.isDir then (false, projectInfo)
    else
      let fileInfo := nestedDir.entry (expectedFileName env (originalFolderName dirPath))
      if fileInfo.exists && fileInfo.isFile && fileInfo.isReadable then
        (true, { projectInfo with name := originalFolderName dirPath })
      else (false, projectInfo)

/-- The test one pass of the file loop of `checkForHeuristicProjects` makes
for a key of `HEURISTIC_FILES_MAP` (source lines 316 to 333). -/
def heuristicFileMatches (node : FsNode) (heuristicPattern : QString) : Bool :=
  if Qt.startsWith heuristicPattern "*." then
    node.children.any (fun c => c.isFile && c.isReadable &&
      Qt.matchesNameFilter heuristicPattern c.name)
  else
    (node.entry heuristicPattern).exists &&
      ((node.entry heuristicPattern).isFile ||
        (decide (heuristicPattern = ".git") && (node.entry heuristicPattern).isDir)) &&
      (node.entry heuristicPattern).isReadable

/-- The record after a heuristic hit (source lines 320 to 322, 328 to 330 and
345 to 347). -/
def markHeuristic (projectInfo : ProjectInfo) (heuristicType currentDirName : QString) :
    ProjectInfo :=
  { projectInfo with heuristicallyFound := true,
                     type := "heuristic_" ++ heuristicType,
                     name := currentDirName }

/-- The loop over `HEURISTIC_FILES_MAP` (source lines 309 to 334).  The flag
tells whether the method has returned from inside the loop. -/
def heuristicFilesLoop (node : FsNode) (currentDirName : QString) :
    List (QString × QString) → ProjectInfo → State → Bool × ProjectInfo × State
  | [], projectInfo, s => (false, projectInfo, s)
  | (heuristicPattern, heuristicType) :: rest, projectInfo, s =>
    match readStopRequested s with
    | (true, s1) => (true, projectInfo, s1)
    | (false, s1) =>
      if heuristicFileMatches node heuristicPattern then
        (true, markHeuristic projectInfo heuristicType currentDirName, s1)
      else heuristicFilesLoop node currentDirName rest projectInfo s1

/-- The loop over `HEURISTIC_DIRS_MAP` (source lines 336 to 350). -/
def heuristicDirsLoop (node : FsNode) (currentDirName : QString) :
    List (QString × QString) → ProjectInfo → State → ProjectInfo × State
  | [], projectInfo, s => (projectInfo, s)
  | (heuristicDirName, heuristicType) :: rest, projectInfo, s =>
    match readStopRequested s with
    | (true, s1) => (projectInfo, s1)
    | (false, s1) =>
      if (node.entry heuristicDirName).isDir && (node.entry heuristicDirName).isReadable then
        (markHeuristic projectInfo heuristicType currentDirName, s1)
      else heuristicDirsLoop node currentDirName rest projectInfo s1

/-- Method `checkForHeuristicProjects` (source lines 295 to 351). -/
def checkForHeuristicProjects (node : FsNode) (dirPath : QString) (projectInfo : ProjectInfo)
    (s : State) : ProjectInfo × State :=
  if projectInfo.heuristicallyFound || projectInfo.isSoftudioProjectFlag then (projectInfo, s)
  else
    match heuristicFilesLoop node (originalFolderName dirPath) HEURISTIC_FILES_MAP
      projectInfo s with
    | (true, found, s1) => (found, s1)
    | (false, unchanged, s1) =>
      heuristicDirsLoop node (originalFolderName dirPath) HEURISTIC_DIRS_MAP unchanged s1

/-- Whether the found list already holds a record with this path (the loops
of source lines 203 to 208 and 225). -/
def alreadyFound (s : State) (projectInfo : ProjectInfo) : Bool :=
  s.m_foundProjectsList.any (fun p => decide (p.path = projectInfo.path))

/-- The strict-candidate branch of `processDirectory` (source lines 198 to 217). -/
def recordStrictCandidate (s : State) (projectInfo : ProjectInfo) : State :=
  let marked : ProjectInfo :=
    { projectInfo with isSoftudioProjectFlag := true, type := "softudio_potential" }
  if !alreadyFound s marked then
    emit (emit { s with m_foundProjectsList := s.m_foundProjectsList ++ [marked] }
      (.projectFound marked)) (.validationRequested marked)
  else s

/-- The heuristic-hit branch of `processDirectory` (source lines 223 to 234). -/
def recordHeuristicFind (s : State) (projectInfo : ProjectInfo) : State :=
  if !alreadyFound s projectInfo then
    emit { s with m_foundProjectsList := s.m_foundProjectsList ++ [projectInfo] }
      (.projectFound projectInfo)
  else s

/-- The condition of source lines 221 and 238: a deep scan, or a quick scan
above the depth limit. -/
def withinDepthLimit (s : State) (currentDepth : Nat) : Bool :=
  decide (s.m_scanType = SCAN_TYPE_DEEP) ||
    (decide (s.m_scanType = SCAN_TYPE_QUICK) && decide (currentDepth < QUICK_SCAN_DEPTH_LIMIT))

/-- Source lines 182 to 193 of `processDirectory`: count the directory, note
its path, report every 50th.  The directory and its depth are noted in
`visited`. -/
def countDirectory (s : State) (directoryPath : QString) (currentDepth : Nat) : State :=
  let counted : State :=
    { s with m_foldersScannedCount := s.m_foldersScannedCount + 1,
             m_lastProcessedPathForPeriodicEmit := Qt.toNativeSeparators directoryPath,
             visited := s.visited ++ [(Qt.toNativeSeparators directoryPath, currentDepth)] }
  if counted.m_foldersScannedCount % 50 = 0 then
    emit counted (.scanProgress counted.m_lastProcessedPathForPeriodicEmit
      (estimateForProgress counted) counted.m_foldersScannedCount false)
  else counted

/-- Method `processDirectory` up to its recursion block (source lines 163 to
235) on a directory that has passed the stop test.  The flag tells whether
control reaches the recursion block. -/
def examineDirectory (node : FsNode) (env : Env) (directoryPath : QString) (currentDepth : Nat)
    (s : State) : Bool × State :=
  if !node.exists || !node.isDir || !node.isReadable then
    (false,
      if node.exists && !node.isReadable then
        handleWalkError s directoryPath "Directory not readable."
      else s)
  else
    match checkForSoftudioProject env node directoryPath
      (ProjectInfo.construct env (Qt.toNativeSeparators directoryPath) "unknown") with
    | (true, projectInfo) =>
      (false, recordStrictCandidate (countDirectory s directoryPath currentDepth) projectInfo)
    | (false, projectInfo) =>
      if withinDepthLimit s currentDepth then
        match checkForHeuristicProjects node directoryPath projectInfo
          (countDirectory s directoryPath currentDepth) with
        | (heuristic, s1) =>
          if heuristic.heuristicallyFound then (true, recordHeuristicFind s1 heuristic)
          else (true, s1)
      else (true, countDirectory s directoryPath currentDepth)

mutual
/-- Method `processDirectory` (source lines 163 to 253). -/
def processDirectory : FsNode → Env → QString → Nat → State → State
  | .node name kind readable link children, env, directoryPath, currentDepth, s =>
    match readStopRequested s with
    | (true, s1) => s1
    | (false, s1) =>
      match examineDirectory (.node name kind readable link children) env directoryPath
        currentDepth s1 with
      | (false, s2) => s2
      | (true, s2) =>
        if withinDepthLimit s2 currentDepth then
          processEntries children env directoryPath currentDepth s2
        else s2
/-- The loop of source lines 240 to 251 over the entries that
`entryInfoList(Dirs | NoDotAndDotDot | Readable | Hidden | System)` keeps:
the readable directories. -/
def processEntries : List FsNode → Env → QString → Nat → State → State
  | [], _, _, _, s => s
  | entry :: rest, env, directoryPath, currentDepth, s =>
    if entry.isDir && entry.isReadable then
      match readStopRequested s with
      | (true, s1) => s1
      | (false, s1) =>
        if entry.isDir && !entry.isSymbolicLink then
          processEntries rest env directoryPath currentDepth
            (processDirectory entry env (Qt.filePath directoryPath entry.name) (currentDepth + 1)
              s1)
        else processEntries rest env directoryPath currentDepth s1
    else processEntries rest env directoryPath currentDepth s
end

/-- One step of the `while (it.hasNext())` loop of `countTotalFolders` for an
entry the iterator returns (source lines 107 to 114).  The flag tells whether
the method has returned. -/
def countOne (s : State) (currentPath : QString) : Bool × State :=
  match readStopRequested s with
  | (true, s1) => (true, s1)
  | (false, s1) =>
    (false,
      if (s1.m_totalFoldersEstimate + 1) % 200 = 0 then
        emit { s1 with m_totalFoldersEstimate := s1.m_totalFoldersEstimate + 1,
                       m_lastProcessedPathForPeriodicEmit := currentPath }
          (.scanProgress currentPath 0 (s1.m_totalFoldersEstimate + 1) true)
      else
        { s1 with m_totalFoldersEstimate := s1.m_totalFoldersEstimate + 1,
                  m_lastProcessedPathForPeriodicEmit := currentPath })

mutual
/-- The entries a `QDirIterator` with `Subdirectories` returns from one
directory entry on: the entry itself when it passes the filter
`Dirs | Readable` (source line 105), then what lies below it when it is a
readable directory and not a symbolic link. -/
def countBelow : FsNode → QString → State → Bool × State
  | .node _ kind readable link children, path, s =>
    match (if decide (kind = FsKind.dir) && readable then countOne s path else (false, s)) with
    | (true, s1) => (true, s1)
    | (false, s1) =>
      if decide (kind = FsKind.dir) && !link && readable then countEntriesBelow children path s1
      else (false, s1)
/-- The same over the entries of a directory, in order. -/
def countEntriesBelow : List FsNode → QString → State → Bool × State
  | [], _, s => (false, s)
  | entry :: rest, directoryPath, s =>
    match countBelow entry (Qt.filePath directoryPath entry.name) s with
    | (true, s1) => (true, s1)
    | (false, s1) => countEntriesBelow rest directoryPath s1
end

/-- The loop over the roots in `countTotalFolders` (source lines 102 to 116). -/
def countRoots (env : Env) : List QString → State → Bool × State
  | [], s => (false, s)
  | rootPath :: rest, s =>
    match readStopRequested s with
    | (true, s1) => (true, s1)
    | (false, s1) =>
      match (if (env.info rootPath).isDir && (env.info rootPath).isReadable then
          countEntriesBelow (env.info rootPath).children rootPath s1
        else (false, s1)) with
      | (true, s2) => (true, s2)
      | (false, s2) => countRoots env rest s2

/-- Method `countTotalFolders` (source lines 97 to 122). -/
def countTotalFolders (env : Env) (s : State) : State :=
  match countRoots env s.m_scanRoots
    { s with m_totalFoldersEstimate := 0,
             m_isCurrentlyEstimatingForPeriodicEmit := true,
             m_lastProcessedPathForPeriodicEmit := "Counting folders (Phase 1/2)..." } with
  | (true, s1) => s1
  | (false, s1) =>
    match readStopRequested s1 with
    | (false, s2) =>
      emit { s2 with
             m_lastProcessedPathForPeriodicEmit :=
               "Counted " ++ toString s2.m_totalFoldersEstimate ++ " folders. Starting scan...",
             m_isCurrentlyEstimatingForPeriodicEmit := false }
        (.scanProgress
          ("Counted " ++ toString s2.m_totalFoldersEstimate ++ " folders. Starting scan...")
          0 s2.m_totalFoldersEstimate true)
    | (true, s2) => { s2 with m_isCurrentlyEstimatingForPeriodicEmit := false }

/-- The body of the loop over the roots in `performScan` before the call of
`processDirectory` (source lines 144 to 158).  The progress message is the
template `%1Scanning in: %2 (%3/%4)` filled by four chained `arg` calls; it is
written as the concatenation, which is what those calls give when the name of
the root directory holds no place marker of the form `%N`. -/
def announceRoot (s : State) (rootPath : QString) : State :=
  emit
    { s with
      m_currentScanRootForProgress := rootPath,
      m_lastProcessedPathForPeriodicEmit :=
        (if s.m_scanType = SCAN_TYPE_DEEP then "Phase 2/2: " else "") ++
          "Scanning in: " ++ Qt.dirName rootPath ++ " (" ++
          toString (s.m_currentScanRootIndex + 1) ++ "/" ++ toString s.m_totalScanRoots ++ ")" }
    (.scanProgress
      ((if s.m_scanType = SCAN_TYPE_DEEP then "Phase 2/2: " else "") ++
        "Scanning in: " ++ Qt.dirName rootPath ++ " (" ++
        toString (s.m_currentScanRootIndex + 1) ++ "/" ++ toString s.m_totalScanRoots ++ ")")
      (estimateForProgress s) s.m_foldersScannedCount false)

/-- The increment `++m_currentScanRootIndex` of that loop. -/
def nextRoot (s : State) : State :=
  { s with m_currentScanRootIndex := s.m_currentScanRootIndex + 1 }

/-- The loop over the roots in `performScan` (source lines 142 to 160), from
the root with index `m_currentScanRootIndex` on; `roots` are the roots still
to process. -/
def scanRoots (env : Env) : List QString → State → State
  | [], s => s
  | rootPath :: rest, s =>
    match readStopRequested s with
    | (true, s1) => s1
    | (false, s1) =>
      scanRoots env rest
        (nextRoot
          (processDirectory (env.info (Qt.toNativeSeparators rootPath)) env
            (Qt.toNativeSeparators rootPath) 0 (announceRoot s1 rootPath)))

/-- Method `performScan` (source lines 125 to 161). -/
def performScan (env : Env) (s : State) : State :=
  match (if s.m_scanType = SCAN_TYPE_DEEP then
      readStopRequested (countTotalFolders env
        (emit
          { s with m_lastProcessedPathForPeriodicEmit := "Phase 1/2: Counting total folders..." }
          (.scanProgress "Phase 1/2: Counting total folders..." 0 0 true)))
    else (false, { s with m_isCurrentlyEstimatingForPeriodicEmit := false })) with
  | (true, s1) => s1
  | (false, s1) =>
    scanRoots env s1.m_scanRoots
      { s1 with
        m_foldersScannedCount := 0,
        m_lastProcessedPathForPeriodicEmit :=
          if s1.m_scanType = SCAN_TYPE_QUICK then "Quick Scan: Scanning for projects..."
          else "Phase 2/2: Scanning for projects...",
        m_currentScanRootIndex := 0 }

/-- Slot `stopScan` (source lines 32 to 37), as far as the members go. -/
def stopScan (s : State) : State := { s with m_stopRequested := true }

/-- The assignments that open `doScan` (source lines 52 to 63). -/
def beginScan (s : State) (scanRoots : List QString) (scanType : QString) : State :=
  { s with m_scanRoots := scanRoots,
           m_scanType := scanType,
           m_stopRequested := false,
           m_totalFoldersEstimate := 0,
           m_foldersScannedCount := 0,
           m_foundProjectsList := [],
           m_scanErrors := [],
           m_currentScanRootIndex := 0,
           m_totalScanRoots := scanRoots.length,
           m_lastProcessedPathForPeriodicEmit := "Initializing scan...",
           m_isCurrentlyEstimatingForPeriodicEmit := decide (scanType = SCAN_TYPE_DEEP) }

/-- Slot `doScan` (source lines 51 to 95). -/
def doScan (env : Env) (s : State) (scanRoots : List QString) (scanType : QString) : State :=
  if scanRoots.isEmpty then
    emit (beginScan s scanRoots scanType)
      (.scanFinished (beginScan s scanRoots scanType).m_foundProjectsList "error"
        [("error_message", "No valid scan roots provided.")]
        (beginScan s scanRoots scanType).m_scanErrors)
  else
    match readStopRequested (performScan env (beginScan s scanRoots scanType)) with
    | (outcomeCanceled, s1) =>
      match readStopRequested s1 with
      | (stopSeen, s2) =>
        emit
          (emit s2
            (.scanProgress (if stopSeen then "Scan canceled." else "Scan complete.")
              s2.m_totalFoldersEstimate s2.m_foldersScannedCount false))
          (.scanFinished s2.m_foundProjectsList
            (if outcomeCanceled then "canceled" else "completed")
            (if stopSeen then [("stop_details", "")] else []) s2.m_scanErrors)

/-! ### Notions used to state what a scan does -/

/-- Whether a signal is `scanFinished`. -/
def Signal.isScanFinished : Signal → Bool
  | .scanFinished _ _ _ _ => true
  | _ => false

/-- The number of `scanFinished` among some signals. -/
def countScanFinished (signals : List Signal) : Nat :=
  (signals.filter Signal.isScanFinished).length

/-- No stop is requested: the flag is clear and `stopScan()` will not run. -/
def NoStop (s : State) : Prop := s.m_stopRequested = false ∧ s.stopArrivesAfter = none

/-- The answer of the strict check for a directory; it does not depend on the
record passed by reference. -/
def strictCandidate (env : Env) (node : FsNode) (dirPath : QString) : Bool :=
  (checkForSoftudioProject env node dirPath {}).1

/-- The directory at path `q` and depth `d` is reached from the directory
`node` at `path` and depth `depth` by going down through entries, each step
leaving a directory that is not a strict candidate and lies within the depth
limit of the scan type. -/
inductive Reaches (env : Env) (scanType : QString) :
    FsNode → QString → Nat → QString → Nat → Prop where
  | here (node : FsNode) (path : QString) (depth : Nat) :
      Reaches env scanType node path depth (Qt.toNativeSeparators path) depth
  | through (node entry : FsNode) (path : QString) (depth : Nat) (q : QString) (d : Nat) :
      entry ∈ node.children →
      strictCandidate env node path = false →
      (scanType = SCAN_TYPE_DEEP ∨
        (scanType = SCAN_TYPE_QUICK ∧ depth < QUICK_SCAN_DEPTH_LIMIT)) →
      Reaches env scanType entry (Qt.filePath path entry.name) (depth + 1) q d →
      Reaches env scanType node path depth q d

/-- What the walker records for a directory processed at depth `d`: either a
strict candidate (not heuristically found, flagged, kind `softudio_potential`),
or a heuristic find (heuristically found, not flagged, a kind that starts with
`heuristic_`), the latter only where the heuristic check is made: in a deep
scan, or in a quick scan at a depth below the limit. -/
def Classified (scanType : QString) (r : ProjectInfo) (d : Nat) : Prop :=
  (r.heuristicallyFound = false ∧ r.isSoftudioProjectFlag = true ∧
    r.type = "softudio_potential") ∨
  (r.heuristicallyFound = true ∧ r.isSoftudioProjectFlag = false ∧
    (∃ heuristicType, r.type = "heuristic_" ++ heuristicType) ∧
    (scanType = SCAN_TYPE_DEEP ∨
      (scanType = SCAN_TYPE_QUICK ∧ d < QUICK_SCAN_DEPTH_LIMIT)))

/-- The state `s'` comes from `s` by a piece of the scan: the scan type and
the roots are kept, and the three records of what was done only grow, every directory noted
in `visited` satisfying `V`, every record added to the found list and every
record emitted being the record of such a directory and classified as the walker
classifies at its depth, no `scanFinished` being emitted, and every record
sent for validation being flagged as a Softudio candidate and not
heuristically found; and if no stop is requested before, none is after. -/
structure Extends (V : QString × Nat → Prop) (s s' : State) : Prop where
  scanType : s'.m_scanType = s.m_scanType
  roots : s'.m_scanRoots = s.m_scanRoots
  visited : ∃ added, s'.visited = s.visited ++ added ∧ ∀ v ∈ added, V v
  found : ∃ added, s'.m_foundProjectsList = s.m_foundProjectsList ++ added ∧
    ∀ r ∈ added, ∃ d, V (r.path, d) ∧ Classified s.m_scanType r d
  emitted : ∃ added, s'.emitted = s.emitted ++ added ∧
    ∀ signal ∈ added, signal.isScanFinished = false ∧
      (∀ r, signal = .projectFound r → ∃ d, V (r.path, d) ∧ Classified s.m_scanType r d) ∧
      (∀ r, signal = .validationRequested r →
        r.isSoftudioProjectFlag = true ∧ r.heuristicallyFound = false ∧ ∃ d, V (r.path, d))
  errors : ∃ added, s'.m_scanErrors = s.m_scanErrors ++ added
  noStop : NoStop s → NoStop s'

/-! ### A small file system for the examples -/

/-- A readable regular file. -/
def exampleFile (name : QString) : FsNode := .node name .file true false []

/-- A readable directory that is not a symbolic link. -/
def exampleDir (name : QString) (children : List FsNode) : FsNode :=
  .node name .dir true false children

/-- The directories `parts`, each inside the one before, the last holding
`leaf`. -/
def exampleChain : List QString → List FsNode → List FsNode
  | [], leaf => leaf
  | part :: rest, leaf => [exampleDir part (exampleChain rest leaf)]

/-- The directory `/r/ProjectX/sub`: it holds a `package.json`. -/
def exampleSub : FsNode := exampleDir "sub" [exampleFile "package.json"]

/-- The directory `/r/ProjectX`: it holds the 13-segment chain with the file
`.ProjectX.softudio` at its end, and the directory `sub`. -/
def exampleProjectX : FsNode :=
  exampleDir "ProjectX"
    (exampleChain SOFTUDIO_NESTED_PATH_PARTS [exampleFile ".ProjectX.softudio"] ++ [exampleSub])

/-- A file system that holds `/r/ProjectX` and what lies below it, and nothing
else. -/
def exampleEnv : Env :=
  { isLetterOrNumber := Char.isAlphanum,
    info := fun path =>
      if path = "/r/ProjectX" then exampleProjectX
      else if path = "/r/ProjectX/sub" then exampleSub
      else FsNode.absent,
    cdUp := fun _ => none,
    absoluteDirName := fun _ => "",
    openText := fun _ => .error "No such file or directory" }

/-- The directory `/w`: three levels below it, at `/w/a/b`, lie the directory
`Npm`, which holds a `package.json`, and a copy of `ProjectX`. -/
def exampleWorkspace : FsNode :=
  exampleDir "w"
    [exampleDir "a"
      [exampleDir "b" [exampleDir "Npm" [exampleFile "package.json"], exampleProjectX]]]

/-- A file system that holds `/w` and what lies below it down to `/w/a/b/Npm`
and `/w/a/b/ProjectX`, and nothing else. -/
def exampleWorkspaceEnv : Env :=
  { isLetterOrNumber := Char.isAlphanum,
    info := fun path =>
      if path = "/w" then exampleWorkspace
      else if path = "/w/a" then
        exampleDir "a"
          [exampleDir "b" [exampleDir "Npm" [exampleFile "package.json"], exampleProjectX]]
      else if path = "/w/a/b" then
        exampleDir "b" [exampleDir "Npm" [exampleFile "package.json"], exampleProjectX]
      else if path = "/w/a/b/Npm" then exampleDir "Npm" [exampleFile "package.json"]
      else if path = "/w/a/b/ProjectX" then exampleProjectX
      else FsNode.absent,
    cdUp := fun _ => none,
    absoluteDirName := fun _ => "",
    openText := fun _ => .error "No such file or directory" }

end ScanWorker

namespace ScannerDialog

/-- The connection of the validator's `projectValidated` to the coordinator's
`onProjectFileValidated` (source line 605): an emitted result is handled with
its six arguments. -/
def handleResult (s : State) (result : ValidationResult) : State :=
  onProjectFileValidated s result.originalInfo result.isValid result.validatedName
    result.validatedUid result.timedOut result.errorMessage

end ScannerDialog

/-! ## The three objects as `startScanThreads` connects them

The walker's `validationRequested` is connected to the coordinator's signal
`requestValidateProject`, that signal to the validator's slot
`validateProject`, and the validator's `projectValidated` to the coordinator's
slot `onProjectFileValidated` (source lines 597 to 605).  So the slot
`validateProject` runs on the records the walker sends for validation, and
the slot `onProjectFileValidated` on the results the validator emits. -/

namespace ProjectFileValidatorWorker

/-- The results among what the outside sees of the validator: those of its
rejections and those of its answers. -/
def resultsOf : List Observed → List ValidationResult
  | [] => []
  | .accepted _ :: rest => resultsOf rest
  | .rejected result :: rest => result :: resultsOf rest
  | .answered result :: rest => result :: resultsOf rest

/-- The validator emits `result`: a validator as constructed, driven by some
sequence of deliveries in which `validateProject` is called only with records
satisfying `requested`, emits it. -/
def Emits (requested : ProjectInfo → Prop) (result : ValidationResult) : Prop :=
  ∃ deliveries : List Delivery,
    (∀ p, Delivery.validateProjectCalled p ∈ deliveries → requested p) ∧
    result ∈ resultsOf (deliverSequence {} deliveries).2

end ProjectFileValidatorWorker

namespace ScanWorker

/-- The walker sends the record `p` for validation: some scan, in some file
system, of some roots, with some scan type and a stop request arriving at
some moment or never, emits `validationRequested` with it. -/
def Requests (p : ProjectInfo) : Prop :=
  ∃ (env : Env) (stop : Option Nat) (scanRoots : List QString) (scanType : QString),
    Signal.validationRequested p ∈
      (doScan env { stopArrivesAfter := stop } scanRoots scanType).emitted

end ScanWorker

namespace ScannerDialog

/-- An event the coordinator can receive, the validator being asked to
validate only records satisfying `requested`: a validation result is one the
validator emits; found events and terminal events are not restricted. -/
def Receivable (requested : ProjectInfo → Prop) : Event → Prop
  | .projectValidated originalInfo isValid validatedName validatedUid timedOut errorMessage =>
    ProjectFileValidatorWorker.Emits requested
      { originalInfo := originalInfo, isValid := isValid, validatedName := validatedName,
        validatedUid := validatedUid, timedOut := timedOut, errorMessage := errorMessage }
  | _ => True

end ScannerDialog


/-! ## Theorems -/

theorem Qt.isEmpty_eq_true (s : QString) : Qt.isEmpty s = true ↔ s = "" := by
  simp [Qt.isEmpty]

theorem Qt.isEmpty_eq_false (s : QString) : Qt.isEmpty s = false ↔ s ≠ "" := by
  simp [Qt.isEmpty]

namespace ProjectFileValidatorWorker

theorem processLine_lineCount (f : FoundFields) (rawLine : QString) :
    (processLine f rawLine).lineCount = f.lineCount + 1 := by
  dsimp only [processLine]
  split_ifs <;> rfl

/-- The loop reads nothing beyond the lines the cap still allows. -/
theorem readLoop_take (irq : Nat → Bool) (lines : List QString) (f : FoundFields) :
    readLoop irq lines f = readLoop irq (lines.take (maxLinesToRead - f.lineCount)) f := by
  induction lines generalizing f with
  | nil => simp
  | cons l rest ih =>
    by_cases hlt : f.lineCount < maxLinesToRead
    · obtain ⟨k, hk⟩ : ∃ k, maxLinesToRead - f.lineCount = k + 1 :=
        ⟨maxLinesToRead - f.lineCount - 1, by omega⟩
      have hk2 : maxLinesToRead - (processLine f l).lineCount = k := by
        rw [processLine_lineCount]; omega
      rw [hk, List.take_succ_cons]
      simp only [readLoop, hlt, if_true]
      by_cases hi : irq f.lineCount = true
      · simp [hi]
      · simp only [hi]
        rw [ih (processLine f l), hk2]
    · have h0 : maxLinesToRead - f.lineCount = 0 := by omega
      rw [h0]
      simp [readLoop, hlt]

/-- Without interruption the loop is a left fold of `processLine` over the
lines the cap allows. -/
theorem readLoop_neverInterrupted (lines : List QString) (f : FoundFields) :
    readLoop neverInterrupted lines f =
      .finished ((lines.take (maxLinesToRead - f.lineCount)).foldl processLine f) := by
  induction lines generalizing f with
  | nil => simp [readLoop]
  | cons l rest ih =>
    by_cases hlt : f.lineCount < maxLinesToRead
    · obtain ⟨k, hk⟩ : ∃ k, maxLinesToRead - f.lineCount = k + 1 :=
        ⟨maxLinesToRead - f.lineCount - 1, by omega⟩
      have hk2 : maxLinesToRead - (processLine f l).lineCount = k := by
        rw [processLine_lineCount]; omega
      rw [hk, List.take_succ_cons, List.foldl_cons]
      simp only [readLoop, hlt, if_true, neverInterrupted]
      have := ih (processLine f l)
      rw [hk2] at this
      simpa [neverInterrupted] using this
    · have h0 : maxLinesToRead - f.lineCount = 0 := by omega
      rw [h0]
      simp [readLoop, hlt]

/-- The fields found by an uninterrupted read of `lines`. -/
theorem readLoop_initial (lines : List QString) :
    readLoop neverInterrupted lines initialFields =
      .finished ((lines.take maxLinesToRead).foldl processLine initialFields) := by
  simpa [initialFields] using readLoop_neverInterrupted lines initialFields

/-- C1. Content judgement of `performActualValidation` on an opened file read
without interruption: the loop ends with found fields `f`, the result is valid
exactly when the found signature is the constant `SOFTUDIO_PROJECT_FILE_V1.0`
and the found UID is non-empty, and a valid result carries the found UID and,
as name, the found project name if non-empty and the folder name otherwise. -/
theorem performActualValidation_valid_iff (projectToValidate : ProjectInfo)
    (folderName : QString) (lines : List QString) :
    ∃ f, readLoop neverInterrupted lines initialFields = .finished f ∧
      ((performActualValidationOnOpenFile neverInterrupted projectToValidate folderName
          lines).isValid = true ↔
        f.foundSignature = "SOFTUDIO_PROJECT_FILE_V1.0" ∧ f.foundUid ≠ "") ∧
      ((performActualValidationOnOpenFile neverInterrupted projectToValidate folderName
          lines).isValid = true →
        (performActualValidationOnOpenFile neverInterrupted projectToValidate folderName
          lines).validatedUid = f.foundUid ∧
        (performActualValidationOnOpenFile neverInterrupted projectToValidate folderName
          lines).validatedName =
            if f.foundProjectNameInFile = "" then folderName else f.foundProjectNameInFile) := by
  refine ⟨_, readLoop_initial lines, ?_⟩
  simp only [performActualValidationOnOpenFile, readLoop_initial]
  generalize (lines.take maxLinesToRead).foldl processLine initialFields = f
  by_cases h : f.foundSignature = SOFTUDIO_FILE_SIGNATURE ∧ Qt.isEmpty f.foundUid = false
  · have h2 : f.foundSignature = "SOFTUDIO_PROJECT_FILE_V1.0" ∧ f.foundUid ≠ "" :=
      ⟨h.1, (Qt.isEmpty_eq_false _).1 h.2⟩
    rw [judge, if_pos h]
    refine ⟨⟨fun _ => h2, fun _ => rfl⟩, fun _ => ⟨rfl, ?_⟩⟩
    by_cases hn : f.foundProjectNameInFile = "" <;> simp [Qt.isEmpty, hn]
  · have h2 : ¬ (f.foundSignature = "SOFTUDIO_PROJECT_FILE_V1.0" ∧ f.foundUid ≠ "") :=
      fun h3 => h ⟨h3.1, (Qt.isEmpty_eq_false _).2 h3.2⟩
    rw [judge, if_neg h]
    exact ⟨⟨fun h3 => Bool.noConfusion h3, fun h3 => absurd h3 h2⟩,
      fun h3 => Bool.noConfusion h3⟩

/-! ### Which occurrence of a field the loop keeps -/

theorem startsWith_uid_not_signature (s : QString) (h : Qt.startsWith s "UID: " = true) :
    Qt.startsWith s "Signature: " = false := by
  have hu : ("UID: " : String).data = ['U', 'I', 'D', ':', ' '] := rfl
  have hs : ("Signature: " : String).data =
      ['S', 'i', 'g', 'n', 'a', 't', 'u', 'r', 'e', ':', ' '] := rfl
  unfold Qt.startsWith at h ⊢
  rw [hu] at h
  rw [hs]
  cases hd : s.data with
  | nil => rfl
  | cons c cs =>
    rw [hd] at h
    simp only [List.isPrefixOf, Bool.and_eq_true, beq_iff_eq] at h
    have hc : ('S' == c) = false := by rw [← h.1]; decide
    simp [List.isPrefixOf, hc]

theorem startsWith_name_not_signature (s : QString)
    (h : Qt.startsWith s "ProjectName: " = true) :
    Qt.startsWith s "Signature: " = false := by
  have hp : ("ProjectName: " : String).data =
      ['P', 'r', 'o', 'j', 'e', 'c', 't', 'N', 'a', 'm', 'e', ':', ' '] := rfl
  have hs : ("Signature: " : String).data =
      ['S', 'i', 'g', 'n', 'a', 't', 'u', 'r', 'e', ':', ' '] := rfl
  unfold Qt.startsWith at h ⊢
  rw [hp] at h
  rw [hs]
  cases hd : s.data with
  | nil => rfl
  | cons c cs =>
    rw [hd] at h
    simp only [List.isPrefixOf, Bool.and_eq_true, beq_iff_eq] at h
    have hc : ('S' == c) = false := by rw [← h.1]; decide
    simp [List.isPrefixOf, hc]

theorem startsWith_name_not_uid (s : QString)
    (h : Qt.startsWith s "ProjectName: " = true) :
    Qt.startsWith s "UID: " = false := by
  have hp : ("ProjectName: " : String).data =
      ['P', 'r', 'o', 'j', 'e', 'c', 't', 'N', 'a', 'm', 'e', ':', ' '] := rfl
  have hu : ("UID: " : String).data = ['U', 'I', 'D', ':', ' '] := rfl
  unfold Qt.startsWith at h ⊢
  rw [hp] at h
  rw [hu]
  cases hd : s.data with
  | nil => rfl
  | cons c cs =>
    rw [hd] at h
    simp only [List.isPrefixOf, Bool.and_eq_true, beq_iff_eq] at h
    have hc : ('U' == c) = false := by rw [← h.1]; decide
    simp [List.isPrefixOf, hc]

theorem processLine_signature_of_carries (f : FoundFields) (l : QString)
    (h : carries "Signature: " l = true) :
    (processLine f l).foundSignature = valueAfter "Signature: " l := by
  unfold carries at h
  simp [processLine, valueAfter, h]

theorem processLine_signature_of_not (f : FoundFields) (l : QString)
    (h : carries "Signature: " l = false) :
    (processLine f l).foundSignature = f.foundSignature := by
  unfold carries at h
  dsimp only [processLine]
  rw [h]
  simp only [Bool.false_eq_true, if_false]
  split_ifs <;> rfl

theorem processLine_uid_of_carries (f : FoundFields) (l : QString)
    (h : carries "UID: " l = true) :
    (processLine f l).foundUid = valueAfter "UID: " l := by
  unfold carries at h
  have h1 := startsWith_uid_not_signature _ h
  simp [processLine, valueAfter, h, h1]

theorem processLine_uid_of_not (f : FoundFields) (l : QString)
    (h : carries "UID: " l = false) :
    (processLine f l).foundUid = f.foundUid := by
  unfold carries at h
  dsimp only [processLine]
  rw [h]
  simp only [Bool.false_eq_true, if_false]
  split_ifs <;> rfl

theorem processLine_name_of_carries (f : FoundFields) (l : QString)
    (h : carries "ProjectName: " l = true) :
    (processLine f l).foundProjectNameInFile = valueAfter "ProjectName: " l := by
  unfold carries at h
  have h1 := startsWith_name_not_signature _ h
  have h2 := startsWith_name_not_uid _ h
  simp [processLine, valueAfter, h, h1, h2]

theorem processLine_name_of_not (f : FoundFields) (l : QString)
    (h : carries "ProjectName: " l = false) :
    (processLine f l).foundProjectNameInFile = f.foundProjectNameInFile := by
  unfold carries at h
  dsimp only [processLine]
  rw [h]
  simp only [Bool.false_eq_true, if_false]
  split_ifs <;> rfl

theorem foldl_signature_of_not (post : List QString) (f : FoundFields)
    (h : ∀ m ∈ post, carries "Signature: " m = false) :
    (post.foldl processLine f).foundSignature = f.foundSignature := by
  induction post generalizing f with
  | nil => rfl
  | cons m rest ih =>
    rw [List.foldl_cons, ih _ (fun x hx => h x (List.mem_cons_of_mem _ hx)),
      processLine_signature_of_not _ _ (h m (List.mem_cons_self _ _))]

theorem foldl_uid_of_not (post : List QString) (f : FoundFields)
    (h : ∀ m ∈ post, carries "UID: " m = false) :
    (post.foldl processLine f).foundUid = f.foundUid := by
  induction post generalizing f with
  | nil => rfl
  | cons m rest ih =>
    rw [List.foldl_cons, ih _ (fun x hx => h x (List.mem_cons_of_mem _ hx)),
      processLine_uid_of_not _ _ (h m (List.mem_cons_self _ _))]

theorem foldl_name_of_not (post : List QString) (f : FoundFields)
    (h : ∀ m ∈ post, carries "ProjectName: " m = false) :
    (post.foldl processLine f).foundProjectNameInFile = f.foundProjectNameInFile := by
  induction post generalizing f with
  | nil => rfl
  | cons m rest ih =>
    rw [List.foldl_cons, ih _ (fun x hx => h x (List.mem_cons_of_mem _ hx)),
      processLine_name_of_not _ _ (h m (List.mem_cons_self _ _))]

/-- C2, refuted as stated. With a file of the two lines `Signature: A` and
`Signature: B`, the first line carries the signature prefix, yet the value the
loop ends with is not the value of that first line. -/
theorem readLoop_first_occurrence_overwritten :
    ∃ f, readLoop neverInterrupted ["Signature: A", "Signature: B"] initialFields =
        .finished f ∧
      carries "Signature: " "Signature: A" = true ∧
      f.foundSignature = "B" ∧
      f.foundSignature ≠ valueAfter "Signature: " "Signature: A" :=
  ⟨{ foundSignature := "B", lineCount := 2 }, by decide, by decide, rfl, by decide⟩

/-- C2, amended. Among the lines the loop reads (the first 1000), the LAST line
carrying a prefix decides the found value: if the read lines are
`pre ++ l :: post`, `l` carries a prefix and no line of `post` carries it, the
value found for that field is the text of `l` after the prefix, whatever `pre`
holds. This is so for each of `Signature: `, `UID: ` and `ProjectName: `. -/
theorem readLoop_last_occurrence_wins (lines pre post : List QString) (l : QString)
    (h : lines.take maxLinesToRead = pre ++ l :: post) :
    ∃ f, readLoop neverInterrupted lines initialFields = .finished f ∧
      (carries "Signature: " l = true → (∀ m ∈ post, carries "Signature: " m = false) →
        f.foundSignature = valueAfter "Signature: " l) ∧
      (carries "UID: " l = true → (∀ m ∈ post, carries "UID: " m = false) →
        f.foundUid = valueAfter "UID: " l) ∧
      (carries "ProjectName: " l = true →
        (∀ m ∈ post, carries "ProjectName: " m = false) →
        f.foundProjectNameInFile = valueAfter "ProjectName: " l) := by
  refine ⟨_, readLoop_initial lines, ?_, ?_, ?_⟩
  · intro hl hpost
    rw [h, List.foldl_append, List.foldl_cons, foldl_signature_of_not _ _ hpost,
      processLine_signature_of_carries _ _ hl]
  · intro hl hpost
    rw [h, List.foldl_append, List.foldl_cons, foldl_uid_of_not _ _ hpost,
      processLine_uid_of_carries _ _ hl]
  · intro hl hpost
    rw [h, List.foldl_append, List.foldl_cons, foldl_name_of_not _ _ hpost,
      processLine_name_of_carries _ _ hl]

/-- Witness for C2 amended: in a four-line file with two signature lines the
found signature is the value of the second one. -/
theorem readLoop_last_occurrence_wins_witness :
    ∃ f, readLoop neverInterrupted
        ["Signature: A", "UID: 1", "  Signature: B", "UID: 2"] initialFields = .finished f ∧
      f.foundSignature = "B" := by
  obtain ⟨f, hf, hs, -, -⟩ := readLoop_last_occurrence_wins
    ["Signature: A", "UID: 1", "  Signature: B", "UID: 2"]
    ["Signature: A", "UID: 1"] ["UID: 2"] "  Signature: B" (by decide)
  exact ⟨f, hf, (hs (by decide) (by decide)).trans (by decide)⟩

/-! ### The 1000-line cap -/

theorem foldl_signature_of_none (ls : List QString)
    (h : ∀ m ∈ ls, carries "Signature: " m = false) :
    (ls.foldl processLine initialFields).foundSignature = "" :=
  foldl_signature_of_not ls initialFields h

theorem foldl_uid_of_none (ls : List QString)
    (h : ∀ m ∈ ls, carries "UID: " m = false) :
    (ls.foldl processLine initialFields).foundUid = "" :=
  foldl_uid_of_not ls initialFields h

theorem foldl_name_of_none (ls : List QString)
    (h : ∀ m ∈ ls, carries "ProjectName: " m = false) :
    (ls.foldl processLine initialFields).foundProjectNameInFile = "" :=
  foldl_name_of_not ls initialFields h

/-- C3. `performActualValidation` judges on the first 1000 lines only: two
files whose first 1000 lines agree give the same result (valid flag, name, uid
and reason; under the same interruption requests), and a field that no line
among the first 1000 carries is found empty, whatever the later lines hold. -/
theorem performActualValidation_judges_first_thousand (irq : Nat → Bool)
    (projectToValidate : ProjectInfo) (folderName : QString) (lines₁ lines₂ : List QString)
    (h : lines₁.take 1000 = lines₂.take 1000) :
    performActualValidationOnOpenFile irq projectToValidate folderName lines₁ =
        performActualValidationOnOpenFile irq projectToValidate folderName lines₂ ∧
      ∃ f, readLoop neverInterrupted lines₁ initialFields = .finished f ∧
        ((∀ m ∈ lines₁.take 1000, carries "Signature: " m = false) → f.foundSignature = "") ∧
        ((∀ m ∈ lines₁.take 1000, carries "UID: " m = false) → f.foundUid = "") ∧
        ((∀ m ∈ lines₁.take 1000, carries "ProjectName: " m = false) →
          f.foundProjectNameInFile = "") := by
  constructor
  · have e₁ := readLoop_take irq lines₁ initialFields
    have e₂ := readLoop_take irq lines₂ initialFields
    have hc : maxLinesToRead - initialFields.lineCount = 1000 := rfl
    rw [hc] at e₁ e₂
    unfold performActualValidationOnOpenFile
    rw [e₁, e₂, h]
  · exact ⟨_, readLoop_initial lines₁, foldl_signature_of_none _, foldl_uid_of_none _,
      foldl_name_of_none _⟩

/-- Witness for C3: a file of 1000 filler lines followed by a valid signature
and UID is judged exactly as the 1000 filler lines alone, and its signature is
found empty. -/
theorem performActualValidation_judges_first_thousand_witness :
    performActualValidationOnOpenFile neverInterrupted { path := "/r/P" } "P"
        (List.replicate 1000 "x" ++ ["Signature: SOFTUDIO_PROJECT_FILE_V1.0", "UID: u"]) =
      performActualValidationOnOpenFile neverInterrupted { path := "/r/P" } "P"
        (List.replicate 1000 "x") ∧
    ∃ f, readLoop neverInterrupted
        (List.replicate 1000 "x" ++ ["Signature: SOFTUDIO_PROJECT_FILE_V1.0", "UID: u"])
        initialFields = .finished f ∧ f.foundSignature = "" := by
  have htake : (List.replicate 1000 "x" ++
      ["Signature: SOFTUDIO_PROJECT_FILE_V1.0", "UID: u"]).take 1000 =
      (List.replicate 1000 "x").take 1000 :=
    List.take_append_of_le_length (List.length_replicate _ _).ge
  obtain ⟨h1, f, hf, hs, -, -⟩ := performActualValidation_judges_first_thousand
    neverInterrupted { path := "/r/P" } "P" _ _ htake
  refine ⟨h1, f, hf, hs ?_⟩
  intro m hm
  rw [htake] at hm
  rw [List.eq_of_mem_replicate (List.mem_of_mem_take hm)]
  decide

end ProjectFileValidatorWorker

/-! ### `ProjectInfo::operator==` -/

namespace ProjectInfo

/-- C4, refuted as stated. Two records with different paths and the same
non-empty uid satisfy the claimed condition (both uids non-empty and equal),
yet `operator==` returns false on them. -/
theorem equals_not_dual_key :
    ¬ (equals { path := "/a", uid := "u1" } { path := "/b", uid := "u1" } = true ↔
        (("/a" : QString) = "/b" ∨
          ((("u1" : QString) ≠ "" ∧ ("u1" : QString) ≠ "") ∧ ("u1" : QString) = "u1"))) := by
  decide

/-- C4, amended. For every two records A and B, `operator==` returns true if
and only if A.path equals B.path and, in addition, A.uid is empty, or B.uid is
empty, or A.uid equals B.uid. -/
theorem equals_iff (a b : ProjectInfo) :
    equals a b = true ↔ a.path = b.path ∧ (a.uid = "" ∨ b.uid = "" ∨ a.uid = b.uid) := by
  simp [equals, Qt.isEmpty, or_assoc]

end ProjectInfo

/-! ### The coordinator's master list -/

namespace ScannerDialog

theorem updatedInfo_path (originalInfo : ProjectInfo) (isValid : Bool)
    (validatedName validatedUid : QString) :
    (updatedInfo originalInfo isValid validatedName validatedUid).path = originalInfo.path := by
  dsimp only [updatedInfo]
  split_ifs <;> rfl

theorem overwriteFirstByPath_paths (updated : ProjectInfo) (master l : List ProjectInfo)
    (h : overwriteFirstByPath updated master = some l) :
    l.map ProjectInfo.path = master.map ProjectInfo.path := by
  induction master generalizing l with
  | nil => simp [overwriteFirstByPath] at h
  | cons p rest ih =>
    unfold overwriteFirstByPath at h
    split_ifs at h with hp
    · cases h
      simp [hp]
    · cases hr : overwriteFirstByPath updated rest with
      | none => simp [hr] at h
      | some l' =>
        rw [hr] at h
        cases h
        simp [ih l' hr]

theorem overwriteFirstByPath_none (updated : ProjectInfo) (master : List ProjectInfo)
    (h : overwriteFirstByPath updated master = none) :
    ∀ p ∈ master, p.path ≠ updated.path := by
  induction master with
  | nil => simp
  | cons p rest ih =>
    unfold overwriteFirstByPath at h
    split_ifs at h with hp
    cases hr : overwriteFirstByPath updated rest with
    | none =>
      intro q hq
      rcases List.mem_cons.1 hq with rfl | hq
      · exact hp
      · exact ih hr q hq
    | some l' => simp [hr] at h

theorem nodup_paths_append (master : List ProjectInfo) (project : ProjectInfo)
    (hn : (master.map ProjectInfo.path).Nodup)
    (hnew : ∀ p ∈ master, p.path ≠ project.path) :
    ((master ++ [project]).map ProjectInfo.path).Nodup := by
  rw [List.map_append, List.nodup_append]
  refine ⟨hn, by simp, ?_⟩
  intro x hx hx2
  simp only [List.map_cons, List.map_nil, List.mem_singleton] at hx2
  obtain ⟨q, hq, rfl⟩ := List.mem_map.1 hx
  exact hnew q hq hx2

theorem masterAfterValidation_nodup (master : List ProjectInfo) (updated : ProjectInfo)
    (hn : (master.map ProjectInfo.path).Nodup) :
    ((masterAfterValidation master updated).map ProjectInfo.path).Nodup := by
  unfold masterAfterValidation
  cases hr : overwriteFirstByPath updated master with
  | none => exact nodup_paths_append master updated hn (overwriteFirstByPath_none _ _ hr)
  | some l =>
    show (l.map ProjectInfo.path).Nodup
    rw [overwriteFirstByPath_paths _ _ _ hr]
    exact hn

theorem addFound_nodup (s : State) (project : ProjectInfo)
    (hn : (s.m_allFoundProjectsInternalList.map ProjectInfo.path).Nodup) :
    ((addFoundProjectToInternalList s project).m_allFoundProjectsInternalList.map
      ProjectInfo.path).Nodup := by
  unfold addFoundProjectToInternalList
  split_ifs with h
  · exact hn
  · refine nodup_paths_append _ _ hn ?_
    intro q hq hqp
    exact h (List.any_eq_true.2 ⟨q, hq, by simpa using hqp⟩)

theorem deliver_nodup (s : State) (e : Event)
    (hn : (s.m_allFoundProjectsInternalList.map ProjectInfo.path).Nodup) :
    ((deliver s e).m_allFoundProjectsInternalList.map ProjectInfo.path).Nodup := by
  cases e with
  | projectFound project => exact addFound_nodup s project hn
  | projectValidated o v n u t m => exact masterAfterValidation_nodup _ _ hn
  | scanFinished a o x errs => exact hn

theorem deliverAll_nodup (events : List Event) (s : State)
    (hn : (s.m_allFoundProjectsInternalList.map ProjectInfo.path).Nodup) :
    ((deliverAll s events).m_allFoundProjectsInternalList.map ProjectInfo.path).Nodup := by
  induction events generalizing s with
  | nil => exact hn
  | cons e rest ih => exact ih (deliver s e) (deliver_nodup s e hn)

theorem startScanThreads_lists (s : State) :
    (startScanThreads s).1.m_allFoundProjectsInternalList = s.m_allFoundProjectsInternalList ∧
    (startScanThreads s).1.m_validatedProjectsForResultsTable =
      s.m_validatedProjectsForResultsTable ∧
    (startScanThreads s).1.m_currentScanErrors = s.m_currentScanErrors ∧
    (startScanThreads s).1.m_knownProjectUids = s.m_knownProjectUids := by
  unfold startScanThreads
  split_ifs <;> exact ⟨rfl, rfl, rfl, rfl⟩

theorem startActualScan_lists (s : State) (paths : List QString) (scanType : QString) :
    (startActualScan s paths scanType).1.m_allFoundProjectsInternalList = [] ∧
    (startActualScan s paths scanType).1.m_validatedProjectsForResultsTable = [] ∧
    (startActualScan s paths scanType).1.m_currentScanErrors = [] ∧
    (startActualScan s paths scanType).1.m_knownProjectUids = s.m_knownProjectUids := by
  unfold startActualScan
  dsimp only
  obtain ⟨h1, h2, h3, h4⟩ := startScanThreads_lists
    { s with m_allFoundProjectsInternalList := [],
             m_validatedProjectsForResultsTable := [],
             m_currentScanErrors := [],
             m_scanCancelled := false,
             m_scanInProgress := true }
  exact ⟨h1, h2, h3, h4⟩

/-- C5. Whatever sequence of found, validated and finished events is delivered
after `startActualScan` has emptied the master list, no two records of the
master list have the same path; and delivering the same found event twice
leaves the coordinator exactly as delivering it once. -/
theorem master_list_one_record_per_path (s : State) (selectedScanPaths : List QString)
    (selectedScanType : QString) (events : List Event) :
    ((deliverAll (startActualScan s selectedScanPaths selectedScanType).1
        events).m_allFoundProjectsInternalList.map ProjectInfo.path).Nodup ∧
    ∀ (t : State) (project : ProjectInfo),
      addFoundProjectToInternalList (addFoundProjectToInternalList t project) project =
        addFoundProjectToInternalList t project := by
  constructor
  · apply deliverAll_nodup
    rw [(startActualScan_lists s selectedScanPaths selectedScanType).1]
    exact List.nodup_nil
  · intro t project
    by_cases h : t.m_allFoundProjectsInternalList.any
        (fun p => decide (p.path = project.path)) = true
    · simp [addFoundProjectToInternalList, h]
    · have h2 : (t.m_allFoundProjectsInternalList ++ [project]).any
          (fun p => decide (p.path = project.path)) = true := by
        simp
      simp only [addFoundProjectToInternalList, h, h2, if_true]
      simp

/-! ### The coordinator's results list -/

theorem deliver_known (s : State) (e : Event) :
    (deliver s e).m_knownProjectUids = s.m_knownProjectUids := by
  cases e with
  | projectFound project =>
    show (addFoundProjectToInternalList s project).m_knownProjectUids = _
    unfold addFoundProjectToInternalList
    split_ifs <;> rfl
  | projectValidated o v n u t m => rfl
  | scanFinished a o x errs => rfl

theorem deliverAll_known (events : List Event) (s : State) :
    (deliverAll s events).m_knownProjectUids = s.m_knownProjectUids := by
  induction events generalizing s with
  | nil => rfl
  | cons e rest ih =>
    show (deliverAll (deliver s e) rest).m_knownProjectUids = _
    rw [ih (deliver s e), deliver_known]

theorem deliver_results (s : State) (e : Event) :
    (deliver s e).m_validatedProjectsForResultsTable = s.m_validatedProjectsForResultsTable ∨
    ∃ o v n u, (deliver s e).m_validatedProjectsForResultsTable =
      resultsAfterValidation s.m_validatedProjectsForResultsTable s.m_knownProjectUids
        (updatedInfo o v n u) := by
  cases e with
  | projectFound project =>
    left
    show (addFoundProjectToInternalList s project).m_validatedProjectsForResultsTable = _
    unfold addFoundProjectToInternalList
    split_ifs <;> rfl
  | projectValidated o v n u t m => exact Or.inr ⟨o, v, n, u, rfl⟩
  | scanFinished a o x errs => exact Or.inl rfl

/-- An invariant of the results list is kept by every delivery as soon as
`resultsAfterValidation` keeps it. -/
theorem deliverAll_results_invariant (I : List QString → List ProjectInfo → Prop)
    (hstep : ∀ known results o v n u, I known results →
      I known (resultsAfterValidation results known (updatedInfo o v n u)))
    (events : List Event) (s : State)
    (h0 : I s.m_knownProjectUids s.m_validatedProjectsForResultsTable) :
    I s.m_knownProjectUids (deliverAll s events).m_validatedProjectsForResultsTable := by
  induction events generalizing s with
  | nil => exact h0
  | cons e rest ih =>
    have hk := deliver_known s e
    have := ih (deliver s e) (by
      rw [hk]
      rcases deliver_results s e with h | ⟨o, v, n, u, h⟩
      · rw [h]; exact h0
      · rw [h]; exact hstep _ _ o v n u h0)
    rw [hk] at this
    exact this

theorem resultsAfterValidation_cases (results : List ProjectInfo) (known : List QString)
    (updated : ProjectInfo) :
    resultsAfterValidation results known updated = results ∨
    (resultsAfterValidation results known updated = results ++ [updated] ∧
      updated.isValidatedSoftudioProject = true ∧
      (updated.uid = "" ∨ updated.uid ∉ known) ∧
      ∀ p ∈ results, p.path ≠ updated.path ∧
        ¬ (p.uid ≠ "" ∧ updated.uid ≠ "" ∧ p.uid = updated.uid)) := by
  unfold resultsAfterValidation
  split_ifs with h1 h2 h3
  · exact Or.inl rfl
  · exact Or.inl rfl
  · refine Or.inr ⟨rfl, h1, ?_, ?_⟩
    · by_cases hu : updated.uid = ""
      · exact Or.inl hu
      · right
        intro hmem
        apply h2
        simp [Qt.isEmpty, hu, hmem]
    · intro q hq
      have h4 : ¬ (decide (q.path = updated.path) ||
          (!Qt.isEmpty q.uid && !Qt.isEmpty updated.uid && decide (q.uid = updated.uid))) = true :=
        fun hc => h3 (List.any_eq_true.2 ⟨q, hq, hc⟩)
      simp only [Qt.isEmpty, Bool.or_eq_true, Bool.and_eq_true, decide_eq_true_eq,
        Bool.not_eq_true', decide_eq_false_iff_not, not_or] at h4
      exact ⟨h4.1, fun hc => h4.2 ⟨⟨hc.1, hc.2.1⟩, hc.2.2⟩⟩
  · exact Or.inl rfl

/-- C6. Starting from an empty results list, after any sequence of deliveries
no two records of the results list have the same path, and no two have uids
that are both non-empty and equal. -/
theorem results_list_dual_key_distinct (s : State) (events : List Event)
    (h : s.m_validatedProjectsForResultsTable = []) :
    (deliverAll s events).m_validatedProjectsForResultsTable.Pairwise
      (fun a b => a.path ≠ b.path ∧ ¬ (a.uid ≠ "" ∧ b.uid ≠ "" ∧ a.uid = b.uid)) := by
  refine deliverAll_results_invariant
    (fun _ results => results.Pairwise
      (fun a b => a.path ≠ b.path ∧ ¬ (a.uid ≠ "" ∧ b.uid ≠ "" ∧ a.uid = b.uid)))
    ?_ events s (by rw [h]; exact List.Pairwise.nil)
  intro known results o v n u hI
  rcases resultsAfterValidation_cases results known (updatedInfo o v n u) with
    h1 | ⟨h1, -, -, h4⟩
  · rw [h1]; exact hI
  · rw [h1, List.pairwise_append]
    refine ⟨hI, List.pairwise_singleton _ _, ?_⟩
    intro a ha b hb
    rw [List.mem_singleton.1 hb]
    exact h4 a ha

/-- Witness for C6: two candidates at different paths validated with the same
uid `abc-123`; only the first reaches the results list. -/
theorem results_list_dual_key_distinct_witness :
    (deliverAll constructed
      [.projectValidated { name := "ProjectX", path := "/r/ProjectX" } true "ProjectX"
          "abc-123" false "",
       .projectValidated { name := "Copy", path := "/r/Copy" } true "ProjectX"
          "abc-123" false ""]).m_validatedProjectsForResultsTable.Pairwise
      (fun a b => a.path ≠ b.path ∧ ¬ (a.uid ≠ "" ∧ b.uid ≠ "" ∧ a.uid = b.uid)) ∧
    (deliverAll constructed
      [.projectValidated { name := "ProjectX", path := "/r/ProjectX" } true "ProjectX"
          "abc-123" false "",
       .projectValidated { name := "Copy", path := "/r/Copy" } true "ProjectX"
          "abc-123" false ""]).m_validatedProjectsForResultsTable.map ProjectInfo.path =
      ["/r/ProjectX"] :=
  ⟨results_list_dual_key_distinct constructed _ rfl, by decide⟩

/-! ### The known-uid filter -/

theorem updatedInfo_valid (originalInfo : ProjectInfo) (validatedName validatedUid : QString) :
    (updatedInfo originalInfo true validatedName validatedUid).isValidatedSoftudioProject = true ∧
    (updatedInfo originalInfo true validatedName validatedUid).type = "softudio_project" ∧
    (updatedInfo originalInfo true validatedName validatedUid).uid = validatedUid := by
  dsimp only [updatedInfo]
  exact ⟨rfl, rfl, rfl⟩

theorem updatedInfo_validated_type (originalInfo : ProjectInfo) (isValid : Bool)
    (validatedName validatedUid : QString)
    (h : (updatedInfo originalInfo isValid validatedName validatedUid).isValidatedSoftudioProject
      = true) :
    (updatedInfo originalInfo isValid validatedName validatedUid).type = "softudio_project" := by
  cases isValid with
  | true => exact (updatedInfo_valid originalInfo validatedName validatedUid).2.1
  | false =>
    exfalso
    revert h
    dsimp only [updatedInfo]
    split_ifs <;> simp

theorem overwriteFirstByPath_mem (updated : ProjectInfo) (master l : List ProjectInfo)
    (h : overwriteFirstByPath updated master = some l) :
    ∃ r ∈ l, r.path = updated.path ∧
      r.isValidatedSoftudioProject = updated.isValidatedSoftudioProject ∧
      r.type = updated.type ∧ r.uid = updated.uid := by
  induction master generalizing l with
  | nil => simp [overwriteFirstByPath] at h
  | cons p rest ih =>
    unfold overwriteFirstByPath at h
    split_ifs at h with hp
    · cases h
      exact ⟨_, List.mem_cons_self _ _, rfl, rfl, rfl, rfl⟩
    · cases hr : overwriteFirstByPath updated rest with
      | none => simp [hr] at h
      | some l' =>
        rw [hr] at h
        cases h
        obtain ⟨r, hr1, hr2⟩ := ih l' hr
        exact ⟨r, List.mem_cons_of_mem _ hr1, hr2⟩

theorem masterAfterValidation_mem (master : List ProjectInfo) (updated : ProjectInfo) :
    ∃ r ∈ masterAfterValidation master updated, r.path = updated.path ∧
      r.isValidatedSoftudioProject = updated.isValidatedSoftudioProject ∧
      r.type = updated.type ∧ r.uid = updated.uid := by
  unfold masterAfterValidation
  cases hr : overwriteFirstByPath updated master with
  | none => exact ⟨updated, by simp, rfl, rfl, rfl, rfl⟩
  | some l => exact overwriteFirstByPath_mem updated master l hr

theorem updatedInfo_validated_uid (originalInfo : ProjectInfo) (isValid : Bool)
    (validatedName validatedUid : QString)
    (h : (updatedInfo originalInfo isValid validatedName validatedUid).isValidatedSoftudioProject
      = true) :
    isValid = true ∧
      (updatedInfo originalInfo isValid validatedName validatedUid).uid = validatedUid := by
  cases isValid with
  | true => exact ⟨rfl, (updatedInfo_valid originalInfo validatedName validatedUid).2.2⟩
  | false =>
    exfalso
    revert h
    dsimp only [updatedInfo]
    split_ifs <;> simp

/-- When every Valid result delivered carries a non-empty uid, every record of
the results list has a non-empty uid. -/
theorem deliverAll_results_uid_nonempty (events : List Event) (s : State)
    (h0 : ∀ r ∈ s.m_validatedProjectsForResultsTable, r.uid ≠ "")
    (hev : ∀ o n u t m, Event.projectValidated o true n u t m ∈ events → u ≠ "") :
    ∀ r ∈ (deliverAll s events).m_validatedProjectsForResultsTable, r.uid ≠ "" := by
  induction events generalizing s with
  | nil => exact h0
  | cons e rest ih =>
    refine ih (deliver s e) ?_ (fun o n u t m hm => hev o n u t m (List.mem_cons_of_mem _ hm))
    cases e with
    | projectFound project =>
      show ∀ r ∈ (addFoundProjectToInternalList s project).m_validatedProjectsForResultsTable, _
      unfold addFoundProjectToInternalList
      split_ifs <;> exact h0
    | projectValidated o v n u t m =>
      show ∀ r ∈ resultsAfterValidation s.m_validatedProjectsForResultsTable
        s.m_knownProjectUids (updatedInfo o v n u), _
      rcases resultsAfterValidation_cases s.m_validatedProjectsForResultsTable
        s.m_knownProjectUids (updatedInfo o v n u) with h1 | ⟨h1, h2, -, -⟩
      · rw [h1]; exact h0
      · rw [h1]
        intro r hr
        rcases List.mem_append.1 hr with hr | hr
        · exact h0 r hr
        · obtain ⟨hv, hu⟩ := updatedInfo_validated_uid o v n u h2
          subst hv
          rw [List.mem_singleton.1 hr, hu]
          exact hev o n u t m (List.mem_cons_self _ _)
    | scanFinished a o x errs => exact h0

/-- The slots on arbitrary arguments. Starting from an empty results list,
after any sequence of deliveries every record of the results list has
`isValidatedSoftudioProject` true and type `softudio_project`, and its uid is
empty or is not in the known-uid set (so it is not in the known-uid set when
every Valid result delivered carries a non-empty uid); and a Valid result
whose uid is non-empty and in the known set leaves the results list unchanged
while the master list then holds a record for its path that is validated, of
type `softudio_project`, with that uid. -/
theorem results_list_validated_and_not_known (s : State) (events : List Event)
    (h : s.m_validatedProjectsForResultsTable = []) :
    (∀ r ∈ (deliverAll s events).m_validatedProjectsForResultsTable,
      r.isValidatedSoftudioProject = true ∧ r.type = "softudio_project" ∧
        (r.uid = "" ∨ r.uid ∉ s.m_knownProjectUids)) ∧
    ((∀ o n u t m, Event.projectValidated o true n u t m ∈ events → u ≠ "") →
      ∀ r ∈ (deliverAll s events).m_validatedProjectsForResultsTable,
        r.uid ∉ s.m_knownProjectUids) ∧
    (∀ (originalInfo : ProjectInfo) (validatedName validatedUid : QString) (timedOut : Bool)
        (error : QString),
      validatedUid ≠ "" → validatedUid ∈ s.m_knownProjectUids →
      (onProjectFileValidated (deliverAll s events) originalInfo true validatedName validatedUid
          timedOut error).m_validatedProjectsForResultsTable =
        (deliverAll s events).m_validatedProjectsForResultsTable ∧
      ∃ r ∈ (onProjectFileValidated (deliverAll s events) originalInfo true validatedName
          validatedUid timedOut error).m_allFoundProjectsInternalList,
        r.path = originalInfo.path ∧ r.isValidatedSoftudioProject = true ∧
          r.type = "softudio_project" ∧ r.uid = validatedUid) := by
  have first : ∀ r ∈ (deliverAll s events).m_validatedProjectsForResultsTable,
      r.isValidatedSoftudioProject = true ∧ r.type = "softudio_project" ∧
        (r.uid = "" ∨ r.uid ∉ s.m_knownProjectUids) := by
    refine deliverAll_results_invariant
      (fun known results => ∀ r ∈ results,
        r.isValidatedSoftudioProject = true ∧ r.type = "softudio_project" ∧
          (r.uid = "" ∨ r.uid ∉ known))
      ?_ events s (by rw [h]; intro r hr; cases hr)
    intro known results o v n u hI
    rcases resultsAfterValidation_cases results known (updatedInfo o v n u) with
      h1 | ⟨h1, h2, h3, -⟩
    · rw [h1]; exact hI
    · rw [h1]
      intro r hr
      rcases List.mem_append.1 hr with hr | hr
      · exact hI r hr
      · rw [List.mem_singleton.1 hr]
        exact ⟨h2, updatedInfo_validated_type o v n u h2, h3⟩
  refine ⟨first, ?_, ?_⟩
  · intro hev r hr
    have hne := deliverAll_results_uid_nonempty events s (by rw [h]; intro r hr; cases hr) hev r hr
    rcases (first r hr).2.2 with h1 | h1
    · exact absurd h1 hne
    · exact h1
  · intro originalInfo validatedName validatedUid timedOut error hne hmem
    have hk := deliverAll_known events s
    obtain ⟨hv1, hv2, hv3⟩ := updatedInfo_valid originalInfo validatedName validatedUid
    constructor
    · show resultsAfterValidation (deliverAll s events).m_validatedProjectsForResultsTable
          (deliverAll s events).m_knownProjectUids
          (updatedInfo originalInfo true validatedName validatedUid) = _
      unfold resultsAfterValidation
      rw [if_pos hv1, hv3, hk]
      simp [Qt.isEmpty, hne, hmem]
    · obtain ⟨r, hr, h1, h2, h3, h4⟩ := masterAfterValidation_mem
        (deliverAll s events).m_allFoundProjectsInternalList
        (updatedInfo originalInfo true validatedName validatedUid)
      exact ⟨r, hr, h1.trans (updatedInfo_path _ _ _ _), h2.trans hv1, h3.trans hv2,
        h4.trans hv3⟩

/-! ### Starting a scan -/

/-- C8, the code at the failing input and beyond. `startActualScan` sets
`m_scanInProgress` before it calls `startScanThreads`, so that call always
takes its "scan already in progress" return: from any state, and so from the
freshly constructed dialog, the worker pointers and the thread states are
what they were (null and not running on a fresh dialog), the only signal
emitted is `requestScanWorkerStart`, and the three lists are emptied whether
or not a scan was in progress. A direct call of `startScanThreads` with the
flag clear does create and start both workers. -/
theorem startActualScan_starts_no_worker (s : State) (selectedScanPaths : List QString)
    (selectedScanType : QString) :
    startActualScan s selectedScanPaths selectedScanType =
        ({ s with m_allFoundProjectsInternalList := [],
                  m_validatedProjectsForResultsTable := [],
                  m_currentScanErrors := [],
                  m_scanCancelled := false,
                  m_scanInProgress := true },
          [.requestScanWorkerStart selectedScanPaths selectedScanType]) ∧
    (startActualScan constructed selectedScanPaths selectedScanType).1.m_scanWorker = false ∧
    (startActualScan constructed selectedScanPaths selectedScanType).1.m_validatorWorker = false ∧
    (startActualScan constructed selectedScanPaths selectedScanType).1.scanWorkerThreadRunning
      = false ∧
    (startActualScan constructed selectedScanPaths selectedScanType).1.validatorThreadRunning
      = false ∧
    (startScanThreads constructed).1.m_scanWorker = true ∧
    (startScanThreads constructed).1.scanWorkerThreadRunning = true ∧
    (startScanThreads constructed).1.m_validatorWorker = true ∧
    (startScanThreads constructed).1.validatorThreadRunning = true := by
  refine ⟨?_, rfl, rfl, rfl, rfl, rfl, rfl, rfl, rfl⟩
  simp [startActualScan, startScanThreads]

/-! ### The error list across the walker's terminal event -/

/-- C9, the code at the failing input. A validation failure is recorded in the
error list while the walker runs; when `onScanWorkerFinished` then handles the
walker's terminal event (here with no walker errors) the error list is empty:
the recorded entry is gone. In general the error list after
`onScanWorkerFinished` is exactly the walker's list. -/
theorem onScanWorkerFinished_discards_validation_errors :
    (deliverAll (startActualScan constructed ["/r"] "Quick").1
        [.projectFound { name := "ProjectX", path := "/r/ProjectX" },
         .projectValidated { name := "ProjectX", path := "/r/ProjectX" } false "" "" false
            "UID not found in project file."]).m_currentScanErrors =
      [("/r/ProjectX", "Validation failed: UID not found in project file.")] ∧
    (deliverAll (startActualScan constructed ["/r"] "Quick").1
        [.projectFound { name := "ProjectX", path := "/r/ProjectX" },
         .projectValidated { name := "ProjectX", path := "/r/ProjectX" } false "" "" false
            "UID not found in project file.",
         .scanFinished [{ name := "ProjectX", path := "/r/ProjectX" }] "completed" [] []
        ]).m_currentScanErrors = [] ∧
    ∀ (s : State) (allFound : List ProjectInfo) (outcome : QString)
      (extra : List (QString × QString)) (errors : List ScanError),
      (onScanWorkerFinished s allFound outcome extra errors).m_currentScanErrors = errors := by
  refine ⟨by decide, by decide, ?_⟩
  intro s allFound outcome extra errors
  simp [onScanWorkerFinished]

end ScannerDialog

/-! ### The validator's single slot -/

namespace ProjectFileValidatorWorker

/-- C10. A request made while the validator is busy is rejected at once: the
state (busy flag and stored record) is returned unchanged and the only effect
is one `projectValidated` emission for the rejected record, not valid; no
validation is run and no timer started. A request made while idle sets the
busy flag, stores the record, and its only effects are running the validation
and starting the timeout timer: nothing is emitted. -/
theorem validateProject_single_slot (s : State) (projectToValidate : ProjectInfo) :
    (s.m_isBusy = true →
      validateProject s projectToValidate =
        (s, [.emitProjectValidated
          { originalInfo := projectToValidate
            isValid := false
            validatedName := ""
            validatedUid := ""
            timedOut := true
            errorMessage := "Validator was busy, request skipped." }])) ∧
    (s.m_isBusy = false →
      (validateProject s projectToValidate).1.m_isBusy = true ∧
      (validateProject s projectToValidate).1.m_currentProjectInfo = projectToValidate ∧
      (validateProject s projectToValidate).2 =
        [.runValidation projectToValidate, .startTimeoutTimer 15000]) := by
  constructor
  · intro hb
    simp [validateProject, hb]
  · intro hb
    simp [validateProject, hb, VALIDATION_TIMEOUT_MILLISECONDS]

/-- Witness for C10: a request for `/r/B` while `/r/A` is in flight is bounced
with one not-valid emission and the state untouched; the same request to an
idle validator is accepted silently. -/
theorem validateProject_single_slot_witness :
    validateProject { m_isBusy := true, m_currentProjectInfo := { path := "/r/A" } }
        { path := "/r/B" } =
      ({ m_isBusy := true, m_currentProjectInfo := { path := "/r/A" } },
        [.emitProjectValidated
          { originalInfo := { path := "/r/B" }
            isValid := false
            validatedName := ""
            validatedUid := ""
            timedOut := true
            errorMessage := "Validator was busy, request skipped." }]) ∧
    (validateProject {} { path := "/r/B" }).1.m_isBusy = true ∧
    (validateProject {} { path := "/r/B" }).1.m_currentProjectInfo = { path := "/r/B" } ∧
    (validateProject {} { path := "/r/B" }).2 =
      [.runValidation { path := "/r/B" }, .startTimeoutTimer 15000] :=
  ⟨(validateProject_single_slot
      { m_isBusy := true, m_currentProjectInfo := { path := "/r/A" } } { path := "/r/B" }).1 rfl,
    (validateProject_single_slot {} { path := "/r/B" }).2 rfl⟩

end ProjectFileValidatorWorker

/-! ### A busy rejection as the coordinator records it -/

namespace ScannerDialog

/-- C11, the code at the failing input. The validator is busy with `inFlight`
and is asked to validate `rejected`: it emits one result whose `timedOut`
argument is true and whose message is "Validator was busy, request skipped.".
Handling that result, the coordinator appends the entry
(`rejected.path`, "Validation timed out."), which is exactly the entry it
appends for the result `handleValidationTimeout` emits for a real timeout of
`rejected`: the busy skip is not described and cannot be told apart. -/
theorem busy_rejection_recorded_as_timeout (c : State) (rejected inFlight : ProjectInfo)
    (watcherRunning : Bool) :
    ProjectFileValidatorWorker.emissions
        (ProjectFileValidatorWorker.validateProject
          { m_isBusy := true, m_currentProjectInfo := inFlight } rejected).2 =
      [{ originalInfo := rejected, isValid := false, validatedName := "", validatedUid := "",
         timedOut := true, errorMessage := "Validator was busy, request skipped." }] ∧
    (handleResult c
        { originalInfo := rejected, isValid := false, validatedName := "", validatedUid := "",
          timedOut := true,
          errorMessage := "Validator was busy, request skipped." }).m_currentScanErrors =
      c.m_currentScanErrors ++ [(rejected.path, "Validation timed out.")] ∧
    ProjectFileValidatorWorker.emissions
        (ProjectFileValidatorWorker.handleValidationTimeout
          { m_isBusy := true, m_currentProjectInfo := rejected } watcherRunning).2 =
      [{ originalInfo := rejected, isValid := false, validatedName := "", validatedUid := "",
         timedOut := true, errorMessage := "Validation timed out after 15s." }] ∧
    (handleResult c
        { originalInfo := rejected, isValid := false, validatedName := "", validatedUid := "",
          timedOut := true,
          errorMessage := "Validation timed out after 15s." }).m_currentScanErrors =
      c.m_currentScanErrors ++ [(rejected.path, "Validation timed out.")] := by
  refine ⟨rfl, rfl, ?_, rfl⟩
  have hmsg : "Validation timed out after " ++
      toString (ProjectFileValidatorWorker.VALIDATION_TIMEOUT_MILLISECONDS / 1000) ++ "s." =
      "Validation timed out after 15s." := by decide
  cases watcherRunning <;>
    simp [ProjectFileValidatorWorker.handleValidationTimeout,
      ProjectFileValidatorWorker.emissions, hmsg]

end ScannerDialog

/-! ### At most one result for an accepted request -/

namespace ProjectFileValidatorWorker

theorem judge_originalInfo (p : ProjectInfo) (folderName errorMessageOut : QString)
    (f : FoundFields) : (judge p folderName errorMessageOut f).originalInfo = p := by
  unfold judge
  split_ifs <;> rfl

theorem performActualValidationOnOpenFile_originalInfo (irq : Nat → Bool) (p : ProjectInfo)
    (folderName : QString) (lines : List QString) :
    (performActualValidationOnOpenFile irq p folderName lines).originalInfo = p := by
  unfold performActualValidationOnOpenFile
  split
  · rfl
  · exact judge_originalInfo _ _ _ _

/-- Every `return` of `performActualValidation` hands back the record it was
given. -/
theorem performActualValidation_originalInfo (env : Env) (irq : Nat → Bool) (p : ProjectInfo) :
    (performActualValidation env irq p).originalInfo = p := by
  unfold performActualValidation
  dsimp only
  split_ifs
  · rfl
  · split
    · rfl
    · split_ifs
      · rfl
      · rfl
      · rfl
      · split
        · rfl
        · exact performActualValidationOnOpenFile_originalInfo _ _ _ _

theorem deliverOne_checkAnswers (r : Running) (o : Option ProjectInfo) (d : Delivery)
    (rest : List Observed) (h : InFlight r o) :
    ∃ o', InFlight (deliverOne r d).1 o' ∧
      checkAnswers o ((deliverOne r d).2 ++ rest) = checkAnswers o' rest := by
  obtain ⟨hbusy, hidle⟩ := h
  cases d with
  | validateProjectCalled p =>
    cases hb : r.worker.m_isBusy with
    | true =>
      refine ⟨o, ?_, ?_⟩
      · simp [deliverOne, validateProject, hb, applyEffects, InFlight]
        exact hbusy hb
      · simp [deliverOne, validateProject, hb, emissions, checkAnswers]
    | false =>
      refine ⟨some p, ?_, ?_⟩
      · simp [deliverOne, validateProject, hb, applyEffects, InFlight]
      · simp [deliverOne, validateProject, hb, checkAnswers]
  | watcherFinished env irq =>
    cases hw : r.watched with
    | none =>
      refine ⟨o, ?_, ?_⟩
      · simp only [deliverOne, hw]
        exact ⟨hbusy, hidle⟩
      · simp [deliverOne, hw]
    | some p =>
      cases hb : r.worker.m_isBusy with
      | true =>
        obtain ⟨h1, h2⟩ := hbusy hb
        have hp : p = r.worker.m_currentProjectInfo := by
          rw [hw] at h1
          exact Option.some.inj h1
        refine ⟨none, ?_, ?_⟩
        · cases ht : r.timerActive <;>
            simp [deliverOne, hw, handleValidationFinished, hb, ht, applyEffects, InFlight]
        · have ho := performActualValidation_originalInfo env irq p
          subst hp
          cases ht : r.timerActive <;>
            simp [deliverOne, hw, handleValidationFinished, hb, ht, emissions, checkAnswers,
              h2, ho]
      | false =>
        refine ⟨o, ?_, ?_⟩
        · simp [deliverOne, hw, handleValidationFinished, hb, applyEffects, InFlight]
          exact hidle hb
        · simp [deliverOne, hw, handleValidationFinished, hb, emissions]
  | timerTimeout =>
    cases hb : r.worker.m_isBusy with
    | true =>
      obtain ⟨-, h2⟩ := hbusy hb
      refine ⟨none, ?_, ?_⟩
      · cases hf : r.futureRunning <;>
          simp [deliverOne, handleValidationTimeout, hb, hf, applyEffects, InFlight]
      · cases hf : r.futureRunning <;>
          simp [deliverOne, handleValidationTimeout, hb, hf, emissions, checkAnswers, h2]
    | false =>
      refine ⟨o, ?_, ?_⟩
      · simp [deliverOne, handleValidationTimeout, hb, applyEffects, InFlight]
        exact hidle hb
      · simp [deliverOne, handleValidationTimeout, hb, emissions]

theorem deliverSequence_checkAnswers (deliveries : List Delivery) (r : Running)
    (o : Option ProjectInfo) (h : InFlight r o) :
    ∃ o', checkAnswers o (deliverSequence r deliveries).2 = some o' := by
  induction deliveries generalizing r o with
  | nil => exact ⟨o, by simp [deliverSequence, checkAnswers]⟩
  | cons d rest ih =>
    obtain ⟨o', h1, h2⟩ :=
      deliverOne_checkAnswers r o d (deliverSequence (deliverOne r d).1 rest).2 h
    obtain ⟨o'', h3⟩ := ih (deliverOne r d).1 o' h1
    exact ⟨o'', by rw [deliverSequence, h2, h3]⟩

/-- C12. Once `handleValidationTimeout` has emitted the timed-out result for
the accepted request `p`, the validator is idle, and `handleValidationFinished`
then emits nothing and leaves the state as it is, whatever result the watcher
holds; and on every sequence of deliveries to a freshly constructed validator
every result emitted by the finish and timeout slots answers the request in
flight and closes it, so that an accepted request gets at most one result. -/
theorem late_result_discarded (p : ProjectInfo) (watcherRunning timerActive : Bool)
    (lateResult : ValidationResult) (deliveries : List Delivery) :
    emissions (handleValidationTimeout
        { m_isBusy := true, m_currentProjectInfo := p } watcherRunning).2 =
      [{ originalInfo := p, isValid := false, validatedName := "", validatedUid := "",
         timedOut := true, errorMessage := "Validation timed out after 15s." }] ∧
    handleValidationFinished
        (handleValidationTimeout
          { m_isBusy := true, m_currentProjectInfo := p } watcherRunning).1
        timerActive lateResult =
      ((handleValidationTimeout
          { m_isBusy := true, m_currentProjectInfo := p } watcherRunning).1, []) ∧
    (checkAnswers none (deliverSequence {} deliveries).2).isSome = true := by
  refine ⟨?_, ?_, ?_⟩
  · have hmsg : "Validation timed out after " ++
        toString (VALIDATION_TIMEOUT_MILLISECONDS / 1000) ++ "s." =
        "Validation timed out after 15s." := by decide
    cases watcherRunning <;> simp [handleValidationTimeout, emissions, hmsg]
  · simp [handleValidationTimeout, handleValidationFinished]
  · obtain ⟨o', h⟩ := deliverSequence_checkAnswers deliveries {} none
      ⟨fun hb => by simp at hb, fun _ => rfl⟩
    rw [h]
    rfl

end ProjectFileValidatorWorker

/-! ### The walker: an empty root list, and paths that are skipped -/

namespace ScanWorker

/-- C13. Whatever the scan type, `doScan` with an empty root list emits
`scanFinished` with outcome `error`, the message "No valid scan roots
provided.", an empty record list and an empty error list, and nothing else;
no directory is counted or noted as visited and nothing is found. -/
theorem doScan_empty_roots (env : Env) (s : State) (scanType : QString) :
    (doScan env s [] scanType).emitted =
      s.emitted ++ [.scanFinished [] "error"
        [("error_message", "No valid scan roots provided.")] []] ∧
    (doScan env s [] scanType).m_foldersScannedCount = 0 ∧
    (doScan env s [] scanType).visited = s.visited ∧
    (doScan env s [] scanType).m_foundProjectsList = [] ∧
    (doScan env s [] scanType).m_scanErrors = [] := by
  simp [doScan, beginScan, emit]

theorem readStopRequested_noStop (s : State) (h : NoStop s) : readStopRequested s = (false, s) := by
  obtain ⟨h1, h2⟩ := h
  simp [readStopRequested, h1, h2]

/-- C18. With no stop requested, `processDirectory` on a path that does not
exist, is not a directory or is not readable leaves the worker as it was
(counter, found list, visited directories and emitted signals unchanged, so
nothing below is processed), except that the entry (path, "Directory not
readable.") is appended to the error list exactly when the path exists and is
not readable. -/
theorem processDirectory_skips (node : FsNode) (env : Env) (directoryPath : QString)
    (currentDepth : Nat) (s : State) (hstop : NoStop s)
    (hskip : node.exists = false ∨ node.isDir = false ∨ node.isReadable = false) :
    processDirectory node env directoryPath currentDepth s =
      if node.exists = true ∧ node.isReadable = false then
        { s with m_scanErrors := s.m_scanErrors ++ [(directoryPath, "Directory not readable.")] }
      else s := by
  have hr := readStopRequested_noStop s hstop
  have hcond : (!node.exists || !node.isDir || !node.isReadable) = true := by
    rcases hskip with h | h | h <;> simp [h]
  cases node with
  | node name kind readable link children =>
    rw [processDirectory, hr]
    simp only [examineDirectory, hcond, if_true]
    by_cases he : (FsNode.node name kind readable link children).exists = true ∧
        (FsNode.node name kind readable link children).isReadable = false
    · simp [he.1, he.2, handleWalkError, hr, Qt.toNativeSeparators]
    · rw [if_neg he]
      have : ((FsNode.node name kind readable link children).exists &&
          !(FsNode.node name kind readable link children).isReadable) = false := by
        cases h1 : (FsNode.node name kind readable link children).exists <;>
          cases h2 : (FsNode.node name kind readable link children).isReadable <;>
          simp_all
      simp [this]

/-- Witness for C18: a directory that exists and is not readable gets the
error entry and nothing else changes. -/
theorem processDirectory_skips_witness :
    processDirectory (.node "locked" .dir false false []) 
        { isLetterOrNumber := Char.isAlphanum, info := fun _ => FsNode.absent,
          cdUp := fun _ => none, absoluteDirName := fun _ => "",
          openText := fun _ => .ok [] }
        "/r/locked" 1 {} =
      { m_scanErrors := [("/r/locked", "Directory not readable.")] } :=
  (processDirectory_skips (.node "locked" .dir false false []) _ "/r/locked" 1 {}
    ⟨rfl, rfl⟩ (Or.inr (Or.inr rfl))).trans (by decide)

/-! ### The signature file both workers look for -/

/-- The strict check spelled out: it succeeds exactly when the chain of nested
directories can be entered and its last directory holds, under the expected
file name, a readable regular file. -/
theorem checkForSoftudioProject_true_iff (env : Env) (node : FsNode) (dirPath : QString)
    (projectInfo : ProjectInfo) :
    (checkForSoftudioProject env node dirPath projectInfo).1 = true ↔
      ∃ nestedDir reached,
        cdChain SOFTUDIO_NESTED_PATH_PARTS node (Qt.dirPath dirPath) = .ok (nestedDir, reached) ∧
        nestedDir.isDir = true ∧
        (nestedDir.entry (expectedFileName env (originalFolderName dirPath))).exists = true ∧
        (nestedDir.entry (expectedFileName env (originalFolderName dirPath))).isFile = true ∧
        (nestedDir.entry (expectedFileName env (originalFolderName dirPath))).isReadable
          = true := by
  unfold checkForSoftudioProject
  cases hc : cdChain SOFTUDIO_NESTED_PATH_PARTS node (Qt.dirPath dirPath) with
  | error e => simp
  | ok r =>
    obtain ⟨nestedDir, reached⟩ := r
    by_cases hd : nestedDir.isDir = true
    · by_cases hf : ((nestedDir.entry (expectedFileName env (originalFolderName dirPath))).exists &&
          (nestedDir.entry (expectedFileName env (originalFolderName dirPath))).isFile &&
          (nestedDir.entry (expectedFileName env (originalFolderName dirPath))).isReadable) = true
      · have hf' := hf
        simp only [Bool.and_eq_true] at hf'
        simp only [hd, hf, Bool.not_true, Bool.false_eq_true, if_false, if_true, true_iff]
        exact ⟨nestedDir, reached, rfl, hd, hf'.1.1, hf'.1.2, hf'.2⟩
      · simp only [hd, hf, Bool.not_true, Bool.false_eq_true, if_false, false_iff]
        rintro ⟨n', r', h1, -, h3, h4, h5⟩
        cases h1
        exact hf (by simp [h3, h4, h5])
    · simp only [hd, Bool.not_false, if_true, Bool.false_eq_true, false_iff]
      rintro ⟨n', r', h1, h2, -⟩
      cases h1
      exact hd h2

/-- The record after the strict check: named after the folder on success,
untouched otherwise. -/
theorem checkForSoftudioProject_snd (env : Env) (node : FsNode) (dirPath : QString)
    (projectInfo : ProjectInfo) :
    (checkForSoftudioProject env node dirPath projectInfo).2 =
      if (checkForSoftudioProject env node dirPath projectInfo).1 = true then
        { projectInfo with name := originalFolderName dirPath }
      else projectInfo := by
  unfold checkForSoftudioProject
  cases cdChain SOFTUDIO_NESTED_PATH_PARTS node (Qt.dirPath dirPath) with
  | error e => simp
  | ok r =>
    obtain ⟨nestedDir, reached⟩ := r
    by_cases hd : nestedDir.isDir = true
    · by_cases hf : ((nestedDir.entry (expectedFileName env (originalFolderName dirPath))).exists &&
          (nestedDir.entry (expectedFileName env (originalFolderName dirPath))).isFile &&
          (nestedDir.entry (expectedFileName env (originalFolderName dirPath))).isReadable) = true
      · simp only [hd, hf, Bool.not_true, Bool.false_eq_true, if_false, if_true]
      · simp only [hd, hf, Bool.not_true, Bool.false_eq_true, if_false]
    · simp only [hd, Bool.not_false, if_true, Bool.false_eq_true, if_false]

theorem Extends.refl (V : QString × Nat → Prop) (s : State) : Extends V s s :=
  ⟨rfl, rfl, ⟨[], by simp, by simp⟩, ⟨[], by simp, by simp⟩, ⟨[], by simp, by simp⟩, ⟨[], by simp⟩,
    fun h => h⟩

theorem Extends.trans {V : QString × Nat → Prop} {s₁ s₂ s₃ : State}
    (h₁ : Extends V s₁ s₂) (h₂ : Extends V s₂ s₃) : Extends V s₁ s₃ := by
  obtain ⟨t1, o1, ⟨v1, hv1, pv1⟩, ⟨f1, hf1, pf1⟩, ⟨e1, he1, pe1⟩, ⟨r1, hr1⟩, n1⟩ := h₁
  obtain ⟨t2, o2, ⟨v2, hv2, pv2⟩, ⟨f2, hf2, pf2⟩, ⟨e2, he2, pe2⟩, ⟨r2, hr2⟩, n2⟩ := h₂
  refine ⟨t2.trans t1, o2.trans o1, ⟨v1 ++ v2, by rw [hv2, hv1, List.append_assoc], ?_⟩,
    ⟨f1 ++ f2, by rw [hf2, hf1, List.append_assoc], ?_⟩,
    ⟨e1 ++ e2, by rw [he2, he1, List.append_assoc], ?_⟩,
    ⟨r1 ++ r2, by rw [hr2, hr1, List.append_assoc]⟩, fun h => n2 (n1 h)⟩
  · intro v hv
    rcases List.mem_append.1 hv with h | h
    · exact pv1 v h
    · exact pv2 v h
  · intro v hv
    rcases List.mem_append.1 hv with h | h
    · exact pf1 v h
    · have := pf2 v h
      rw [t1] at this
      exact this
  · intro v hv
    rcases List.mem_append.1 hv with h | h
    · exact pe1 v h
    · have := pe2 v h
      rw [t1] at this
      exact this

theorem Extends.mono {V W : QString × Nat → Prop} {s s' : State}
    (h : Extends V s s') (hVW : ∀ v, V v → W v) : Extends W s s' := by
  obtain ⟨t1, o1, ⟨v1, hv1, pv1⟩, ⟨f1, hf1, pf1⟩, ⟨e1, he1, pe1⟩, ⟨r1, hr1⟩, n1⟩ := h
  refine ⟨t1, o1, ⟨v1, hv1, fun v hv => hVW v (pv1 v hv)⟩, ⟨f1, hf1, ?_⟩, ⟨e1, he1, ?_⟩, ⟨r1, hr1⟩,
    n1⟩
  · intro r hr
    obtain ⟨d, hd, hc⟩ := pf1 r hr
    exact ⟨d, hVW _ hd, hc⟩
  · intro sig hsig
    obtain ⟨h1, h2, h3⟩ := pe1 sig hsig
    refine ⟨h1, ?_, ?_⟩
    · intro r hr
      obtain ⟨d, hd, hc⟩ := h2 r hr
      exact ⟨d, hVW _ hd, hc⟩
    · intro r hr
      obtain ⟨hflag, hheur, d, hd⟩ := h3 r hr
      exact ⟨hflag, hheur, d, hVW _ hd⟩

/-- A step that touches none of the recorded lists, nor the scan type. -/
theorem Extends.of_same (V : QString × Nat → Prop) (s s' : State)
    (h1 : s'.m_scanType = s.m_scanType) (h0 : s'.m_scanRoots = s.m_scanRoots)
    (h2 : s'.visited = s.visited)
    (h3 : s'.m_foundProjectsList = s.m_foundProjectsList) (h4 : s'.emitted = s.emitted)
    (h5 : s'.m_scanErrors = s.m_scanErrors) (h6 : NoStop s → NoStop s') : Extends V s s' :=
  ⟨h1, h0, ⟨[], by simp [h2], by simp⟩, ⟨[], by simp [h3], by simp⟩, ⟨[], by simp [h4], by simp⟩,
    ⟨[], by simp [h5]⟩, h6⟩

theorem readStopRequested_extends (V : QString × Nat → Prop) (s : State) :
    Extends V s (readStopRequested s).2 := by
  by_cases hn : NoStop s
  · rw [readStopRequested_noStop s hn]
    exact Extends.refl V s
  · unfold readStopRequested
    split_ifs
    · exact Extends.refl V s
    · split
      · exact Extends.refl V s
      · exact Extends.of_same V _ _ rfl rfl rfl rfl rfl rfl (fun h => absurd h hn)
      · exact Extends.of_same V _ _ rfl rfl rfl rfl rfl rfl (fun h => absurd h hn)

/-- Emitting a `scanProgress`. -/
theorem emit_progress_extends (V : QString × Nat → Prop) (s : State) (msg : QString)
    (total scanned : Nat) (estimating : Bool) :
    Extends V s (emit s (.scanProgress msg total scanned estimating)) := by
  refine ⟨rfl, rfl, ⟨[], by simp [emit], by simp⟩, ⟨[], by simp [emit], by simp⟩,
    ⟨[.scanProgress msg total scanned estimating], rfl, ?_⟩, ⟨[], by simp [emit]⟩, fun h => h⟩
  intro sig hsig
  rw [List.mem_singleton.1 hsig]
  refine ⟨rfl, ?_, ?_⟩ <;> intro r hr <;> cases hr

theorem handleWalkError_extends (V : QString × Nat → Prop) (s : State) (path msg : QString) :
    Extends V s (handleWalkError s path msg) := by
  have h := readStopRequested_extends V s
  unfold handleWalkError
  rcases hr : readStopRequested s with ⟨b, s1⟩
  rw [hr] at h
  cases b
  · refine Extends.trans h ?_
    exact ⟨rfl, rfl, ⟨[], by simp, by simp⟩, ⟨[], by simp, by simp⟩, ⟨[], by simp, by simp⟩,
      ⟨[(Qt.toNativeSeparators path, msg)], rfl⟩, fun h => h⟩
  · exact h

theorem countDirectory_extends (V : QString × Nat → Prop) (s : State) (path : QString)
    (depth : Nat) (hV : V (Qt.toNativeSeparators path, depth)) :
    Extends V s (countDirectory s path depth) := by
  have h1 : Extends V s
      { s with m_foldersScannedCount := s.m_foldersScannedCount + 1,
               m_lastProcessedPathForPeriodicEmit := Qt.toNativeSeparators path,
               visited := s.visited ++ [(Qt.toNativeSeparators path, depth)] } := by
    refine ⟨rfl, rfl, ⟨[(Qt.toNativeSeparators path, depth)], rfl, ?_⟩, ⟨[], by simp, by simp⟩,
      ⟨[], by simp, by simp⟩, ⟨[], by simp⟩, fun h => h⟩
    intro v hv
    rw [List.mem_singleton.1 hv]
    exact hV
  unfold countDirectory
  dsimp only
  split_ifs
  · exact Extends.trans h1 (emit_progress_extends V _ _ _ _ _)
  · exact h1

theorem recordStrictCandidate_extends (V : QString × Nat → Prop) (s : State)
    (projectInfo : ProjectInfo) (hV : ∃ d, V (projectInfo.path, d))
    (hheur : projectInfo.heuristicallyFound = false) :
    Extends V s (recordStrictCandidate s projectInfo) := by
  have hVC : ∃ d, V (projectInfo.path, d) ∧ Classified s.m_scanType
      { projectInfo with isSoftudioProjectFlag := true, type := "softudio_potential" } d := by
    obtain ⟨d, hd⟩ := hV
    exact ⟨d, hd, Or.inl ⟨hheur, rfl, rfl⟩⟩
  unfold recordStrictCandidate
  dsimp only
  split_ifs
  · refine ⟨rfl, rfl, ⟨[], by simp [emit], by simp⟩, ⟨[_], rfl, ?_⟩,
      ⟨[.projectFound
          { projectInfo with isSoftudioProjectFlag := true, type := "softudio_potential" },
        .validationRequested
          { projectInfo with isSoftudioProjectFlag := true, type := "softudio_potential" }],
        ?_, ?_⟩,
      ⟨[], by simp [emit]⟩, fun h => h⟩
    · intro r hr
      rw [List.mem_singleton.1 hr]
      exact hVC
    · simp [emit]
    · intro sig hsig
      simp only [List.mem_cons, List.mem_singleton, List.not_mem_nil, or_false] at hsig
      rcases hsig with rfl | rfl
      · refine ⟨rfl, ?_, ?_⟩ <;> intro r hr <;> cases hr
        exact hVC
      · refine ⟨rfl, ?_, ?_⟩ <;> intro r hr <;> cases hr
        exact ⟨rfl, hheur, hV⟩
  · exact Extends.refl V s

theorem recordHeuristicFind_extends (V : QString × Nat → Prop) (s : State)
    (projectInfo : ProjectInfo)
    (hV : ∃ d, V (projectInfo.path, d) ∧ Classified s.m_scanType projectInfo d) :
    Extends V s (recordHeuristicFind s projectInfo) := by
  unfold recordHeuristicFind
  split_ifs
  · refine ⟨rfl, rfl, ⟨[], by simp [emit], by simp⟩, ⟨[_], rfl, ?_⟩, ⟨[_], rfl, ?_⟩,
      ⟨[], by simp [emit]⟩, fun h => h⟩
    · intro r hr
      rw [List.mem_singleton.1 hr]
      exact hV
    · intro sig hsig
      rw [List.mem_singleton.1 hsig]
      refine ⟨rfl, ?_, ?_⟩ <;> intro r hr <;> cases hr
      exact hV
  · exact Extends.refl V s

theorem construct_path (env : Env) (pPath pType : QString) :
    (ProjectInfo.construct env pPath pType).path = pPath := by
  unfold ProjectInfo.construct
  dsimp only
  split_ifs <;> rfl

theorem checkForSoftudioProject_path (env : Env) (node : FsNode) (dirPath : QString)
    (projectInfo : ProjectInfo) :
    (checkForSoftudioProject env node dirPath projectInfo).2.path = projectInfo.path := by
  rw [checkForSoftudioProject_snd]
  split_ifs <;> rfl

theorem construct_flags (env : Env) (pPath pType : QString) :
    (ProjectInfo.construct env pPath pType).heuristicallyFound = false ∧
    (ProjectInfo.construct env pPath pType).isSoftudioProjectFlag = false ∧
    (ProjectInfo.construct env pPath pType).type = pType := by
  unfold ProjectInfo.construct
  dsimp only
  split_ifs <;> exact ⟨rfl, rfl, rfl⟩

theorem checkForSoftudioProject_flags (env : Env) (node : FsNode) (dirPath : QString)
    (projectInfo : ProjectInfo) :
    (checkForSoftudioProject env node dirPath projectInfo).2.heuristicallyFound =
      projectInfo.heuristicallyFound ∧
    (checkForSoftudioProject env node dirPath projectInfo).2.isSoftudioProjectFlag =
      projectInfo.isSoftudioProjectFlag := by
  rw [checkForSoftudioProject_snd]
  split_ifs <;> exact ⟨rfl, rfl⟩

/-- The record the file loop leaves is the record it was given, or that record
marked with one of the heuristic types. -/
theorem heuristicFilesLoop_marks (node : FsNode) (currentDirName : QString)
    (entries : List (QString × QString)) (projectInfo : ProjectInfo) (s : State) :
    (heuristicFilesLoop node currentDirName entries projectInfo s).2.1 = projectInfo ∨
    ∃ heuristicType,
      (heuristicFilesLoop node currentDirName entries projectInfo s).2.1 =
        markHeuristic projectInfo heuristicType currentDirName := by
  induction entries generalizing s with
  | nil => exact Or.inl rfl
  | cons e rest ih =>
    obtain ⟨pattern, type⟩ := e
    unfold heuristicFilesLoop
    rcases hr : readStopRequested s with ⟨b, s1⟩
    cases b
    · dsimp only
      split_ifs
      · exact Or.inr ⟨type, rfl⟩
      · exact ih s1
    · exact Or.inl rfl

theorem heuristicDirsLoop_marks (node : FsNode) (currentDirName : QString)
    (entries : List (QString × QString)) (projectInfo : ProjectInfo) (s : State) :
    (heuristicDirsLoop node currentDirName entries projectInfo s).1 = projectInfo ∨
    ∃ heuristicType,
      (heuristicDirsLoop node currentDirName entries projectInfo s).1 =
        markHeuristic projectInfo heuristicType currentDirName := by
  induction entries generalizing s with
  | nil => exact Or.inl rfl
  | cons e rest ih =>
    obtain ⟨dirName, type⟩ := e
    unfold heuristicDirsLoop
    rcases hr : readStopRequested s with ⟨b, s1⟩
    cases b
    · dsimp only
      split_ifs
      · exact Or.inr ⟨type, rfl⟩
      · exact ih s1
    · exact Or.inl rfl

theorem checkForHeuristicProjects_marks (node : FsNode) (dirPath : QString)
    (projectInfo : ProjectInfo) (s : State) :
    (checkForHeuristicProjects node dirPath projectInfo s).1 = projectInfo ∨
    ∃ heuristicType,
      (checkForHeuristicProjects node dirPath projectInfo s).1 =
        markHeuristic projectInfo heuristicType (originalFolderName dirPath) := by
  unfold checkForHeuristicProjects
  split_ifs
  · exact Or.inl rfl
  · have h := heuristicFilesLoop_marks node (originalFolderName dirPath) HEURISTIC_FILES_MAP
      projectInfo s
    rcases hr : heuristicFilesLoop node (originalFolderName dirPath) HEURISTIC_FILES_MAP
      projectInfo s with ⟨b, p1, s1⟩
    rw [hr] at h
    cases b
    · dsimp only
      rcases h with h | ⟨t, h⟩
      · dsimp only at h
        rw [h]
        exact heuristicDirsLoop_marks node (originalFolderName dirPath) HEURISTIC_DIRS_MAP
          projectInfo s1
      · dsimp only at h
        rw [h]
        rcases heuristicDirsLoop_marks node (originalFolderName dirPath) HEURISTIC_DIRS_MAP
          (markHeuristic projectInfo t (originalFolderName dirPath)) s1 with h2 | ⟨t2, h2⟩
        · exact Or.inr ⟨t, h2⟩
        · exact Or.inr ⟨t2, h2⟩
    · exact h

theorem heuristicFilesLoop_extends (V : QString × Nat → Prop) (node : FsNode)
    (currentDirName : QString) (entries : List (QString × QString)) (projectInfo : ProjectInfo)
    (s : State) :
    Extends V s (heuristicFilesLoop node currentDirName entries projectInfo s).2.2 ∧
    (heuristicFilesLoop node currentDirName entries projectInfo s).2.1.path = projectInfo.path := by
  induction entries generalizing s with
  | nil => exact ⟨Extends.refl V s, rfl⟩
  | cons e rest ih =>
    obtain ⟨pattern, type⟩ := e
    have h := readStopRequested_extends V s
    unfold heuristicFilesLoop
    rcases hr : readStopRequested s with ⟨b, s1⟩
    rw [hr] at h
    cases b
    · dsimp only
      split_ifs
      · exact ⟨h, rfl⟩
      · exact ⟨Extends.trans h (ih s1).1, (ih s1).2⟩
    · exact ⟨h, rfl⟩

theorem heuristicDirsLoop_extends (V : QString × Nat → Prop) (node : FsNode)
    (currentDirName : QString) (entries : List (QString × QString)) (projectInfo : ProjectInfo)
    (s : State) :
    Extends V s (heuristicDirsLoop node currentDirName entries projectInfo s).2 ∧
    (heuristicDirsLoop node currentDirName entries projectInfo s).1.path = projectInfo.path := by
  induction entries generalizing s with
  | nil => exact ⟨Extends.refl V s, rfl⟩
  | cons e rest ih =>
    obtain ⟨dirName, type⟩ := e
    have h := readStopRequested_extends V s
    unfold heuristicDirsLoop
    rcases hr : readStopRequested s with ⟨b, s1⟩
    rw [hr] at h
    cases b
    · dsimp only
      split_ifs
      · exact ⟨h, rfl⟩
      · exact ⟨Extends.trans h (ih s1).1, (ih s1).2⟩
    · exact ⟨h, rfl⟩

theorem checkForHeuristicProjects_extends (V : QString × Nat → Prop) (node : FsNode)
    (dirPath : QString) (projectInfo : ProjectInfo) (s : State) :
    Extends V s (checkForHeuristicProjects node dirPath projectInfo s).2 ∧
    (checkForHeuristicProjects node dirPath projectInfo s).1.path = projectInfo.path := by
  unfold checkForHeuristicProjects
  split_ifs
  · exact ⟨Extends.refl V s, rfl⟩
  · have h := heuristicFilesLoop_extends V node (originalFolderName dirPath) HEURISTIC_FILES_MAP
      projectInfo s
    rcases hr : heuristicFilesLoop node (originalFolderName dirPath) HEURISTIC_FILES_MAP
      projectInfo s with ⟨b, p1, s1⟩
    rw [hr] at h
    cases b
    · dsimp only
      have h2 := heuristicDirsLoop_extends V node (originalFolderName dirPath) HEURISTIC_DIRS_MAP
        p1 s1
      exact ⟨Extends.trans h.1 h2.1, h2.2.trans h.2⟩
    · exact h

theorem examineDirectory_extends (V : QString × Nat → Prop) (node : FsNode) (env : Env)
    (directoryPath : QString) (currentDepth : Nat) (s : State)
    (hV : V (Qt.toNativeSeparators directoryPath, currentDepth)) :
    Extends V s (examineDirectory node env directoryPath currentDepth s).2 := by
  unfold examineDirectory
  by_cases hskip : (!node.exists || !node.isDir || !node.isReadable) = true
  · rw [if_pos hskip]
    dsimp only
    split_ifs
    · exact handleWalkError_extends V s _ _
    · exact Extends.refl V s
  · rw [if_neg hskip]
    have hp := checkForSoftudioProject_path env node directoryPath
      (ProjectInfo.construct env (Qt.toNativeSeparators directoryPath) "unknown")
    rw [construct_path] at hp
    have hflags := checkForSoftudioProject_flags env node directoryPath
      (ProjectInfo.construct env (Qt.toNativeSeparators directoryPath) "unknown")
    rw [(construct_flags env _ _).1, (construct_flags env _ _).2.1] at hflags
    rcases hc : checkForSoftudioProject env node directoryPath
      (ProjectInfo.construct env (Qt.toNativeSeparators directoryPath) "unknown") with ⟨b, p1⟩
    rw [hc] at hp hflags
    have hcount := countDirectory_extends V s directoryPath currentDepth hV
    cases b
    · dsimp only
      by_cases hw : withinDepthLimit s currentDepth = true
      · rw [if_pos hw]
        have hh := checkForHeuristicProjects_extends V node directoryPath p1
          (countDirectory s directoryPath currentDepth)
        have hm := checkForHeuristicProjects_marks node directoryPath p1
          (countDirectory s directoryPath currentDepth)
        rcases hh2 : checkForHeuristicProjects node directoryPath p1
          (countDirectory s directoryPath currentDepth) with ⟨p2, s2⟩
        rw [hh2] at hh hm
        dsimp only
        by_cases hfound : p2.heuristicallyFound = true
        · rw [if_pos hfound]
          refine Extends.trans hcount (Extends.trans hh.1 ?_)
          apply recordHeuristicFind_extends
          have htype : s2.m_scanType = s.m_scanType := hh.1.scanType.trans hcount.scanType
          have hlimit : s2.m_scanType = SCAN_TYPE_DEEP ∨
              (s2.m_scanType = SCAN_TYPE_QUICK ∧ currentDepth < QUICK_SCAN_DEPTH_LIMIT) := by
            rw [htype]
            simpa [withinDepthLimit] using hw
          refine ⟨currentDepth, by rw [hh.2, hp]; exact hV, Or.inr ⟨hfound, ?_, ?_, hlimit⟩⟩
          · rcases hm with hm | ⟨t, hm⟩
            · dsimp only at hm
              rw [hm]
              exact hflags.2
            · dsimp only at hm
              rw [hm]
              exact hflags.2
          · rcases hm with hm | ⟨t, hm⟩
            · dsimp only at hm
              rw [hm, hflags.1] at hfound
              exact absurd hfound (by simp)
            · dsimp only at hm
              exact ⟨t, by rw [hm]; rfl⟩
        · rw [if_neg hfound]
          exact Extends.trans hcount hh.1
      · rw [if_neg hw]
        exact hcount
    · dsimp only
      refine Extends.trans hcount ?_
      apply recordStrictCandidate_extends
      · exact ⟨currentDepth, by rw [hp]; exact hV⟩
      · exact hflags.1

theorem strictCandidate_eq (env : Env) (node : FsNode) (dirPath : QString)
    (projectInfo : ProjectInfo) :
    (checkForSoftudioProject env node dirPath projectInfo).1 = strictCandidate env node dirPath := by
  unfold strictCandidate
  exact Bool.eq_iff_iff.2
    ((checkForSoftudioProject_true_iff env node dirPath projectInfo).trans
      (checkForSoftudioProject_true_iff env node dirPath {}).symm)

theorem withinDepthLimit_iff (s : State) (currentDepth : Nat) :
    withinDepthLimit s currentDepth = true ↔
      (s.m_scanType = SCAN_TYPE_DEEP ∨
        (s.m_scanType = SCAN_TYPE_QUICK ∧ currentDepth < QUICK_SCAN_DEPTH_LIMIT)) := by
  simp [withinDepthLimit]

/-- Control reaches the recursion block only past a failed strict check. -/
theorem examineDirectory_true (node : FsNode) (env : Env) (directoryPath : QString)
    (currentDepth : Nat) (s : State)
    (h : (examineDirectory node env directoryPath currentDepth s).1 = true) :
    strictCandidate env node directoryPath = false := by
  rw [← strictCandidate_eq env node directoryPath
    (ProjectInfo.construct env (Qt.toNativeSeparators directoryPath) "unknown")]
  unfold examineDirectory at h
  by_cases hskip : (!node.exists || !node.isDir || !node.isReadable) = true
  · rw [if_pos hskip] at h
    exact absurd h (by simp)
  · rw [if_neg hskip] at h
    rcases hc : checkForSoftudioProject env node directoryPath
      (ProjectInfo.construct env (Qt.toNativeSeparators directoryPath) "unknown") with ⟨b, p1⟩
    rw [hc] at h
    cases b
    · rfl
    · exact absurd h (by simp)

/-- Every directory `processDirectory` notes, every record it finds or emits,
is reached from its directory through directories that are not strict
candidates and lie within the depth limit; the same for the loop over the
entries. -/
theorem processDirectory_reaches (node : FsNode) :
    ∀ (env : Env) (directoryPath : QString) (currentDepth : Nat) (s : State),
      Extends (fun v => Reaches env s.m_scanType node directoryPath currentDepth v.1 v.2) s
        (processDirectory node env directoryPath currentDepth s) := by
  refine @FsNode.rec
    (fun node => ∀ (env : Env) (directoryPath : QString) (currentDepth : Nat) (s : State),
      Extends (fun v => Reaches env s.m_scanType node directoryPath currentDepth v.1 v.2) s
        (processDirectory node env directoryPath currentDepth s))
    (fun entries => ∀ (env : Env) (directoryPath : QString) (currentDepth : Nat) (s : State),
      Extends (fun v => ∃ entry ∈ entries,
          Reaches env s.m_scanType entry (Qt.filePath directoryPath entry.name)
            (currentDepth + 1) v.1 v.2) s
        (processEntries entries env directoryPath currentDepth s))
    ?_ ?_ ?_ node
  · intro name kind readable link children ih env directoryPath currentDepth s
    have hstop := readStopRequested_extends
      (fun v => Reaches env s.m_scanType (FsNode.node name kind readable link children)
        directoryPath currentDepth v.1 v.2) s
    rw [processDirectory]
    rcases hr : readStopRequested s with ⟨b, s1⟩
    rw [hr] at hstop
    cases b
    · dsimp only
      have hex := examineDirectory_extends
        (fun v => Reaches env s.m_scanType (FsNode.node name kind readable link children)
          directoryPath currentDepth v.1 v.2)
        (FsNode.node name kind readable link children) env directoryPath currentDepth s1
        (Reaches.here _ _ _)
      have htrue := examineDirectory_true (FsNode.node name kind readable link children) env
        directoryPath currentDepth s1
      rcases hx : examineDirectory (FsNode.node name kind readable link children) env
        directoryPath currentDepth s1 with ⟨b2, s2⟩
      rw [hx] at hex htrue
      cases b2
      · exact Extends.trans hstop hex
      · dsimp only
        split_ifs with hw
        · have ht : s2.m_scanType = s.m_scanType := hex.scanType.trans hstop.scanType
          refine Extends.trans hstop (Extends.trans hex ?_)
          refine Extends.mono (ih env directoryPath currentDepth s2) ?_
          rintro v ⟨entry, hmem, hreach⟩
          rw [ht] at hreach
          rw [withinDepthLimit_iff, ht] at hw
          exact Reaches.through _ entry _ _ _ _ hmem (htrue rfl) hw hreach
        · exact Extends.trans hstop hex
    · exact hstop
  · intro env directoryPath currentDepth s
    rw [processEntries]
    exact Extends.refl _ s
  · intro entry rest ihEntry ihRest env directoryPath currentDepth s
    rw [processEntries]
    have hrest : ∀ s₀ : State, s₀.m_scanType = s.m_scanType →
        Extends (fun v => ∃ e ∈ entry :: rest,
          Reaches env s.m_scanType e (Qt.filePath directoryPath e.name)
            (currentDepth + 1) v.1 v.2) s₀
          (processEntries rest env directoryPath currentDepth s₀) := by
      intro s₀ ht
      refine Extends.mono (ihRest env directoryPath currentDepth s₀) ?_
      rintro v ⟨e, hmem, hreach⟩
      rw [ht] at hreach
      exact ⟨e, List.mem_cons_of_mem _ hmem, hreach⟩
    by_cases h1 : (entry.isDir && entry.isReadable) = true
    · rw [if_pos h1]
      have hstop := readStopRequested_extends
        (fun v => ∃ e ∈ entry :: rest,
          Reaches env s.m_scanType e (Qt.filePath directoryPath e.name)
            (currentDepth + 1) v.1 v.2) s
      rcases hr : readStopRequested s with ⟨b, s1⟩
      rw [hr] at hstop
      cases b
      · dsimp only
        by_cases h2 : (entry.isDir && !entry.isSymbolicLink) = true
        · rw [if_pos h2]
          have hentry : Extends (fun v => ∃ e ∈ entry :: rest,
              Reaches env s.m_scanType e (Qt.filePath directoryPath e.name)
                (currentDepth + 1) v.1 v.2) s1
              (processDirectory entry env (Qt.filePath directoryPath entry.name)
                (currentDepth + 1) s1) := by
            refine Extends.mono
              (ihEntry env (Qt.filePath directoryPath entry.name) (currentDepth + 1) s1) ?_
            intro v hreach
            rw [hstop.scanType] at hreach
            exact ⟨entry, List.mem_cons_self _ _, hreach⟩
          exact Extends.trans hstop (Extends.trans hentry
            (hrest _ (hentry.scanType.trans hstop.scanType)))
        · rw [if_neg h2]
          exact Extends.trans hstop (hrest _ hstop.scanType)
      · exact hstop
    · rw [if_neg h1]
      exact hrest s rfl

/-! ### The counting phase and the loop over the roots -/

theorem Extends.then_progress {V : QString × Nat → Prop} {s s' : State} (h : Extends V s s')
    (msg : QString) (total scanned : Nat) (estimating : Bool) :
    Extends V s (emit s' (.scanProgress msg total scanned estimating)) :=
  Extends.trans h (emit_progress_extends V _ _ _ _ _)

theorem countOne_extends (V : QString × Nat → Prop) (s : State) (currentPath : QString) :
    Extends V s (countOne s currentPath).2 := by
  have h := readStopRequested_extends V s
  unfold countOne
  rcases hr : readStopRequested s with ⟨b, s1⟩
  rw [hr] at h
  cases b
  · dsimp only
    split_ifs
    · refine Extends.trans h (Extends.then_progress ?_ _ _ _ _)
      exact Extends.of_same V s1 _ rfl rfl rfl rfl rfl rfl (fun hn => hn)
    · exact Extends.trans h (Extends.of_same V s1 _ rfl rfl rfl rfl rfl rfl (fun hn => hn))
  · exact h

/-- Counting what lies below a directory entry changes none of the records. -/
theorem countBelow_extends (V : QString × Nat → Prop) (node : FsNode) :
    ∀ (path : QString) (s : State), Extends V s (countBelow node path s).2 := by
  refine @FsNode.rec
    (fun node => ∀ (path : QString) (s : State), Extends V s (countBelow node path s).2)
    (fun entries => ∀ (path : QString) (s : State),
      Extends V s (countEntriesBelow entries path s).2)
    ?_ ?_ ?_ node
  · intro name kind readable link children ih path s
    rw [countBelow]
    have hfirst : Extends V s
        (if decide (kind = FsKind.dir) && readable then countOne s path else (false, s)).2 := by
      split_ifs
      · exact countOne_extends V s path
      · exact Extends.refl V s
    rcases hc : (if decide (kind = FsKind.dir) && readable then countOne s path
      else (false, s)) with ⟨b, s1⟩
    rw [hc] at hfirst
    cases b
    · dsimp only
      split_ifs
      · exact Extends.trans hfirst (ih path s1)
      · exact hfirst
    · exact hfirst
  · intro path s
    rw [countEntriesBelow]
    exact Extends.refl V s
  · intro entry rest ihEntry ihRest path s
    rw [countEntriesBelow]
    have h1 := ihEntry (Qt.filePath path entry.name) s
    rcases hc : countBelow entry (Qt.filePath path entry.name) s with ⟨b, s1⟩
    rw [hc] at h1
    cases b
    · exact Extends.trans h1 (ihRest path s1)
    · exact h1

theorem countEntriesBelow_extends (V : QString × Nat → Prop) (entries : List FsNode) :
    ∀ (path : QString) (s : State), Extends V s (countEntriesBelow entries path s).2 := by
  induction entries with
  | nil =>
    intro path s
    rw [countEntriesBelow]
    exact Extends.refl V s
  | cons entry rest ih =>
    intro path s
    rw [countEntriesBelow]
    have h1 := countBelow_extends V entry (Qt.filePath path entry.name) s
    rcases hc : countBelow entry (Qt.filePath path entry.name) s with ⟨b, s1⟩
    rw [hc] at h1
    cases b
    · exact Extends.trans h1 (ih path s1)
    · exact h1

theorem countRoots_extends (V : QString × Nat → Prop) (env : Env) (roots : List QString) :
    ∀ s : State, Extends V s (countRoots env roots s).2 := by
  induction roots with
  | nil =>
    intro s
    exact Extends.refl V s
  | cons rootPath rest ih =>
    intro s
    have h := readStopRequested_extends V s
    unfold countRoots
    rcases hr : readStopRequested s with ⟨b, s1⟩
    rw [hr] at h
    cases b
    · dsimp only
      have h2 : Extends V s1
          (if (env.info rootPath).isDir && (env.info rootPath).isReadable then
            countEntriesBelow (env.info rootPath).children rootPath s1
          else (false, s1)).2 := by
        split_ifs
        · exact countEntriesBelow_extends V _ rootPath s1
        · exact Extends.refl V s1
      rcases hc : (if (env.info rootPath).isDir && (env.info rootPath).isReadable then
            countEntriesBelow (env.info rootPath).children rootPath s1
          else (false, s1)) with ⟨b2, s2⟩
      rw [hc] at h2
      cases b2
      · exact Extends.trans h (Extends.trans h2 (ih s2))
      · exact Extends.trans h h2
    · exact h

theorem countTotalFolders_extends (V : QString × Nat → Prop) (env : Env) (s : State) :
    Extends V s (countTotalFolders env s) := by
  unfold countTotalFolders
  have h0 : Extends V s
      { s with m_totalFoldersEstimate := 0,
               m_isCurrentlyEstimatingForPeriodicEmit := true,
               m_lastProcessedPathForPeriodicEmit := "Counting folders (Phase 1/2)..." } :=
    Extends.of_same V s _ rfl rfl rfl rfl rfl rfl (fun hn => hn)
  have h1 := countRoots_extends V env s.m_scanRoots
      { s with m_totalFoldersEstimate := 0,
               m_isCurrentlyEstimatingForPeriodicEmit := true,
               m_lastProcessedPathForPeriodicEmit := "Counting folders (Phase 1/2)..." }
  rcases hc : countRoots env s.m_scanRoots
      { s with m_totalFoldersEstimate := 0,
               m_isCurrentlyEstimatingForPeriodicEmit := true,
               m_lastProcessedPathForPeriodicEmit := "Counting folders (Phase 1/2)..." }
    with ⟨b, s1⟩
  rw [hc] at h1
  cases b
  · dsimp only
    have h2 := readStopRequested_extends V s1
    rcases hr : readStopRequested s1 with ⟨b2, s2⟩
    rw [hr] at h2
    cases b2
    · refine Extends.trans h0 (Extends.trans h1 (Extends.trans h2
        (Extends.then_progress ?_ _ _ _ _)))
      exact Extends.of_same V s2 _ rfl rfl rfl rfl rfl rfl (fun hn => hn)
    · exact Extends.trans h0 (Extends.trans h1 (Extends.trans h2
        (Extends.of_same V s2 _ rfl rfl rfl rfl rfl rfl (fun hn => hn))))
  · exact Extends.trans h0 h1

theorem announceRoot_extends (V : QString × Nat → Prop) (s : State) (rootPath : QString) :
    Extends V s (announceRoot s rootPath) := by
  unfold announceRoot
  refine Extends.then_progress ?_ _ _ _ _
  exact Extends.of_same V s _ rfl rfl rfl rfl rfl rfl (fun hn => hn)

theorem nextRoot_extends (V : QString × Nat → Prop) (s : State) : Extends V s (nextRoot s) :=
  Extends.of_same V s _ rfl rfl rfl rfl rfl rfl (fun hn => hn)

/-- Every directory the loop over the roots notes, every record it finds or
emits, is reached from one of the roots. -/
theorem scanRoots_extends (env : Env) (roots : List QString) :
    ∀ s : State,
      Extends (fun v => ∃ root ∈ roots,
          Reaches env s.m_scanType (env.info (Qt.toNativeSeparators root))
            (Qt.toNativeSeparators root) 0 v.1 v.2) s
        (scanRoots env roots s) := by
  induction roots with
  | nil =>
    intro s
    exact Extends.refl _ s
  | cons rootPath rest ih =>
    intro s
    have h := readStopRequested_extends (fun v => ∃ root ∈ rootPath :: rest,
          Reaches env s.m_scanType (env.info (Qt.toNativeSeparators root))
            (Qt.toNativeSeparators root) 0 v.1 v.2) s
    unfold scanRoots
    rcases hr : readStopRequested s with ⟨b, s1⟩
    rw [hr] at h
    cases b
    · dsimp only
      have ha := announceRoot_extends (fun v => ∃ root ∈ rootPath :: rest,
          Reaches env s.m_scanType (env.info (Qt.toNativeSeparators root))
            (Qt.toNativeSeparators root) 0 v.1 v.2) s1 rootPath
      have hta : (announceRoot s1 rootPath).m_scanType = s.m_scanType :=
        ha.scanType.trans h.scanType
      have hp : Extends (fun v => ∃ root ∈ rootPath :: rest,
          Reaches env s.m_scanType (env.info (Qt.toNativeSeparators root))
            (Qt.toNativeSeparators root) 0 v.1 v.2) (announceRoot s1 rootPath)
          (processDirectory (env.info (Qt.toNativeSeparators rootPath)) env
            (Qt.toNativeSeparators rootPath) 0 (announceRoot s1 rootPath)) := by
        refine Extends.mono (processDirectory_reaches _ env _ 0 (announceRoot s1 rootPath)) ?_
        intro v hreach
        rw [hta] at hreach
        exact ⟨rootPath, List.mem_cons_self _ _, hreach⟩
      have hn := nextRoot_extends (fun v => ∃ root ∈ rootPath :: rest,
          Reaches env s.m_scanType (env.info (Qt.toNativeSeparators root))
            (Qt.toNativeSeparators root) 0 v.1 v.2)
        (processDirectory (env.info (Qt.toNativeSeparators rootPath)) env
            (Qt.toNativeSeparators rootPath) 0 (announceRoot s1 rootPath))
      have htn := hn.scanType.trans (hp.scanType.trans hta)
      refine Extends.trans h (Extends.trans ha (Extends.trans hp (Extends.trans hn ?_)))
      refine Extends.mono (ih _) ?_
      rintro v ⟨root, hmem, hreach⟩
      rw [htn] at hreach
      exact ⟨root, List.mem_cons_of_mem _ hmem, hreach⟩
    · exact h

/-- Every directory `performScan` notes, every record it finds or emits, is
reached from one of the roots of the worker. -/
theorem performScan_extends (env : Env) (s : State) :
    Extends (fun v => ∃ root ∈ s.m_scanRoots,
        Reaches env s.m_scanType (env.info (Qt.toNativeSeparators root))
          (Qt.toNativeSeparators root) 0 v.1 v.2) s
      (performScan env s) := by
  unfold performScan
  have hfirst : Extends (fun v => ∃ root ∈ s.m_scanRoots,
        Reaches env s.m_scanType (env.info (Qt.toNativeSeparators root))
          (Qt.toNativeSeparators root) 0 v.1 v.2) s
      (if s.m_scanType = SCAN_TYPE_DEEP then
        readStopRequested (countTotalFolders env
          (emit
            { s with m_lastProcessedPathForPeriodicEmit := "Phase 1/2: Counting total folders..." }
            (.scanProgress "Phase 1/2: Counting total folders..." 0 0 true)))
      else (false, { s with m_isCurrentlyEstimatingForPeriodicEmit := false })).2 := by
    split_ifs
    · refine Extends.trans ?_ (readStopRequested_extends _ _)
      refine Extends.trans ?_ (countTotalFolders_extends _ env _)
      refine Extends.then_progress ?_ _ _ _ _
      exact Extends.of_same _ s _ rfl rfl rfl rfl rfl rfl (fun hn => hn)
    · exact Extends.of_same _ s _ rfl rfl rfl rfl rfl rfl (fun hn => hn)
  rcases hc : (if s.m_scanType = SCAN_TYPE_DEEP then
        readStopRequested (countTotalFolders env
          (emit
            { s with m_lastProcessedPathForPeriodicEmit := "Phase 1/2: Counting total folders..." }
            (.scanProgress "Phase 1/2: Counting total folders..." 0 0 true)))
      else (false, { s with m_isCurrentlyEstimatingForPeriodicEmit := false })) with ⟨b, s1⟩
  rw [hc] at hfirst
  cases b
  · dsimp only
    have hstart : Extends (fun v => ∃ root ∈ s.m_scanRoots,
          Reaches env s.m_scanType (env.info (Qt.toNativeSeparators root))
            (Qt.toNativeSeparators root) 0 v.1 v.2) s1
        { s1 with
          m_foldersScannedCount := 0,
          m_lastProcessedPathForPeriodicEmit :=
            if s1.m_scanType = SCAN_TYPE_QUICK then "Quick Scan: Scanning for projects..."
            else "Phase 2/2: Scanning for projects...",
          m_currentScanRootIndex := 0 } :=
      Extends.of_same _ s1 _ rfl rfl rfl rfl rfl rfl (fun hn => hn)
    refine Extends.trans hfirst (Extends.trans hstart ?_)
    refine Extends.mono (scanRoots_extends env s1.m_scanRoots _) ?_
    rintro v ⟨root, hmem, hreach⟩
    have ht : s1.m_scanType = s.m_scanType := hfirst.scanType
    have ho : s1.m_scanRoots = s.m_scanRoots := hfirst.roots
    change Reaches env s1.m_scanType _ _ 0 v.1 v.2 at hreach
    rw [ht] at hreach
    rw [ho] at hmem
    exact ⟨root, hmem, hreach⟩
  · exact hfirst

/-! ### The terminal event of a scan -/

theorem Extends.no_scanFinished {V : QString × Nat → Prop} {s s' : State} (h : Extends V s s') :
    ∃ added, s'.emitted = s.emitted ++ added ∧ countScanFinished added = 0 := by
  obtain ⟨added, hadd, hp⟩ := h.emitted
  refine ⟨added, hadd, ?_⟩
  unfold countScanFinished
  rw [List.length_eq_zero, List.filter_eq_nil_iff]
  intro sig hsig
  rw [(hp sig hsig).1]
  simp

/-- The state in which `doScan` emits its last two signals, for a root list
that is not empty: what `performScan` left, after the two reads of the stop
flag. -/
theorem doScan_nonempty (env : Env) (s : State) (scanRoots : List QString) (scanType : QString)
    (h : scanRoots ≠ []) :
    ∃ s2 : State, ∃ stopSeen : Bool,
      (∀ V, Extends V (performScan env (beginScan s scanRoots scanType)) s2) ∧
      doScan env s scanRoots scanType =
        emit
          (emit s2
            (.scanProgress (if stopSeen then "Scan canceled." else "Scan complete.")
              s2.m_totalFoldersEstimate s2.m_foldersScannedCount false))
          (.scanFinished s2.m_foundProjectsList
            (if (readStopRequested (performScan env (beginScan s scanRoots scanType))).1
              then "canceled" else "completed")
            (if stopSeen then [("stop_details", "")] else []) s2.m_scanErrors) := by
  have hne : scanRoots.isEmpty = false := by
    cases scanRoots with
    | nil => exact absurd rfl h
    | cons a l => rfl
  unfold doScan
  rw [hne]
  have h1 := fun V => readStopRequested_extends V
    (performScan env (beginScan s scanRoots scanType))
  rcases hr1 : readStopRequested (performScan env (beginScan s scanRoots scanType)) with ⟨b1, s1⟩
  rw [hr1] at h1
  have h2 := fun V => readStopRequested_extends V s1
  rcases hr2 : readStopRequested s1 with ⟨b2, s2⟩
  rw [hr2] at h2
  exact ⟨s2, b2, fun V => Extends.trans (h1 V) (h2 V), by simp [hr2]⟩

/-- C14. One call of `doScan` emits exactly one `scanFinished`, as its last
signal: what it emits is some signals none of which is `scanFinished`, then
one `scanFinished` carrying the found list and the error list of the worker
as they stand at the end of the call.  For a root list that is not empty the
outcome is "canceled" when the read of the stop flag that follows the return
of `performScan` sees it set, and "completed" otherwise. -/
theorem doScan_emits_one_scanFinished (env : Env) (s : State) (scanRoots : List QString)
    (scanType : QString) :
    ∃ before outcome extra,
      (doScan env s scanRoots scanType).emitted =
        s.emitted ++ before ++
          [.scanFinished (doScan env s scanRoots scanType).m_foundProjectsList outcome extra
            (doScan env s scanRoots scanType).m_scanErrors] ∧
      countScanFinished before = 0 ∧
      countScanFinished
        (before ++ [.scanFinished (doScan env s scanRoots scanType).m_foundProjectsList outcome
          extra (doScan env s scanRoots scanType).m_scanErrors]) = 1 ∧
      (scanRoots ≠ [] →
        outcome =
          if (readStopRequested (performScan env (beginScan s scanRoots scanType))).1
          then "canceled" else "completed") := by
  by_cases h : scanRoots = []
  · subst h
    refine ⟨[], "error", [("error_message", "No valid scan roots provided.")], ?_, rfl, rfl, ?_⟩
    · simp [doScan, beginScan, emit]
    · intro hne
      exact absurd rfl hne
  · obtain ⟨s2, stopSeen, hext, hdo⟩ := doScan_nonempty env s scanRoots scanType h
    have hscan := Extends.trans
      (performScan_extends env (beginScan s scanRoots scanType)) (hext _)
    obtain ⟨added, hadd, hcount⟩ := hscan.no_scanFinished
    have hbegin : (beginScan s scanRoots scanType).emitted = s.emitted := rfl
    rw [hbegin] at hadd
    have hcount2 : countScanFinished (added ++
        [.scanProgress (if stopSeen then "Scan canceled." else "Scan complete.")
          s2.m_totalFoldersEstimate s2.m_foldersScannedCount false]) = 0 := by
      unfold countScanFinished at hcount ⊢
      rw [List.filter_append, List.length_append, hcount]
      rfl
    refine ⟨added ++ [.scanProgress (if stopSeen then "Scan canceled." else "Scan complete.")
        s2.m_totalFoldersEstimate s2.m_foldersScannedCount false],
      (if (readStopRequested (performScan env (beginScan s scanRoots scanType))).1
        then "canceled" else "completed"),
      (if stopSeen then [("stop_details", "")] else []), ?_, hcount2, ?_, fun _ => rfl⟩
    · rw [hdo]
      simp [emit, hadd]
    · unfold countScanFinished at hcount2 ⊢
      rw [List.filter_append, List.length_append, hcount2]
      rfl

/-! ### A root that does not exist -/

theorem processDirectory_absent (node : FsNode) (env : Env) (directoryPath : QString)
    (currentDepth : Nat) (s : State) (hstop : NoStop s) (h : node.exists = false) :
    processDirectory node env directoryPath currentDepth s = s := by
  cases node with
  | node name kind readable link children =>
    rw [processDirectory, readStopRequested_noStop s hstop]
    simp [examineDirectory, h]

theorem FsNode.isDir_of_not_exists (node : FsNode) (h : node.exists = false) :
    node.isDir = false := by
  unfold FsNode.exists at h
  unfold FsNode.isDir
  simp only [decide_eq_false_iff_not, not_not, ne_eq, decide_eq_true_eq] at h ⊢
  rw [h]
  decide

/-- C15, counterexample. The path `/nowhere` does not exist in the example
file system, and a Quick scan of the root list that holds only this path ends
with `scanFinished` carrying the outcome "completed", not "error". -/
theorem doScan_nonexistent_root_not_error :
    (exampleEnv.info "/nowhere").exists = false ∧
    (doScan exampleEnv {} ["/nowhere"] SCAN_TYPE_QUICK).emitted.getLast? =
      some (.scanFinished [] "completed" [] []) := by
  decide

/-- C15, amended. For a root list that holds one path that does not exist,
and with no stop requested, `doScan` with any scan type processes no
directory (none is noted as visited, the scanned counter stays 0), finds
nothing, records no error, and its last signal is `scanFinished` with the
outcome "completed", an empty record list, no extra data and an empty error
list. -/
theorem doScan_nonexistent_root (env : Env) (s : State) (rootPath scanType : QString)
    (hstop : s.stopArrivesAfter = none)
    (hmissing : (env.info (Qt.toNativeSeparators rootPath)).exists = false) :
    (doScan env s [rootPath] scanType).visited = s.visited ∧
    (doScan env s [rootPath] scanType).m_foldersScannedCount = 0 ∧
    (doScan env s [rootPath] scanType).m_foundProjectsList = [] ∧
    (doScan env s [rootPath] scanType).m_scanErrors = [] ∧
    ∃ before,
      (doScan env s [rootPath] scanType).emitted =
        s.emitted ++ before ++ [.scanFinished [] "completed" [] []] := by
  have hdir : (env.info rootPath).isDir = false :=
    FsNode.isDir_of_not_exists _ hmissing
  have hpd : ∀ s₀ : State, NoStop s₀ →
      processDirectory (env.info rootPath) env rootPath 0 s₀ = s₀ :=
    fun s₀ h₀ => processDirectory_absent _ env _ 0 s₀ h₀ hmissing
  have hread : ∀ s₀ : State, s₀.m_stopRequested = false → s₀.stopArrivesAfter = none →
      readStopRequested s₀ = (false, s₀) :=
    fun s₀ h1 h2 => readStopRequested_noStop s₀ ⟨h1, h2⟩
  by_cases ht : scanType = SCAN_TYPE_DEEP
  · subst ht
    simp [doScan, beginScan, performScan, countTotalFolders, countRoots, scanRoots, hdir,
      hread, hstop, emit, announceRoot, nextRoot, Qt.toNativeSeparators, hpd, NoStop]
    exact ⟨[_, _, _, _], rfl⟩
  · simp [doScan, beginScan, performScan, scanRoots, ht,
      hread, hstop, emit, announceRoot, nextRoot, Qt.toNativeSeparators, hpd, NoStop]
    exact ⟨[_, _], rfl⟩

/-- Witness for C15, amended: a Deep scan of the root `/nowhere` of the example
file system. -/
theorem doScan_nonexistent_root_witness :
    (exampleEnv.info (Qt.toNativeSeparators "/nowhere")).exists = false ∧
    (doScan exampleEnv {} ["/nowhere"] SCAN_TYPE_DEEP).visited = [] ∧
    (doScan exampleEnv {} ["/nowhere"] SCAN_TYPE_DEEP).m_foldersScannedCount = 0 ∧
    (doScan exampleEnv {} ["/nowhere"] SCAN_TYPE_DEEP).m_foundProjectsList = [] ∧
    (doScan exampleEnv {} ["/nowhere"] SCAN_TYPE_DEEP).m_scanErrors = [] ∧
    ∃ before,
      (doScan exampleEnv {} ["/nowhere"] SCAN_TYPE_DEEP).emitted =
        [] ++ before ++ [.scanFinished [] "completed" [] []] :=
  ⟨by decide, doScan_nonexistent_root exampleEnv {} "/nowhere" SCAN_TYPE_DEEP rfl (by decide)⟩

/-! ### What a scan reaches -/

/-- Every directory a scan notes, every record it finds or emits, is reached
from one of the roots; and every record sent for validation is flagged as a
Softudio candidate. -/
theorem doScan_reaches (env : Env) (s : State) (scanRoots : List QString) (scanType : QString) :
    (∃ added, (doScan env s scanRoots scanType).visited = s.visited ++ added ∧
      ∀ v ∈ added, ∃ root ∈ scanRoots,
        Reaches env scanType (env.info (Qt.toNativeSeparators root))
          (Qt.toNativeSeparators root) 0 v.1 v.2) ∧
    (∀ r ∈ (doScan env s scanRoots scanType).m_foundProjectsList, ∃ d, ∃ root ∈ scanRoots,
        Reaches env scanType (env.info (Qt.toNativeSeparators root))
          (Qt.toNativeSeparators root) 0 r.path d) ∧
    (∃ added, (doScan env s scanRoots scanType).emitted = s.emitted ++ added ∧
      (∀ r, Signal.projectFound r ∈ added → ∃ d, ∃ root ∈ scanRoots,
        Reaches env scanType (env.info (Qt.toNativeSeparators root))
          (Qt.toNativeSeparators root) 0 r.path d) ∧
      (∀ r, Signal.validationRequested r ∈ added → r.isSoftudioProjectFlag = true)) := by
  by_cases h : scanRoots = []
  · subst h
    refine ⟨⟨[], by simp [doScan, beginScan, emit], by simp⟩, ?_,
      ⟨[.scanFinished [] "error" [("error_message", "No valid scan roots provided.")] []],
        ?_, ?_, ?_⟩⟩
    · intro r hr
      simp [doScan, beginScan, emit] at hr
    · simp only [doScan, beginScan, emit, List.isEmpty_nil, if_true]
    · intro r hr
      simp at hr
    · intro r hr
      simp at hr
  · obtain ⟨s2, stopSeen, hext, hdo⟩ := doScan_nonempty env s scanRoots scanType h
    have hscan := Extends.trans
      (performScan_extends env (beginScan s scanRoots scanType)) (hext _)
    obtain ⟨-, -, ⟨v, hv, pv⟩, ⟨f, hf, pf⟩, ⟨e, he, pe⟩, -, -⟩ := hscan
    rw [hdo]
    refine ⟨⟨v, hv, pv⟩, ?_,
      ⟨e ++ [.scanProgress (if stopSeen then "Scan canceled." else "Scan complete.")
            s2.m_totalFoldersEstimate s2.m_foldersScannedCount false,
          .scanFinished s2.m_foundProjectsList
            (if (readStopRequested (performScan env (beginScan s scanRoots scanType))).1
              then "canceled" else "completed")
            (if stopSeen then [("stop_details", "")] else []) s2.m_scanErrors],
        ?_, ?_, ?_⟩⟩
    · intro r hr
      have hr2 : r ∈ s2.m_foundProjectsList := hr
      rw [hf] at hr2
      obtain ⟨d, hd, -⟩ := pf r (by simpa [beginScan] using hr2)
      exact ⟨d, hd⟩
    · show s2.emitted ++ [_] ++ [_] = _
      rw [he]
      simp [beginScan]
    · intro r hr
      rcases List.mem_append.1 hr with hr | hr
      · obtain ⟨d, hd, -⟩ := (pe _ hr).2.1 r rfl
        exact ⟨d, hd⟩
      · simp at hr
    · intro r hr
      rcases List.mem_append.1 hr with hr | hr
      · exact ((pe _ hr).2.2 r rfl).1
      · simp at hr

/-- From a strict candidate nothing but the candidate itself is reached. -/
theorem Reaches.of_strictCandidate {env : Env} {scanType : QString} {node : FsNode}
    {path : QString} {depth : Nat} {q : QString} {d : Nat}
    (hreach : Reaches env scanType node path depth q d)
    (hstrict : strictCandidate env node path = true) :
    q = Qt.toNativeSeparators path ∧ d = depth := by
  cases hreach
  · exact ⟨rfl, rfl⟩
  · simp_all

/-! ### The short circuit at a strict candidate -/

/-- C16, counterexample. In the example file system `/r/ProjectX` is a strict
candidate and `/r/ProjectX/sub` lies below it; a Quick scan of the two roots
`/r/ProjectX` and `/r/ProjectX/sub` records the candidate and then finds its
descendant `sub` as well. -/
theorem descendant_found_under_overlapping_roots :
    strictCandidate exampleEnv (exampleEnv.info "/r/ProjectX") "/r/ProjectX" = true ∧
    (doScan exampleEnv {} ["/r/ProjectX", "/r/ProjectX/sub"]
        SCAN_TYPE_QUICK).m_foundProjectsList.map (fun r => (r.path, r.type)) =
      [("/r/ProjectX", "softudio_potential"), ("/r/ProjectX/sub", "heuristic_npm_yarn")] := by
  decide

/-- C16, amended. Within the traversal from one directory the short circuit
holds: `processDirectory` on a strict candidate notes, finds and emits nothing
but the candidate itself, and from a strict candidate no other directory is
reached.  For a whole scan, every record in the found list and every record
emitted as `projectFound` is the record of a directory reached from one of
the roots by going down through directories none of which is a strict
candidate. -/
theorem strict_candidate_short_circuit (env : Env) (s : State) (scanRoots : List QString)
    (scanType : QString) :
    (∀ (node : FsNode) (path : QString) (depth : Nat) (s₀ : State),
      strictCandidate env node path = true →
      (∃ added, (processDirectory node env path depth s₀).visited = s₀.visited ++ added ∧
        ∀ v ∈ added, v = (Qt.toNativeSeparators path, depth)) ∧
      (∃ added, (processDirectory node env path depth s₀).m_foundProjectsList =
          s₀.m_foundProjectsList ++ added ∧
        ∀ r ∈ added, r.path = Qt.toNativeSeparators path) ∧
      (∃ added, (processDirectory node env path depth s₀).emitted = s₀.emitted ++ added ∧
        ∀ r, Signal.projectFound r ∈ added → r.path = Qt.toNativeSeparators path)) ∧
    (∀ (node : FsNode) (path : QString) (depth : Nat) (q : QString) (d : Nat),
      strictCandidate env node path = true → Reaches env scanType node path depth q d →
      q = Qt.toNativeSeparators path ∧ d = depth) ∧
    (∀ r ∈ (doScan env s scanRoots scanType).m_foundProjectsList, ∃ d, ∃ root ∈ scanRoots,
      Reaches env scanType (env.info (Qt.toNativeSeparators root))
        (Qt.toNativeSeparators root) 0 r.path d) ∧
    (∃ added, (doScan env s scanRoots scanType).emitted = s.emitted ++ added ∧
      ∀ r, Signal.projectFound r ∈ added → ∃ d, ∃ root ∈ scanRoots,
        Reaches env scanType (env.info (Qt.toNativeSeparators root))
          (Qt.toNativeSeparators root) 0 r.path d) := by
  refine ⟨?_, ?_, (doScan_reaches env s scanRoots scanType).2.1, ?_⟩
  · intro node path depth s₀ hstrict
    have h : Extends (fun v => v = (Qt.toNativeSeparators path, depth)) s₀
        (processDirectory node env path depth s₀) := by
      refine Extends.mono (processDirectory_reaches node env path depth s₀) ?_
      intro v hreach
      obtain ⟨h1, h2⟩ := Reaches.of_strictCandidate hreach hstrict
      exact Prod.ext h1 h2
    obtain ⟨-, -, hv, ⟨f, hf, pf⟩, ⟨e, he, pe⟩, -, -⟩ := h
    refine ⟨hv, ⟨f, hf, ?_⟩, ⟨e, he, ?_⟩⟩
    · intro r hr
      obtain ⟨d, hd, -⟩ := pf r hr
      exact (Prod.mk.inj hd).1
    · intro r hr
      obtain ⟨d, hd, -⟩ := (pe _ hr).2.1 r rfl
      exact (Prod.mk.inj hd).1
  · intro node path depth q d hstrict hreach
    exact Reaches.of_strictCandidate hreach hstrict
  · obtain ⟨added, hadd, hfound, -⟩ := (doScan_reaches env s scanRoots scanType).2.2
    exact ⟨added, hadd, hfound⟩

/-! ### The depth limit -/

theorem Reaches.depth_le_quick {env : Env} {node : FsNode} {path : QString} {depth : Nat}
    {q : QString} {d : Nat} (hreach : Reaches env SCAN_TYPE_QUICK node path depth q d)
    (hdepth : depth ≤ QUICK_SCAN_DEPTH_LIMIT) : d ≤ QUICK_SCAN_DEPTH_LIMIT := by
  induction hreach with
  | here node path depth => exact hdepth
  | through node entry path depth q d hmem hnot hlimit hrest ih =>
    rcases hlimit with h | ⟨-, h⟩
    · exact absurd h (by decide)
    · exact ih h

theorem Extends.visited_mem {V : QString × Nat → Prop} {s s' : State} (h : Extends V s s')
    {v : QString × Nat} (hv : v ∈ s.visited) : v ∈ s'.visited := by
  obtain ⟨added, hadd, -⟩ := h.visited
  rw [hadd]
  exact List.mem_append_left _ hv

theorem countDirectory_visited (s : State) (path : QString) (depth : Nat) :
    (Qt.toNativeSeparators path, depth) ∈ (countDirectory s path depth).visited := by
  unfold countDirectory
  dsimp only
  split_ifs <;> simp [emit]

theorem examineDirectory_fst (node : FsNode) (env : Env) (directoryPath : QString)
    (currentDepth : Nat) (s : State) (hexists : node.exists = true) (hdir : node.isDir = true)
    (hreadable : node.isReadable = true)
    (hstrict : strictCandidate env node directoryPath = false) :
    (examineDirectory node env directoryPath currentDepth s).1 = true := by
  have hc := strictCandidate_eq env node directoryPath
    (ProjectInfo.construct env (Qt.toNativeSeparators directoryPath) "unknown")
  rw [hstrict] at hc
  unfold examineDirectory
  rcases hx : checkForSoftudioProject env node directoryPath
    (ProjectInfo.construct env (Qt.toNativeSeparators directoryPath) "unknown") with ⟨b, p1⟩
  rw [hx] at hc
  simp only at hc
  subst hc
  have hskip : ¬ ((!node.exists || !node.isDir || !node.isReadable) = true) := by
    simp [hexists, hdir, hreadable]
  rw [if_neg hskip]
  dsimp only
  split_ifs <;> rfl

theorem recordStrictCandidate_visited (s : State) (projectInfo : ProjectInfo) :
    (recordStrictCandidate s projectInfo).visited = s.visited := by
  unfold recordStrictCandidate
  dsimp only
  split_ifs <;> rfl

theorem recordHeuristicFind_visited (s : State) (projectInfo : ProjectInfo) :
    (recordHeuristicFind s projectInfo).visited = s.visited := by
  unfold recordHeuristicFind
  split_ifs <;> rfl

theorem examineDirectory_visited (node : FsNode) (env : Env) (directoryPath : QString)
    (currentDepth : Nat) (s : State) (hexists : node.exists = true) (hdir : node.isDir = true)
    (hreadable : node.isReadable = true) :
    (Qt.toNativeSeparators directoryPath, currentDepth) ∈
      (examineDirectory node env directoryPath currentDepth s).2.visited := by
  have hcount := countDirectory_visited s directoryPath currentDepth
  unfold examineDirectory
  have hskip : ¬ ((!node.exists || !node.isDir || !node.isReadable) = true) := by
    simp [hexists, hdir, hreadable]
  rw [if_neg hskip]
  rcases hx : checkForSoftudioProject env node directoryPath
    (ProjectInfo.construct env (Qt.toNativeSeparators directoryPath) "unknown") with ⟨b, p1⟩
  cases b
  · dsimp only
    by_cases hw : withinDepthLimit s currentDepth = true
    · rw [if_pos hw]
      have hh := (checkForHeuristicProjects_extends (fun _ => True) node directoryPath p1
        (countDirectory s directoryPath currentDepth)).1
      rcases hh2 : checkForHeuristicProjects node directoryPath p1
        (countDirectory s directoryPath currentDepth) with ⟨p2, s2⟩
      rw [hh2] at hh
      dsimp only
      split_ifs
      · rw [recordHeuristicFind_visited]
        exact hh.visited_mem hcount
      · exact hh.visited_mem hcount
    · rw [if_neg hw]
      exact hcount
  · dsimp only
    rw [recordStrictCandidate_visited]
    exact hcount

theorem strictCandidate_of_no_softudio (env : Env) (node : FsNode) (directoryPath : QString)
    (h : ∀ c ∈ node.children, c.name ≠ "softudio") :
    strictCandidate env node directoryPath = false := by
  have hfind : node.children.find? (fun c => decide (c.name = "softudio")) = none := by
    rw [List.find?_eq_none]
    intro c hc
    simpa using h c hc
  unfold strictCandidate checkForSoftudioProject
  have hcd : cdChain SOFTUDIO_NESTED_PATH_PARTS node (Qt.dirPath directoryPath) =
      .error ("softudio", Qt.dirPath directoryPath) := by
    simp [SOFTUDIO_NESTED_PATH_PARTS, cdChain, FsNode.cd, FsNode.entry, hfind, FsNode.absent,
      FsNode.isDir, FsNode.kind]
  rw [hcd]

/-- For every `n` there is a directory below which a Deep scan goes `n`
levels down. -/
theorem deep_scan_goes_down (n : Nat) :
    ∃ node : FsNode, node.name = "d" ∧ node.isDir = true ∧ node.isReadable = true ∧
      node.isSymbolicLink = false ∧
      ∀ (env : Env) (path : QString) (depth : Nat) (s : State),
        NoStop s → s.m_scanType = SCAN_TYPE_DEEP →
        ∃ q, (q, depth + n) ∈ (processDirectory node env path depth s).visited := by
  induction n with
  | zero =>
    refine ⟨.node "d" .dir true false [], rfl, rfl, rfl, rfl, ?_⟩
    intro env path depth s hstop htype
    have hstrict : strictCandidate env (.node "d" .dir true false []) path = false :=
      strictCandidate_of_no_softudio env _ path (by simp [FsNode.children])
    have hfst := examineDirectory_fst (.node "d" .dir true false []) env path depth s rfl rfl rfl
      hstrict
    have hvis := examineDirectory_visited (.node "d" .dir true false []) env path depth s
      rfl rfl rfl
    rw [processDirectory, readStopRequested_noStop s hstop]
    rcases hx : examineDirectory (.node "d" .dir true false []) env path depth s with ⟨b, s2⟩
    rw [hx] at hfst hvis
    simp only at hfst
    subst hfst
    refine ⟨Qt.toNativeSeparators path, ?_⟩
    dsimp only
    rw [hx]
    dsimp only
    split_ifs
    · rw [processEntries]
      exact hvis
    · exact hvis
  | succ n ih =>
    obtain ⟨child, hname, hdir, hreadable, hlink, hchild⟩ := ih
    refine ⟨.node "d" .dir true false [child], rfl, rfl, rfl, rfl, ?_⟩
    intro env path depth s hstop htype
    have hstrict : strictCandidate env (.node "d" .dir true false [child]) path = false :=
      strictCandidate_of_no_softudio env _ path (by simp [FsNode.children, hname])
    have hfst := examineDirectory_fst (.node "d" .dir true false [child]) env path depth s
      rfl rfl rfl hstrict
    have hext := examineDirectory_extends (fun _ => True) (.node "d" .dir true false [child])
      env path depth s trivial
    rw [processDirectory, readStopRequested_noStop s hstop]
    rcases hx : examineDirectory (.node "d" .dir true false [child]) env path depth s
      with ⟨b, s2⟩
    rw [hx] at hfst hext
    simp only at hfst
    subst hfst
    have htype2 : s2.m_scanType = SCAN_TYPE_DEEP := hext.scanType.trans htype
    have hstop2 : NoStop s2 := hext.noStop hstop
    have hw : withinDepthLimit s2 depth = true := by
      rw [withinDepthLimit_iff]
      exact Or.inl htype2
    dsimp only
    rw [hx]
    dsimp only
    rw [if_pos hw, processEntries]
    simp only [hdir, hreadable, hlink, Bool.and_self, Bool.not_false, if_true,
      readStopRequested_noStop s2 hstop2]
    rw [processEntries]
    obtain ⟨q, hq⟩ := hchild env (Qt.filePath path child.name) (depth + 1) s2 hstop2 htype2
    refine ⟨q, ?_⟩
    rw [show depth + (n + 1) = depth + 1 + n by omega]
    exact hq

/-- C17. In Quick mode the recursion condition of `processDirectory` holds
exactly at the depths below 3, and at a depth of 3 or more `processDirectory`
does what precedes its recursion block and nothing else; so in a Quick scan
every directory noted as processed lies at a depth of at most 3 below its
root, and every record found is the record of a directory reached at a depth
of at most 3.  In Deep mode the condition holds at every depth, and for every
`n` there is a directory below which a Deep scan processes a directory `n`
levels down. -/
theorem quick_scan_depth_limit (env : Env) (s : State) (scanRoots : List QString) :
    (∀ (s₀ : State) (depth : Nat), s₀.m_scanType = SCAN_TYPE_QUICK →
      (withinDepthLimit s₀ depth = true ↔ depth < 3)) ∧
    (∀ (node : FsNode) (path : QString) (depth : Nat) (s₀ : State),
      s₀.m_scanType = SCAN_TYPE_QUICK → 3 ≤ depth →
      processDirectory node env path depth s₀ =
        if (readStopRequested s₀).1 then (readStopRequested s₀).2
        else (examineDirectory node env path depth (readStopRequested s₀).2).2) ∧
    (∃ added, (doScan env s scanRoots SCAN_TYPE_QUICK).visited = s.visited ++ added ∧
      ∀ v ∈ added, v.2 ≤ 3) ∧
    (∀ r ∈ (doScan env s scanRoots SCAN_TYPE_QUICK).m_foundProjectsList,
      ∃ d, d ≤ 3 ∧ ∃ root ∈ scanRoots,
        Reaches env SCAN_TYPE_QUICK (env.info (Qt.toNativeSeparators root))
          (Qt.toNativeSeparators root) 0 r.path d) ∧
    (∀ (s₀ : State) (depth : Nat), s₀.m_scanType = SCAN_TYPE_DEEP →
      withinDepthLimit s₀ depth = true) ∧
    (∀ n : Nat, ∃ node : FsNode, ∀ (path : QString) (depth : Nat) (s₀ : State),
      NoStop s₀ → s₀.m_scanType = SCAN_TYPE_DEEP →
      ∃ q, (q, depth + n) ∈ (processDirectory node env path depth s₀).visited) := by
  have hquick : ∀ (s₀ : State) (depth : Nat), s₀.m_scanType = SCAN_TYPE_QUICK →
      (withinDepthLimit s₀ depth = true ↔ depth < 3) := by
    intro s₀ depth ht
    rw [withinDepthLimit_iff, ht]
    constructor
    · rintro (h | ⟨-, h⟩)
      · exact absurd h (by decide)
      · exact h
    · intro h
      exact Or.inr ⟨rfl, h⟩
  refine ⟨hquick, ?_, ?_, ?_, ?_, ?_⟩
  · intro node path depth s₀ ht hdepth
    cases node with
    | node name kind readable link children =>
      rw [processDirectory]
      have hstop := readStopRequested_extends (fun _ => True) s₀
      rcases hr : readStopRequested s₀ with ⟨b, s1⟩
      rw [hr] at hstop
      cases b
      · dsimp only
        have hex := examineDirectory_extends (fun _ => True)
          (FsNode.node name kind readable link children) env path depth s1 trivial
        rcases hx : examineDirectory (FsNode.node name kind readable link children) env path
          depth s1 with ⟨b2, s2⟩
        rw [hx] at hex
        cases b2
        · simp
        · have hw : ¬ (withinDepthLimit s2 depth = true) := by
            rw [hquick s2 depth (hex.scanType.trans (hstop.scanType.trans ht))]
            omega
          dsimp only
          rw [if_neg hw]
          simp
      · simp
  · obtain ⟨added, hadd, hp⟩ := (doScan_reaches env s scanRoots SCAN_TYPE_QUICK).1
    refine ⟨added, hadd, ?_⟩
    intro v hv
    obtain ⟨root, -, hreach⟩ := hp v hv
    exact Reaches.depth_le_quick hreach (by decide)
  · intro r hr
    obtain ⟨d, root, hroot, hreach⟩ := (doScan_reaches env s scanRoots SCAN_TYPE_QUICK).2.1 r hr
    exact ⟨d, Reaches.depth_le_quick hreach (by decide), root, hroot, hreach⟩
  · intro s₀ depth ht
    rw [withinDepthLimit_iff]
    exact Or.inl ht
  · intro n
    obtain ⟨node, -, -, -, -, h⟩ := deep_scan_goes_down n
    exact ⟨node, h env⟩

/-! ### The error list during the recursion -/

theorem readStopRequested_errors (s : State) :
    (readStopRequested s).2.m_scanErrors = s.m_scanErrors := by
  unfold readStopRequested
  split_ifs
  · rfl
  · split <;> rfl

theorem countDirectory_errors (s : State) (path : QString) (depth : Nat) :
    (countDirectory s path depth).m_scanErrors = s.m_scanErrors := by
  unfold countDirectory
  dsimp only
  split_ifs <;> rfl

theorem recordStrictCandidate_errors (s : State) (projectInfo : ProjectInfo) :
    (recordStrictCandidate s projectInfo).m_scanErrors = s.m_scanErrors := by
  unfold recordStrictCandidate
  dsimp only
  split_ifs <;> rfl

theorem recordHeuristicFind_errors (s : State) (projectInfo : ProjectInfo) :
    (recordHeuristicFind s projectInfo).m_scanErrors = s.m_scanErrors := by
  unfold recordHeuristicFind
  split_ifs <;> rfl

theorem heuristicFilesLoop_errors (node : FsNode) (currentDirName : QString)
    (entries : List (QString × QString)) (projectInfo : ProjectInfo) (s : State) :
    (heuristicFilesLoop node currentDirName entries projectInfo s).2.2.m_scanErrors =
      s.m_scanErrors := by
  induction entries generalizing s with
  | nil => rfl
  | cons e rest ih =>
    obtain ⟨pattern, type⟩ := e
    have h := readStopRequested_errors s
    unfold heuristicFilesLoop
    rcases hr : readStopRequested s with ⟨b, s1⟩
    rw [hr] at h
    cases b
    · dsimp only
      split_ifs
      · exact h
      · exact (ih s1).trans h
    · exact h

theorem heuristicDirsLoop_errors (node : FsNode) (currentDirName : QString)
    (entries : List (QString × QString)) (projectInfo : ProjectInfo) (s : State) :
    (heuristicDirsLoop node currentDirName entries projectInfo s).2.m_scanErrors =
      s.m_scanErrors := by
  induction entries generalizing s with
  | nil => rfl
  | cons e rest ih =>
    obtain ⟨dirName, type⟩ := e
    have h := readStopRequested_errors s
    unfold heuristicDirsLoop
    rcases hr : readStopRequested s with ⟨b, s1⟩
    rw [hr] at h
    cases b
    · dsimp only
      split_ifs
      · exact h
      · exact (ih s1).trans h
    · exact h

theorem checkForHeuristicProjects_errors (node : FsNode) (dirPath : QString)
    (projectInfo : ProjectInfo) (s : State) :
    (checkForHeuristicProjects node dirPath projectInfo s).2.m_scanErrors = s.m_scanErrors := by
  unfold checkForHeuristicProjects
  split_ifs
  · rfl
  · have h := heuristicFilesLoop_errors node (originalFolderName dirPath) HEURISTIC_FILES_MAP
      projectInfo s
    rcases hr : heuristicFilesLoop node (originalFolderName dirPath) HEURISTIC_FILES_MAP
      projectInfo s with ⟨b, p1, s1⟩
    rw [hr] at h
    cases b
    · dsimp only
      exact (heuristicDirsLoop_errors node (originalFolderName dirPath) HEURISTIC_DIRS_MAP
        p1 s1).trans h
    · exact h

/-- On a readable directory the part of `processDirectory` before the
recursion block records no error. -/
theorem examineDirectory_errors (node : FsNode) (env : Env) (directoryPath : QString)
    (currentDepth : Nat) (s : State) (hreadable : node.isReadable = true) :
    (examineDirectory node env directoryPath currentDepth s).2.m_scanErrors = s.m_scanErrors := by
  have hcount := countDirectory_errors s directoryPath currentDepth
  unfold examineDirectory
  by_cases hskip : (!node.exists || !node.isDir || !node.isReadable) = true
  · rw [if_pos hskip]
    simp [hreadable]
  · rw [if_neg hskip]
    rcases hx : checkForSoftudioProject env node directoryPath
      (ProjectInfo.construct env (Qt.toNativeSeparators directoryPath) "unknown") with ⟨b, p1⟩
    cases b
    · dsimp only
      by_cases hw : withinDepthLimit s currentDepth = true
      · rw [if_pos hw]
        have hh := checkForHeuristicProjects_errors node directoryPath p1
          (countDirectory s directoryPath currentDepth)
        rcases hh2 : checkForHeuristicProjects node directoryPath p1
          (countDirectory s directoryPath currentDepth) with ⟨p2, s2⟩
        rw [hh2] at hh
        dsimp only
        split_ifs
        · exact (recordHeuristicFind_errors s2 p2).trans (hh.trans hcount)
        · exact hh.trans hcount
      · rw [if_neg hw]
        exact hcount
    · exact (recordStrictCandidate_errors _ p1).trans hcount

/-- The recursion of `processDirectory` records no error: the entries it
enters are readable directories. -/
theorem processDirectory_errors (node : FsNode) :
    ∀ (env : Env) (directoryPath : QString) (currentDepth : Nat) (s : State),
      node.isReadable = true →
      (processDirectory node env directoryPath currentDepth s).m_scanErrors = s.m_scanErrors := by
  refine @FsNode.rec
    (fun node => ∀ (env : Env) (directoryPath : QString) (currentDepth : Nat) (s : State),
      node.isReadable = true →
      (processDirectory node env directoryPath currentDepth s).m_scanErrors = s.m_scanErrors)
    (fun entries => ∀ (env : Env) (directoryPath : QString) (currentDepth : Nat) (s : State),
      (processEntries entries env directoryPath currentDepth s).m_scanErrors = s.m_scanErrors)
    ?_ ?_ ?_ node
  · intro name kind readable link children ih env directoryPath currentDepth s hreadable
    have hstop := readStopRequested_errors s
    rw [processDirectory]
    rcases hr : readStopRequested s with ⟨b, s1⟩
    rw [hr] at hstop
    cases b
    · dsimp only
      have hex := examineDirectory_errors (FsNode.node name kind readable link children) env
        directoryPath currentDepth s1 hreadable
      rcases hx : examineDirectory (FsNode.node name kind readable link children) env
        directoryPath currentDepth s1 with ⟨b2, s2⟩
      rw [hx] at hex
      cases b2
      · exact hex.trans hstop
      · dsimp only
        split_ifs
        · exact (ih env directoryPath currentDepth s2).trans (hex.trans hstop)
        · exact hex.trans hstop
    · exact hstop
  · intro env directoryPath currentDepth s
    rw [processEntries]
  · intro entry rest ihEntry ihRest env directoryPath currentDepth s
    rw [processEntries]
    by_cases h1 : (entry.isDir && entry.isReadable) = true
    · rw [if_pos h1]
      have hreadable : entry.isReadable = true := by
        simp only [Bool.and_eq_true] at h1
        exact h1.2
      have hstop := readStopRequested_errors s
      rcases hr : readStopRequested s with ⟨b, s1⟩
      rw [hr] at hstop
      cases b
      · dsimp only
        by_cases h2 : (entry.isDir && !entry.isSymbolicLink) = true
        · rw [if_pos h2]
          exact (ihRest env directoryPath currentDepth _).trans
            ((ihEntry env (Qt.filePath directoryPath entry.name) (currentDepth + 1) s1
              hreadable).trans hstop)
        · rw [if_neg h2]
          exact (ihRest env directoryPath currentDepth s1).trans hstop
      · exact hstop
    · rw [if_neg h1]
      exact ihRest env directoryPath currentDepth s

theorem processEntries_errors (entries : List FsNode) :
    ∀ (env : Env) (directoryPath : QString) (currentDepth : Nat) (s : State),
      (processEntries entries env directoryPath currentDepth s).m_scanErrors = s.m_scanErrors := by
  induction entries with
  | nil =>
    intro env directoryPath currentDepth s
    rw [processEntries]
  | cons entry rest ih =>
    intro env directoryPath currentDepth s
    rw [processEntries]
    by_cases h1 : (entry.isDir && entry.isReadable) = true
    · rw [if_pos h1]
      have hreadable : entry.isReadable = true := by
        simp only [Bool.and_eq_true] at h1
        exact h1.2
      have hstop := readStopRequested_errors s
      rcases hr : readStopRequested s with ⟨b, s1⟩
      rw [hr] at hstop
      cases b
      · dsimp only
        by_cases h2 : (entry.isDir && !entry.isSymbolicLink) = true
        · rw [if_pos h2]
          exact (ih env directoryPath currentDepth _).trans
            ((processDirectory_errors entry env (Qt.filePath directoryPath entry.name)
              (currentDepth + 1) s1 hreadable).trans hstop)
        · rw [if_neg h2]
          exact (ih env directoryPath currentDepth s1).trans hstop
      · exact hstop
    · rw [if_neg h1]
      exact ih env directoryPath currentDepth s

theorem heuristicFilesLoop_noStop (node : FsNode) (currentDirName : QString)
    (entries : List (QString × QString)) (projectInfo : ProjectInfo) (s : State)
    (hstop : NoStop s) :
    heuristicFilesLoop node currentDirName entries projectInfo s =
      match entries.find? (fun e => heuristicFileMatches node e.1) with
      | some e => (true, markHeuristic projectInfo e.2 currentDirName, s)
      | none => (false, projectInfo, s) := by
  induction entries with
  | nil => rfl
  | cons e rest ih =>
    obtain ⟨pattern, type⟩ := e
    unfold heuristicFilesLoop
    rw [readStopRequested_noStop s hstop]
    dsimp only
    by_cases hm : heuristicFileMatches node pattern = true
    · rw [if_pos hm]
      simp [List.find?, hm]
    · rw [if_neg hm, ih]
      simp [List.find?, hm]

theorem HEURISTIC_FILES_MAP_eq :
    HEURISTIC_FILES_MAP =
      [("*.csproj", "csharp_proj"), (".git", "git_repo"), (".sln", "vs_solution"),
       (".uproject", "unreal"), ("CMakeLists.txt", "cmake"), ("Makefile", "make"),
       ("build.gradle", "gradle"), ("package.json", "npm_yarn"), ("pom.xml", "maven"),
       ("setup.py", "python_setup")] := by
  decide

end ScanWorker

/-! ### `ProjectInfo`: the constructor's default name, and equality as a relation -/

namespace ProjectInfo

/-- C25, the code at the failing input. In the example file system
`/r/ProjectX` is an existing directory whose last path segment is `ProjectX`,
yet the record constructed from that path alone is named `r`, after the parent
directory: `QFileInfo::dir()` is the directory that holds the entry. -/
theorem construct_names_parent_directory :
    (ScanWorker.exampleEnv.info "/r/ProjectX").isDir = true ∧
    Qt.fileName "/r/ProjectX" = "ProjectX" ∧
    (construct ScanWorker.exampleEnv "/r/ProjectX" "unknown").name = "r" := by
  decide

/-- C26. `operator==` is reflexive and symmetric but not transitive: with one
path, A and C carrying different non-empty uids and B an empty uid, A == B and
B == C hold and A == C does not. -/
theorem equals_not_transitive :
    (∀ a : ProjectInfo, equals a a = true) ∧
    (∀ a b : ProjectInfo, equals a b = equals b a) ∧
    (equals { path := "/p", uid := "u1" } { path := "/p", uid := "" } = true ∧
      equals { path := "/p", uid := "" } { path := "/p", uid := "u2" } = true ∧
      equals { path := "/p", uid := "u1" } { path := "/p", uid := "u2" } = false) ∧
    ¬ (∀ a b c : ProjectInfo, equals a b = true → equals b c = true → equals a c = true) := by
  refine ⟨?_, ?_, by decide, ?_⟩
  · intro a
    simp [equals]
  · intro a b
    rw [Bool.eq_iff_iff]
    simp only [equals, Bool.and_eq_true, Bool.or_eq_true, decide_eq_true_eq]
    constructor
    · rintro ⟨hp, (h | h) | h⟩
      · exact ⟨hp.symm, Or.inl (Or.inr h)⟩
      · exact ⟨hp.symm, Or.inl (Or.inl h)⟩
      · exact ⟨hp.symm, Or.inr h.symm⟩
    · rintro ⟨hp, (h | h) | h⟩
      · exact ⟨hp.symm, Or.inl (Or.inr h)⟩
      · exact ⟨hp.symm, Or.inl (Or.inl h)⟩
      · exact ⟨hp.symm, Or.inr h.symm⟩
  · intro h
    exact absurd (h { path := "/p", uid := "u1" } { path := "/p", uid := "" }
      { path := "/p", uid := "u2" } (by decide) (by decide)) (by decide)

end ProjectInfo

/-! ### The reasons of a failed judgement -/

namespace ProjectFileValidatorWorker

/-- The signature-mismatch message starts with the letter `S`, whatever
signature was found. -/
theorem signature_mismatch_data (found : QString) :
    ∃ rest,
      ("Signature mismatch in project file. Expected: '" ++ SOFTUDIO_FILE_SIGNATURE ++
        "', Found: '" ++ found ++ "'.").data = 'S' :: rest := by
  refine ⟨("ignature mismatch in project file. Expected: '" ++ SOFTUDIO_FILE_SIGNATURE ++
    "', Found: '" ++ found ++ "'.").data, ?_⟩
  simp only [String.data_append]
  rfl

theorem signature_mismatch_ne (found other : QString) (c : Char) (rest : List Char)
    (hother : other.data = c :: rest) (hc : c ≠ 'S') :
    "Signature mismatch in project file. Expected: '" ++ SOFTUDIO_FILE_SIGNATURE ++
        "', Found: '" ++ found ++ "'." ≠ other := by
  intro h
  obtain ⟨tail, htail⟩ := signature_mismatch_data found
  rw [h, hother] at htail
  exact hc (List.cons.inj htail).1

theorem signature_mismatch_ne_empty (found : QString) :
    "Signature mismatch in project file. Expected: '" ++ SOFTUDIO_FILE_SIGNATURE ++
        "', Found: '" ++ found ++ "'." ≠ "" := by
  intro h
  obtain ⟨tail, htail⟩ := signature_mismatch_data found
  rw [h] at htail
  exact absurd htail (by simp)

/-- C27. When the judgement after the reading loop is not valid, its reason
is the signature-mismatch message if the found signature differs from the
constant (whatever the found UID), and it is "UID not found in project file."
exactly when the signature matches and the found UID is empty; it is never the
"unknown reason" message and never empty.  That judgement is what
`performActualValidation` returns once the loop has been left without
interruption. -/
theorem judge_reason (p : ProjectInfo) (folderName : QString) (f : FoundFields)
    (h : (judge p folderName "" f).isValid = false) :
    (f.foundSignature ≠ SOFTUDIO_FILE_SIGNATURE →
      (judge p folderName "" f).errorMessage =
        "Signature mismatch in project file. Expected: '" ++ SOFTUDIO_FILE_SIGNATURE ++
          "', Found: '" ++ f.foundSignature ++ "'.") ∧
    ((judge p folderName "" f).errorMessage = "UID not found in project file." ↔
      f.foundSignature = SOFTUDIO_FILE_SIGNATURE ∧ f.foundUid = "") ∧
    (judge p folderName "" f).errorMessage ≠
      "Validation failed due to content mismatch (unknown reason)." ∧
    (judge p folderName "" f).errorMessage ≠ "" ∧
    (∀ (irq : Nat → Bool) (lines : List QString),
      readLoop irq lines initialFields = .finished f →
      performActualValidationOnOpenFile irq p folderName lines = judge p folderName "" f) := by
  have hlast : ∀ (irq : Nat → Bool) (lines : List QString),
      readLoop irq lines initialFields = .finished f →
      performActualValidationOnOpenFile irq p folderName lines = judge p folderName "" f := by
    intro irq lines hread
    unfold performActualValidationOnOpenFile
    rw [hread]
  unfold judge at h ⊢
  by_cases hvalid : f.foundSignature = SOFTUDIO_FILE_SIGNATURE ∧ Qt.isEmpty f.foundUid = false
  · rw [if_pos hvalid] at h
    exact absurd h (by simp)
  · rw [if_neg hvalid]
    have hempty : Qt.isEmpty ("" : QString) = true := by decide
    simp only [hempty, if_true]
    by_cases hsig : f.foundSignature = SOFTUDIO_FILE_SIGNATURE
    · have huid : Qt.isEmpty f.foundUid = true := by
        cases hu : Qt.isEmpty f.foundUid
        · exact absurd ⟨hsig, hu⟩ hvalid
        · rfl
      have huid2 : f.foundUid = "" := (Qt.isEmpty_eq_true _).1 huid
      simp only [hsig, ne_eq, not_true_eq_false, if_false, huid, if_true, true_and,
        IsEmpty.forall_iff]
      refine ⟨⟨fun _ => huid2, fun _ => trivial⟩, by decide, by decide, ?_⟩
      intro irq lines hread
      have := hlast irq lines hread
      unfold judge at this
      rw [if_neg hvalid] at this
      simpa [hempty, hsig, huid] using this
    · simp only [ne_eq, hsig, not_false_eq_true, if_true, forall_true_left, false_and, iff_false]
      refine ⟨trivial, ?_, ?_, signature_mismatch_ne_empty _, ?_⟩
      · exact signature_mismatch_ne _ _ 'U' _ rfl (by decide)
      · exact signature_mismatch_ne _ _ 'V' _ rfl (by decide)
      · intro irq lines hread
        have := hlast irq lines hread
        unfold judge at this
        rw [if_neg hvalid] at this
        simpa [hempty, hsig] using this

/-- Witness for C27: a file in which no line carries a signature. -/
theorem judge_reason_witness :
    (judge { path := "/r/ProjectX" } "ProjectX" "" { foundUid := "abc-123" }).isValid = false ∧
    ((({ foundUid := "abc-123" } : FoundFields).foundSignature ≠ SOFTUDIO_FILE_SIGNATURE →
      (judge { path := "/r/ProjectX" } "ProjectX" "" { foundUid := "abc-123" }).errorMessage =
        "Signature mismatch in project file. Expected: '" ++ SOFTUDIO_FILE_SIGNATURE ++
          "', Found: '" ++ ({ foundUid := "abc-123" } : FoundFields).foundSignature ++ "'.") ∧
    ((judge { path := "/r/ProjectX" } "ProjectX" "" { foundUid := "abc-123" }).errorMessage =
        "UID not found in project file." ↔
      ({ foundUid := "abc-123" } : FoundFields).foundSignature = SOFTUDIO_FILE_SIGNATURE ∧
        ({ foundUid := "abc-123" } : FoundFields).foundUid = "") ∧
    (judge { path := "/r/ProjectX" } "ProjectX" "" { foundUid := "abc-123" }).errorMessage ≠
      "Validation failed due to content mismatch (unknown reason)." ∧
    (judge { path := "/r/ProjectX" } "ProjectX" "" { foundUid := "abc-123" }).errorMessage ≠ "" ∧
    (∀ (irq : Nat → Bool) (lines : List QString),
      readLoop irq lines initialFields = .finished { foundUid := "abc-123" } →
      performActualValidationOnOpenFile irq { path := "/r/ProjectX" } "ProjectX" lines =
        judge { path := "/r/ProjectX" } "ProjectX" "" { foundUid := "abc-123" })) :=
  ⟨by decide, judge_reason { path := "/r/ProjectX" } "ProjectX" { foundUid := "abc-123" }
    (by decide)⟩

end ProjectFileValidatorWorker

/-! ### Results that are not valid, as the coordinator records them -/

namespace ScannerDialog

/-- C22, counterexample. In the example file system with a project file that
opens, a validation of `/r/ProjectX` interrupted at its first line returns the
reason "Validation interrupted."; handled by the coordinator with an empty
error list, that result leaves one entry in the list. -/
theorem interrupted_validation_recorded :
    ProjectFileValidatorWorker.performActualValidation
        { ScanWorker.exampleEnv with
          openText := fun _ => .ok ["Signature: SOFTUDIO_PROJECT_FILE_V1.0", "UID: abc-123"] }
        (fun _ => true) { path := "/r/ProjectX" } =
      { originalInfo := { path := "/r/ProjectX" }, isValid := false, validatedName := "",
        validatedUid := "", timedOut := false, errorMessage := "Validation interrupted." } ∧
    (handleResult {}
        { originalInfo := { path := "/r/ProjectX" }, isValid := false, validatedName := "",
          validatedUid := "", timedOut := false,
          errorMessage := "Validation interrupted." }).m_currentScanErrors =
      [("/r/ProjectX", "Validation failed: Validation interrupted.")] := by
  decide

/-- C22, amended. When the reading loop of `performActualValidation` is left
by the interruption test, the result is not valid, not timed out and carries
the reason "Validation interrupted."; handled by `onProjectFileValidated` it
appends the entry (path, "Validation failed: Validation interrupted.") to the
error list.  The slot leaves the error list as it was for a not-valid result
only when the result is not timed out and its reason is empty. -/
theorem interrupted_validation_appends_error (c : State) (irq : Nat → Bool) (p : ProjectInfo)
    (folderName : QString) (lines : List QString)
    (h : ProjectFileValidatorWorker.readLoop irq lines
      ProjectFileValidatorWorker.initialFields = .interrupted) :
    ProjectFileValidatorWorker.performActualValidationOnOpenFile irq p folderName lines =
      { originalInfo := p, isValid := false, validatedName := "", validatedUid := "",
        timedOut := false, errorMessage := "Validation interrupted." } ∧
    (handleResult c
        (ProjectFileValidatorWorker.performActualValidationOnOpenFile irq p folderName
          lines)).m_currentScanErrors =
      c.m_currentScanErrors ++ [(p.path, "Validation failed: Validation interrupted.")] ∧
    (∀ (o : ProjectInfo) (n u : QString) (timedOut : Bool) (error : QString),
      (onProjectFileValidated c o false n u timedOut error).m_currentScanErrors =
          c.m_currentScanErrors ↔
        timedOut = false ∧ error = "") := by
  have hresult : ProjectFileValidatorWorker.performActualValidationOnOpenFile irq p folderName
      lines =
      { originalInfo := p, isValid := false, validatedName := "", validatedUid := "",
        timedOut := false, errorMessage := "Validation interrupted." } := by
    unfold ProjectFileValidatorWorker.performActualValidationOnOpenFile
    rw [h]
  refine ⟨hresult, ?_, ?_⟩
  · rw [hresult]
    have hne : Qt.isEmpty "Validation interrupted." = false := by decide
    simp [handleResult, onProjectFileValidated, errorsAfterValidation, hne]
  · intro o n u timedOut error
    cases timedOut
    · by_cases he : error = ""
      · subst he
        have hempty : Qt.isEmpty ("" : QString) = true := by decide
        simp [onProjectFileValidated, errorsAfterValidation, hempty]
      · have hne : Qt.isEmpty error = false := (Qt.isEmpty_eq_false _).2 he
        simp [onProjectFileValidated, errorsAfterValidation, hne, he]
    · simp [onProjectFileValidated, errorsAfterValidation]

/-- Witness for C22, amended: an interruption requested before the first
line is read. -/
theorem interrupted_validation_appends_error_witness :
    ProjectFileValidatorWorker.readLoop (fun _ => true) ["Signature: SOFTUDIO_PROJECT_FILE_V1.0"]
      ProjectFileValidatorWorker.initialFields = .interrupted ∧
    (ProjectFileValidatorWorker.performActualValidationOnOpenFile (fun _ => true)
        { path := "/r/ProjectX" } "ProjectX" ["Signature: SOFTUDIO_PROJECT_FILE_V1.0"] =
      { originalInfo := { path := "/r/ProjectX" }, isValid := false, validatedName := "",
        validatedUid := "", timedOut := false, errorMessage := "Validation interrupted." } ∧
    (handleResult {}
        (ProjectFileValidatorWorker.performActualValidationOnOpenFile (fun _ => true)
          { path := "/r/ProjectX" } "ProjectX"
          ["Signature: SOFTUDIO_PROJECT_FILE_V1.0"])).m_currentScanErrors =
      ({} : State).m_currentScanErrors ++
        [(({ path := "/r/ProjectX" } : ProjectInfo).path,
          "Validation failed: Validation interrupted.")] ∧
    (∀ (o : ProjectInfo) (n u : QString) (timedOut : Bool) (error : QString),
      (onProjectFileValidated {} o false n u timedOut error).m_currentScanErrors =
          ({} : State).m_currentScanErrors ↔
        timedOut = false ∧ error = "")) :=
  ⟨by decide, interrupted_validation_appends_error {} (fun _ => true) { path := "/r/ProjectX" }
    "ProjectX" ["Signature: SOFTUDIO_PROJECT_FILE_V1.0"] (by decide)⟩

theorem overwriteFirstByPath_split (updated p : ProjectInfo) (pre post : List ProjectInfo)
    (hpre : ∀ q ∈ pre, q.path ≠ updated.path) (hp : p.path = updated.path) :
    overwriteFirstByPath updated (pre ++ p :: post) =
      some (pre ++
        { updated with
          heuristicallyFound := p.heuristicallyFound || updated.heuristicallyFound } :: post) := by
  induction pre with
  | nil => simp [overwriteFirstByPath, hp]
  | cons q rest ih =>
    have hq : q.path ≠ updated.path := hpre q (List.mem_cons_self _ _)
    have hrest : ∀ r ∈ rest, r.path ≠ updated.path :=
      fun r hr => hpre r (List.mem_cons_of_mem _ hr)
    simp [overwriteFirstByPath, hq, ih hrest]

/-- C21, counterexample. The master list holds for `/p` a record that carries
the heuristic flag and the kind `heuristic_git_repo`; a not-valid result for
`/p` whose own record does not carry the flag turns the kind of the master
record into `validation_failed`. -/
theorem heuristic_kind_overwritten :
    (onProjectFileValidated
        { m_allFoundProjectsInternalList :=
            [{ name := "p", path := "/p", type := "heuristic_git_repo",
               heuristicallyFound := true }] }
        { name := "p", path := "/p", type := "softudio_potential",
          isSoftudioProjectFlag := true }
        false "" "" false "UID not found in project file.").m_allFoundProjectsInternalList =
      [{ name := "p", path := "/p", type := "validation_failed", isSoftudioProjectFlag := true,
         heuristicallyFound := true }] := by
  decide

/-- C21, amended. When `onProjectFileValidated` handles a result that is not
valid (timed out or not), the first master-list record with the path of the
result is replaced by the record the result carries, marked not validated;
its kind is `validation_failed` unless the record the result carries has the
heuristic flag, in which case it is the kind that record carries; its
heuristic flag is the flag of the replaced record or that of the record the
result carries. -/
theorem invalid_result_kind (s : State) (originalInfo : ProjectInfo)
    (validatedName validatedUid : QString) (timedOut : Bool) (error : QString)
    (pre post : List ProjectInfo) (p : ProjectInfo)
    (hmaster : s.m_allFoundProjectsInternalList = pre ++ p :: post)
    (hpre : ∀ q ∈ pre, q.path ≠ originalInfo.path) (hp : p.path = originalInfo.path) :
    (onProjectFileValidated s originalInfo false validatedName validatedUid timedOut
        error).m_allFoundProjectsInternalList =
      pre ++
        { originalInfo with
          isValidatedSoftudioProject := false,
          type := if originalInfo.heuristicallyFound then originalInfo.type
                  else "validation_failed",
          heuristicallyFound := p.heuristicallyFound || originalInfo.heuristicallyFound } ::
        post := by
  have hpath : (updatedInfo originalInfo false validatedName validatedUid).path =
      originalInfo.path := by
    unfold updatedInfo
    dsimp only
    split_ifs <;> rfl
  have hover := overwriteFirstByPath_split
    (updatedInfo originalInfo false validatedName validatedUid) p pre post
    (fun q hq => by rw [hpath]; exact hpre q hq) (by rw [hpath]; exact hp)
  show masterAfterValidation s.m_allFoundProjectsInternalList
    (updatedInfo originalInfo false validatedName validatedUid) = _
  unfold masterAfterValidation
  rw [hmaster, hover]
  cases hh : originalInfo.heuristicallyFound <;> simp [updatedInfo, hh]

/-- Witness for C21, amended: the record of the counterexample. -/
theorem invalid_result_kind_witness :
    (onProjectFileValidated
        { m_allFoundProjectsInternalList :=
            [{ name := "p", path := "/p", type := "heuristic_git_repo",
               heuristicallyFound := true }] }
        { name := "p", path := "/p", type := "softudio_potential",
          isSoftudioProjectFlag := true }
        false "" "" true "Validation timed out after 15s.").m_allFoundProjectsInternalList =
      [] ++
        ({ name := "p", path := "/p", type := "validation_failed", isSoftudioProjectFlag := true,
           heuristicallyFound := true } : ProjectInfo) :: [] :=
  invalid_result_kind
    { m_allFoundProjectsInternalList :=
        [{ name := "p", path := "/p", type := "heuristic_git_repo",
           heuristicallyFound := true }] }
    ({ name := "p", path := "/p", type := "softudio_potential",
       isSoftudioProjectFlag := true } : ProjectInfo)
    "" "" true "Validation timed out after 15s." [] []
    ({ name := "p", path := "/p", type := "heuristic_git_repo",
       heuristicallyFound := true } : ProjectInfo)
    rfl (by simp) rfl

end ScannerDialog

/-! ### The kind of a master-list record over a session -/

namespace ScannerDialog

theorem overwriteFirstByPath_getElem (updated : ProjectInfo) :
    ∀ (l l' : List ProjectInfo), overwriteFirstByPath updated l = some l' →
      ∀ (i : Nat) (r : ProjectInfo), l[i]? = some r →
        ∃ r', l'[i]? = some r' ∧
          (r' = r ∨
            (r.path = updated.path ∧
              r' = { updated with
                     heuristicallyFound := r.heuristicallyFound || updated.heuristicallyFound })) := by
  intro l
  induction l with
  | nil =>
    intro l' h
    simp [overwriteFirstByPath] at h
  | cons p rest ih =>
    intro l' h i r hr
    unfold overwriteFirstByPath at h
    by_cases hp : p.path = updated.path
    · rw [if_pos hp] at h
      cases h
      cases i with
      | zero =>
        simp only [List.getElem?_cons_zero, Option.some.injEq] at hr
        subst hr
        exact ⟨_, by simp, Or.inr ⟨hp, rfl⟩⟩
      | succ j =>
        simp only [List.getElem?_cons_succ] at hr
        exact ⟨r, by simpa using hr, Or.inl rfl⟩
    · rw [if_neg hp] at h
      cases hrest : overwriteFirstByPath updated rest with
      | none => simp [hrest] at h
      | some l'' =>
        simp only [hrest, Option.map_some', Option.some.injEq] at h
        subst h
        cases i with
        | zero =>
          simp only [List.getElem?_cons_zero, Option.some.injEq] at hr
          subst hr
          exact ⟨_, by simp, Or.inl rfl⟩
        | succ j =>
          simp only [List.getElem?_cons_succ] at hr
          obtain ⟨r', h1, h2⟩ := ih l'' hrest j r hr
          exact ⟨r', by simpa using h1, h2⟩

theorem getElem_append_of_some {α : Type} (l extra : List α) (i : Nat) (r : α)
    (h : l[i]? = some r) : (l ++ extra)[i]? = some r := by
  have hlt : i < l.length := by
    by_contra hge
    rw [List.getElem?_eq_none (Nat.le_of_not_lt hge)] at h
    cases h
  rw [List.getElem?_append_left hlt]
  exact h

/-- One event keeps the place, the path and a final kind of every master-list
record, when a validation result carries a record without the heuristic flag. -/
theorem deliver_kind (s : State) (e : Event)
    (he : ∀ o v n u t m, e = .projectValidated o v n u t m → o.heuristicallyFound = false)
    (i : Nat) (r : ProjectInfo) (hr : s.m_allFoundProjectsInternalList[i]? = some r)
    (hkind : r.type = "softudio_project" ∨ r.type = "validation_failed") :
    ∃ r', (deliver s e).m_allFoundProjectsInternalList[i]? = some r' ∧ r'.path = r.path ∧
      (r'.type = "softudio_project" ∨ r'.type = "validation_failed") := by
  cases e with
  | projectFound project =>
    refine ⟨r, ?_, rfl, hkind⟩
    simp only [deliver, addFoundProjectToInternalList]
    split_ifs
    · exact hr
    · exact getElem_append_of_some _ _ i r hr
  | scanFinished found outcome extra errors =>
    exact ⟨r, hr, rfl, hkind⟩
  | projectValidated o v n u t m =>
    have hflag := he o v n u t m rfl
    have hupdated : (updatedInfo o v n u).type = "softudio_project" ∨
        (updatedInfo o v n u).type = "validation_failed" := by
      cases v <;> simp [updatedInfo, hflag]
    show ∃ r', (masterAfterValidation s.m_allFoundProjectsInternalList
      (updatedInfo o v n u))[i]? = some r' ∧ _
    unfold masterAfterValidation
    cases hover : overwriteFirstByPath (updatedInfo o v n u) s.m_allFoundProjectsInternalList with
    | none => exact ⟨r, getElem_append_of_some _ _ i r hr, rfl, hkind⟩
    | some l' =>
      obtain ⟨r', h1, h2⟩ := overwriteFirstByPath_getElem _ _ l' hover i r hr
      refine ⟨r', h1, ?_⟩
      rcases h2 with h2 | ⟨hpath, h2⟩
      · rw [h2]
        exact ⟨rfl, hkind⟩
      · rw [h2]
        exact ⟨hpath.symm, hupdated⟩

/-- For every sequence of found events, validation results and terminal
events in which every validation result carries a record without the
heuristic flag, a master-list record whose kind is `softudio_project` or
`validation_failed` keeps its place and its path, and its kind is again one
of these two after the sequence. -/
theorem kind_monotone_of_unflagged (events : List Event) (s : State)
    (hresults : ∀ e ∈ events, ∀ o v n u t m,
      e = Event.projectValidated o v n u t m → o.heuristicallyFound = false)
    (i : Nat) (r : ProjectInfo) (hr : s.m_allFoundProjectsInternalList[i]? = some r)
    (hkind : r.type = "softudio_project" ∨ r.type = "validation_failed") :
    ∃ r', (deliverAll s events).m_allFoundProjectsInternalList[i]? = some r' ∧
      r'.path = r.path ∧
      (r'.type = "softudio_project" ∨ r'.type = "validation_failed") := by
  induction events generalizing s r with
  | nil => exact ⟨r, hr, rfl, hkind⟩
  | cons e rest ih =>
    obtain ⟨r1, h1, hpath1, hkind1⟩ :=
      deliver_kind s e (hresults e (List.mem_cons_self _ _)) i r hr hkind
    obtain ⟨r2, h2, hpath2, hkind2⟩ :=
      ih (deliver s e) (fun e' he' => hresults e' (List.mem_cons_of_mem _ he')) r1 h1 hkind1
    exact ⟨r2, by simpa [deliverAll] using h2, hpath2.trans hpath1, hkind2⟩

end ScannerDialog

/-! ### The order and the form of the heuristic markers -/

namespace ScanWorker

/-- C28. The file markers are tested in the ascending order of the keys of
`HEURISTIC_FILES_MAP`, which is not the order of its initializer list (`CMakeLists.txt` first), and
all of them before any directory marker: with no stop requested and a record
not yet flagged, `checkForHeuristicProjects` types the record after the first
key, in that order, that matches, and runs the loop over the directory markers
only when no file marker matches.  So a directory with `.git` and no
`*.csproj` file is typed `heuristic_git_repo` whatever else it holds (a
`CMakeLists.txt`, say), and one with `package.json` and none of the seven keys
before it is typed `heuristic_npm_yarn` whatever subdirectories it has. -/
theorem heuristic_markers_order (node : FsNode) (dirPath : QString) (projectInfo : ProjectInfo)
    (s : State) (hstop : NoStop s)
    (hfresh : projectInfo.heuristicallyFound = false ∧ projectInfo.isSoftudioProjectFlag = false) :
    HEURISTIC_FILES_MAP.map Prod.fst =
      ["*.csproj", ".git", ".sln", ".uproject", "CMakeLists.txt", "Makefile", "build.gradle",
       "package.json", "pom.xml", "setup.py"] ∧
    HEURISTIC_FILES_MAP.map Prod.fst ≠
      ["CMakeLists.txt", "package.json", ".git", ".sln", ".uproject", "*.csproj", "Makefile",
       "pom.xml", "build.gradle", "setup.py"] ∧
    checkForHeuristicProjects node dirPath projectInfo s =
      (match HEURISTIC_FILES_MAP.find? (fun e => heuristicFileMatches node e.1) with
       | some e => (markHeuristic projectInfo e.2 (originalFolderName dirPath), s)
       | none =>
         heuristicDirsLoop node (originalFolderName dirPath) HEURISTIC_DIRS_MAP projectInfo s) ∧
    (heuristicFileMatches node "*.csproj" = false → heuristicFileMatches node ".git" = true →
      (checkForHeuristicProjects node dirPath projectInfo s).1.type = "heuristic_git_repo") ∧
    (heuristicFileMatches node "*.csproj" = false → heuristicFileMatches node ".git" = false →
      heuristicFileMatches node ".sln" = false → heuristicFileMatches node ".uproject" = false →
      heuristicFileMatches node "CMakeLists.txt" = false →
      heuristicFileMatches node "Makefile" = false →
      heuristicFileMatches node "build.gradle" = false →
      heuristicFileMatches node "package.json" = true →
      (checkForHeuristicProjects node dirPath projectInfo s).1.type = "heuristic_npm_yarn") := by
  have hcheck : checkForHeuristicProjects node dirPath projectInfo s =
      (match HEURISTIC_FILES_MAP.find? (fun e => heuristicFileMatches node e.1) with
       | some e => (markHeuristic projectInfo e.2 (originalFolderName dirPath), s)
       | none =>
         heuristicDirsLoop node (originalFolderName dirPath) HEURISTIC_DIRS_MAP projectInfo
           s) := by
    unfold checkForHeuristicProjects
    rw [if_neg (by simp [hfresh.1, hfresh.2]), heuristicFilesLoop_noStop _ _ _ _ _ hstop]
    cases HEURISTIC_FILES_MAP.find? (fun e => heuristicFileMatches node e.1) <;> rfl
  refine ⟨by decide, by decide, hcheck, ?_, ?_⟩
  · intro h1 h2
    rw [hcheck, HEURISTIC_FILES_MAP_eq]
    simp [List.find?, h1, h2, markHeuristic]
  · intro h1 h2 h3 h4 h5 h6 h7 h8
    rw [hcheck, HEURISTIC_FILES_MAP_eq]
    simp [List.find?, h1, h2, h3, h4, h5, h6, h7, h8, markHeuristic]

/-- Witness for C28: a directory that holds `.git` and `CMakeLists.txt`, and
one that holds `package.json` and the directory `src`. -/
theorem heuristic_markers_order_witness :
    (checkForHeuristicProjects
        (exampleDir "App" [exampleDir ".git" [], exampleFile "CMakeLists.txt"]) "/r/App"
        {} {}).1.type = "heuristic_git_repo" ∧
    (checkForHeuristicProjects
        (exampleDir "Web" [exampleFile "package.json", exampleDir "src" []]) "/r/Web"
        {} {}).1.type = "heuristic_npm_yarn" :=
  ⟨(heuristic_markers_order
      (exampleDir "App" [exampleDir ".git" [], exampleFile "CMakeLists.txt"]) "/r/App" {} {}
      ⟨rfl, rfl⟩ ⟨rfl, rfl⟩).2.2.2.1 (by decide) (by decide),
    (heuristic_markers_order
      (exampleDir "Web" [exampleFile "package.json", exampleDir "src" []]) "/r/Web" {} {}
      ⟨rfl, rfl⟩ ⟨rfl, rfl⟩).2.2.2.2 (by decide) (by decide) (by decide) (by decide) (by decide)
      (by decide) (by decide) (by decide)⟩

/-- C29. The keys `.sln` and `.uproject` are looked up as file names: each
matches exactly when the directory has a readable regular file of just that
name, whereas `*.csproj` matches when some readable regular file has a name
ending in `.csproj`.  So a directory whose only entry is the file `App.sln`,
or the file `Game.uproject`, is not flagged as a heuristic find, and one
whose only entry is the file `App.csproj` is typed `heuristic_csharp_proj`. -/
theorem sln_uproject_literal_names :
    (∀ node : FsNode, heuristicFileMatches node ".sln" =
      ((node.entry ".sln").exists && (node.entry ".sln").isFile &&
        (node.entry ".sln").isReadable)) ∧
    (∀ node : FsNode, heuristicFileMatches node ".uproject" =
      ((node.entry ".uproject").exists && (node.entry ".uproject").isFile &&
        (node.entry ".uproject").isReadable)) ∧
    (∀ node : FsNode, heuristicFileMatches node "*.csproj" =
      node.children.any (fun c => c.isFile && c.isReadable &&
        Qt.matchesNameFilter "*.csproj" c.name)) ∧
    (checkForHeuristicProjects (exampleDir "App" [exampleFile "App.sln"]) "/r/App"
        {} {}).1.heuristicallyFound = false ∧
    (checkForHeuristicProjects (exampleDir "Game" [exampleFile "Game.uproject"]) "/r/Game"
        {} {}).1.heuristicallyFound = false ∧
    (checkForHeuristicProjects (exampleDir "App" [exampleFile "App.csproj"]) "/r/App"
        {} {}).1.heuristicallyFound = true ∧
    (checkForHeuristicProjects (exampleDir "App" [exampleFile "App.csproj"]) "/r/App"
        {} {}).1.type = "heuristic_csharp_proj" := by
  refine ⟨?_, ?_, ?_, by decide, by decide, by decide, by decide⟩
  · intro node
    unfold heuristicFileMatches
    rw [if_neg (by decide)]
    simp
  · intro node
    unfold heuristicFileMatches
    rw [if_neg (by decide)]
    simp
  · intro node
    unfold heuristicFileMatches
    rw [if_pos (by decide)]

/-! ### What a Quick scan classifies at the depth limit -/

/-- Every record a scan finds is the record of a directory reached from one
of the roots, classified as the walker classifies at the depth it is reached
at; every record sent for validation is flagged as a Softudio candidate and
not heuristically found. -/
theorem doScan_classified (env : Env) (s : State) (scanRoots : List QString)
    (scanType : QString) :
    (∀ r ∈ (doScan env s scanRoots scanType).m_foundProjectsList, ∃ d,
      (∃ root ∈ scanRoots,
        Reaches env scanType (env.info (Qt.toNativeSeparators root))
          (Qt.toNativeSeparators root) 0 r.path d) ∧
      Classified scanType r d) ∧
    (∃ added, (doScan env s scanRoots scanType).emitted = s.emitted ++ added ∧
      ∀ r, Signal.validationRequested r ∈ added →
        r.isSoftudioProjectFlag = true ∧ r.heuristicallyFound = false) := by
  by_cases h : scanRoots = []
  · subst h
    refine ⟨?_,
      ⟨[.scanFinished [] "error" [("error_message", "No valid scan roots provided.")] []],
        ?_, ?_⟩⟩
    · intro r hr
      simp [doScan, beginScan, emit] at hr
    · simp only [doScan, beginScan, emit, List.isEmpty_nil, if_true]
    · intro r hr
      simp at hr
  · obtain ⟨s2, stopSeen, hext, hdo⟩ := doScan_nonempty env s scanRoots scanType h
    have hscan := Extends.trans
      (performScan_extends env (beginScan s scanRoots scanType)) (hext _)
    obtain ⟨-, -, -, ⟨f, hf, pf⟩, ⟨e, he, pe⟩, -, -⟩ := hscan
    rw [hdo]
    refine ⟨?_,
      ⟨e ++ [.scanProgress (if stopSeen then "Scan canceled." else "Scan complete.")
            s2.m_totalFoldersEstimate s2.m_foldersScannedCount false,
          .scanFinished s2.m_foundProjectsList
            (if (readStopRequested (performScan env (beginScan s scanRoots scanType))).1
              then "canceled" else "completed")
            (if stopSeen then [("stop_details", "")] else []) s2.m_scanErrors],
        ?_, ?_⟩⟩
    · intro r hr
      have hr2 : r ∈ s2.m_foundProjectsList := hr
      rw [hf] at hr2
      exact pf r (by simpa [beginScan] using hr2)
    · show s2.emitted ++ [_] ++ [_] = _
      rw [he]
      simp [beginScan]
    · intro r hr
      rcases List.mem_append.1 hr with hr | hr
      · obtain ⟨h1, h2, -⟩ := (pe _ hr).2.2 r rfl
        exact ⟨h1, h2⟩
      · simp at hr

/-- C30. In Quick mode, on a readable directory at depth 3, the part of
`processDirectory` before the recursion block makes the strict check and
records a strict candidate, and otherwise only counts the directory: the
heuristic check is not made.  Every record a Quick scan finds is the record of
a directory reached from a root at a depth of at most 3, and is either a
strict candidate (kind `softudio_potential`) or a heuristic find reached at a
depth below 3.  In the example file system a Quick scan of `/w` processes
`/w/a/b/Npm` and `/w/a/b/ProjectX` at depth 3 and finds the strict candidate
`ProjectX` there, and not the directory `Npm` with its `package.json`, which
the scan of the root `/w/a` finds at depth 2. -/
theorem quick_scan_heuristic_depth (env : Env) (s : State) (scanRoots : List QString) :
    (∀ (node : FsNode) (path : QString) (s₀ : State),
      s₀.m_scanType = SCAN_TYPE_QUICK → node.exists = true → node.isDir = true →
      node.isReadable = true →
      examineDirectory node env path 3 s₀ =
        match checkForSoftudioProject env node path
          (ProjectInfo.construct env (Qt.toNativeSeparators path) "unknown") with
        | (true, projectInfo) =>
          (false, recordStrictCandidate (countDirectory s₀ path 3) projectInfo)
        | (false, _) => (true, countDirectory s₀ path 3)) ∧
    (∀ r ∈ (doScan env s scanRoots SCAN_TYPE_QUICK).m_foundProjectsList, ∃ d,
      (∃ root ∈ scanRoots,
        Reaches env SCAN_TYPE_QUICK (env.info (Qt.toNativeSeparators root))
          (Qt.toNativeSeparators root) 0 r.path d) ∧
      d ≤ 3 ∧
      ((r.heuristicallyFound = false ∧ r.isSoftudioProjectFlag = true ∧
          r.type = "softudio_potential") ∨
        (r.heuristicallyFound = true ∧ r.isSoftudioProjectFlag = false ∧
          (∃ heuristicType, r.type = "heuristic_" ++ heuristicType) ∧ d < 3))) ∧
    ((doScan exampleWorkspaceEnv {} ["/w"] SCAN_TYPE_QUICK).visited =
        [("/w", 0), ("/w/a", 1), ("/w/a/b", 2), ("/w/a/b/Npm", 3), ("/w/a/b/ProjectX", 3)] ∧
      (doScan exampleWorkspaceEnv {} ["/w"] SCAN_TYPE_QUICK).m_foundProjectsList.map
          (fun r => (r.path, r.type)) =
        [("/w/a/b/ProjectX", "softudio_potential")] ∧
      (doScan exampleWorkspaceEnv {} ["/w/a"] SCAN_TYPE_QUICK).m_foundProjectsList.map
          (fun r => (r.path, r.type)) =
        [("/w/a/b/Npm", "heuristic_npm_yarn"), ("/w/a/b/ProjectX", "softudio_potential")]) := by
  refine ⟨?_, ?_, by decide⟩
  · intro node path s₀ htype hexists hdir hreadable
    have hskip : ¬ ((!node.exists || !node.isDir || !node.isReadable) = true) := by
      simp [hexists, hdir, hreadable]
    have hw : ¬ (withinDepthLimit s₀ 3 = true) := by
      rw [withinDepthLimit_iff, htype]
      rintro (h | ⟨-, h⟩)
      · exact absurd h (by decide)
      · exact absurd h (by decide)
    unfold examineDirectory
    rw [if_neg hskip]
    rcases checkForSoftudioProject env node path
      (ProjectInfo.construct env (Qt.toNativeSeparators path) "unknown") with ⟨b, p1⟩
    cases b
    · dsimp only
      rw [if_neg hw]
    · rfl
  · intro r hr
    obtain ⟨d, ⟨root, hroot, hreach⟩, hclass⟩ :=
      (doScan_classified env s scanRoots SCAN_TYPE_QUICK).1 r hr
    refine ⟨d, ⟨root, hroot, hreach⟩, Reaches.depth_le_quick hreach (by decide), ?_⟩
    rcases hclass with hstrict | ⟨h1, h2, h3, h4⟩
    · exact Or.inl hstrict
    · refine Or.inr ⟨h1, h2, h3, ?_⟩
      rcases h4 with h4 | ⟨-, h4⟩
      · exact absurd h4 (by decide)
      · exact h4

/-! ### Once the stop flag is set -/

theorem readStopRequested_stopped (s : State) (h : s.m_stopRequested = true) :
    readStopRequested s = (true, s) := by
  simp [readStopRequested, h]

/-- With the stop flag set, `processDirectory` and the loops around it return
at their first test of the flag and leave the worker as it is, whatever tree
lies ahead. -/
theorem processDirectory_stopped (env : Env) (directoryPath : QString) (currentDepth : Nat)
    (s : State) (h : s.m_stopRequested = true) :
    (∀ node : FsNode, processDirectory node env directoryPath currentDepth s = s) ∧
    (∀ entries : List FsNode, processEntries entries env directoryPath currentDepth s = s) ∧
    (∀ roots : List QString, scanRoots env roots s = s) := by
  have hread := readStopRequested_stopped s h
  refine ⟨?_, ?_, ?_⟩
  · intro node
    cases node with
    | node name kind readable link children => rw [processDirectory, hread]
  · intro entries
    induction entries with
    | nil => rw [processEntries]
    | cons entry rest ih =>
      rw [processEntries]
      by_cases h1 : (entry.isDir && entry.isReadable) = true
      · rw [if_pos h1, hread]
      · rw [if_neg h1]
        exact ih
  · intro roots
    cases roots with
    | nil => rfl
    | cons rootPath rest =>
      unfold scanRoots
      rw [hread]

end ScanWorker

/-! ### What the validator can emit -/

namespace ProjectFileValidatorWorker

theorem judge_valid_uid (p : ProjectInfo) (folderName errorMessageOut : QString)
    (f : FoundFields) (h : (judge p folderName errorMessageOut f).isValid = true) :
    (judge p folderName errorMessageOut f).validatedUid ≠ "" := by
  unfold judge at h ⊢
  by_cases hv : f.foundSignature = SOFTUDIO_FILE_SIGNATURE ∧ Qt.isEmpty f.foundUid = false
  · rw [if_pos hv]
    exact (Qt.isEmpty_eq_false _).1 hv.2
  · rw [if_neg hv] at h
    exact absurd h (by simp)

theorem performActualValidationOnOpenFile_valid_uid (irq : Nat → Bool) (p : ProjectInfo)
    (folderName : QString) (lines : List QString)
    (h : (performActualValidationOnOpenFile irq p folderName lines).isValid = true) :
    (performActualValidationOnOpenFile irq p folderName lines).validatedUid ≠ "" := by
  unfold performActualValidationOnOpenFile at h ⊢
  cases hread : readLoop irq lines initialFields with
  | interrupted =>
    rw [hread] at h
    exact absurd h (by simp)
  | finished f =>
    rw [hread] at h
    exact judge_valid_uid _ _ _ _ h

/-- A valid result of `performActualValidation` carries a uid that is not
empty. -/
theorem performActualValidation_valid_uid (env : Env) (irq : Nat → Bool) (p : ProjectInfo)
    (h : (performActualValidation env irq p).isValid = true) :
    (performActualValidation env irq p).validatedUid ≠ "" := by
  revert h
  unfold performActualValidation
  dsimp only
  split_ifs
  · intro h; exact absurd h (by simp [failure])
  · split
    · intro h; exact absurd h (by simp [failure])
    · split_ifs
      · intro h; exact absurd h (by simp [failure])
      · intro h; exact absurd h (by simp [failure])
      · intro h; exact absurd h (by simp [failure])
      · split
        · intro h; exact absurd h (by simp [failure])
        · exact performActualValidationOnOpenFile_valid_uid _ _ _ _

/-- One delivery keeps "the watched record and the stored record of a busy
validator were requested", and every result it makes the validator emit
carries a requested record and, when valid, a uid that is not empty. -/
theorem deliverOne_emits (requested : ProjectInfo → Prop) (r : Running) (d : Delivery)
    (hd : ∀ p, d = Delivery.validateProjectCalled p → requested p)
    (hwatched : ∀ p, r.watched = some p → requested p)
    (hstored : r.worker.m_isBusy = true → requested r.worker.m_currentProjectInfo) :
    (∀ p, (deliverOne r d).1.watched = some p → requested p) ∧
    ((deliverOne r d).1.worker.m_isBusy = true →
      requested (deliverOne r d).1.worker.m_currentProjectInfo) ∧
    (∀ result ∈ resultsOf (deliverOne r d).2,
      requested result.originalInfo ∧ (result.isValid = true → result.validatedUid ≠ "")) := by
  cases d with
  | validateProjectCalled p =>
    have hp := hd p rfl
    cases hb : r.worker.m_isBusy with
    | true =>
      refine ⟨?_, ?_, ?_⟩
      · simpa [deliverOne, validateProject, hb, applyEffects] using hwatched
      · simpa [deliverOne, validateProject, hb, applyEffects] using hstored
      · intro result hresult
        simp [deliverOne, validateProject, hb, emissions, resultsOf] at hresult
        subst hresult
        exact ⟨hp, by simp⟩
    | false =>
      refine ⟨?_, ?_, ?_⟩
      · intro q hq
        simp [deliverOne, validateProject, hb, applyEffects] at hq
        rw [← hq]
        exact hp
      · intro _
        simp [deliverOne, validateProject, hb, applyEffects, hp]
      · intro result hresult
        simp [deliverOne, validateProject, hb, resultsOf] at hresult
  | watcherFinished env irq =>
    cases hw : r.watched with
    | none =>
      refine ⟨?_, ?_, ?_⟩
      · simp [deliverOne, hw]
      · simpa [deliverOne, hw] using hstored
      · intro result hresult
        simp [deliverOne, hw, resultsOf] at hresult
    | some p =>
      have hp := hwatched p hw
      cases hb : r.worker.m_isBusy with
      | true =>
        refine ⟨?_, ?_, ?_⟩
        · intro q hq
          cases ht : r.timerActive <;>
            simp [deliverOne, hw, handleValidationFinished, hb, ht, applyEffects] at hq <;>
            exact hq ▸ hp
        · intro hbusy
          cases ht : r.timerActive <;>
            simp [deliverOne, hw, handleValidationFinished, hb, ht, applyEffects] at hbusy
        · intro result hresult
          have ho := performActualValidation_originalInfo env irq p
          have hu := performActualValidation_valid_uid env irq p
          cases ht : r.timerActive <;>
            simp [deliverOne, hw, handleValidationFinished, hb, ht, emissions, resultsOf]
              at hresult <;>
            subst hresult <;>
            exact ⟨by rw [ho]; exact hp, hu⟩
      | false =>
        refine ⟨?_, ?_, ?_⟩
        · intro q hq
          simp [deliverOne, hw, handleValidationFinished, hb, applyEffects] at hq
          exact hq ▸ hp
        · intro hbusy
          simp [deliverOne, hw, handleValidationFinished, hb, applyEffects] at hbusy
        · intro result hresult
          simp [deliverOne, hw, handleValidationFinished, hb, emissions, resultsOf] at hresult
  | timerTimeout =>
    cases hb : r.worker.m_isBusy with
    | true =>
      refine ⟨?_, ?_, ?_⟩
      · intro q hq
        cases hf : r.futureRunning <;>
          simp [deliverOne, handleValidationTimeout, hb, hf, applyEffects] at hq <;>
          exact hwatched q hq
      · intro hbusy
        cases hf : r.futureRunning <;>
          simp [deliverOne, handleValidationTimeout, hb, hf, applyEffects] at hbusy
      · intro result hresult
        cases hf : r.futureRunning <;>
          simp [deliverOne, handleValidationTimeout, hb, hf, emissions, resultsOf] at hresult <;>
          subst hresult <;>
          exact ⟨hstored hb, by simp⟩
    | false =>
      refine ⟨?_, ?_, ?_⟩
      · intro q hq
        simp [deliverOne, handleValidationTimeout, hb, applyEffects] at hq
        exact hwatched q hq
      · intro hbusy
        simp [deliverOne, handleValidationTimeout, hb, applyEffects] at hbusy
      · intro result hresult
        simp [deliverOne, handleValidationTimeout, hb, emissions, resultsOf] at hresult

theorem resultsOf_append (xs ys : List Observed) :
    resultsOf (xs ++ ys) = resultsOf xs ++ resultsOf ys := by
  induction xs with
  | nil => rfl
  | cons x rest ih =>
    cases x <;> simp [resultsOf, ih]

theorem deliverSequence_emits (requested : ProjectInfo → Prop) (deliveries : List Delivery) :
    ∀ r : Running,
      (∀ p, Delivery.validateProjectCalled p ∈ deliveries → requested p) →
      (∀ p, r.watched = some p → requested p) →
      (r.worker.m_isBusy = true → requested r.worker.m_currentProjectInfo) →
      ∀ result ∈ resultsOf (deliverSequence r deliveries).2,
        requested result.originalInfo ∧
          (result.isValid = true → result.validatedUid ≠ "") := by
  induction deliveries with
  | nil =>
    intro r _ _ _ result hresult
    simp [deliverSequence, resultsOf] at hresult
  | cons d rest ih =>
    intro r hd hwatched hstored result hresult
    obtain ⟨h1, h2, h3⟩ := deliverOne_emits requested r d
      (fun p hp => hd p (by rw [hp]; exact List.mem_cons_self _ _)) hwatched hstored
    rw [deliverSequence, resultsOf_append] at hresult
    rcases List.mem_append.1 hresult with hresult | hresult
    · exact h3 result hresult
    · exact ih (deliverOne r d).1 (fun p hp => hd p (List.mem_cons_of_mem _ hp)) h1 h2 result
        hresult

/-- Every result the validator emits carries a record it was asked to
validate and, when it is valid, a uid that is not empty. -/
theorem Emits.sound {requested : ProjectInfo → Prop} {result : ValidationResult}
    (h : Emits requested result) :
    requested result.originalInfo ∧ (result.isValid = true → result.validatedUid ≠ "") := by
  obtain ⟨deliveries, hd, hresult⟩ := h
  exact deliverSequence_emits requested deliveries {} hd (fun p hp => by cases hp)
    (fun hb => by cases hb) result hresult

end ProjectFileValidatorWorker

/-! ### The coordinator on what the two workers send it -/

namespace ScannerDialog

/-- C7. The known-uid set being fixed, the results list empty at the start,
after any sequence of events the coordinator can receive (each validation
result being one the validator emits) every record of the results list has
`isValidatedSoftudioProject` true, type `softudio_project` and a uid that is
not in the known-uid set; and a Valid result of the validator whose uid is in
the known set leaves the results list as it is, while the master list then
holds for its path a record that is validated, of type `softudio_project`,
with that uid. -/
theorem results_list_unknown_uids (s : State) (events : List Event)
    (h : s.m_validatedProjectsForResultsTable = [])
    (hreceivable : ∀ e ∈ events, Receivable (fun _ => True) e) :
    (∀ r ∈ (deliverAll s events).m_validatedProjectsForResultsTable,
      r.isValidatedSoftudioProject = true ∧ r.type = "softudio_project" ∧
        r.uid ∉ s.m_knownProjectUids) ∧
    (∀ result : ValidationResult,
      ProjectFileValidatorWorker.Emits (fun _ => True) result →
      result.isValid = true → result.validatedUid ∈ s.m_knownProjectUids →
      (handleResult (deliverAll s events) result).m_validatedProjectsForResultsTable =
        (deliverAll s events).m_validatedProjectsForResultsTable ∧
      ∃ r ∈ (handleResult (deliverAll s events) result).m_allFoundProjectsInternalList,
        r.path = result.originalInfo.path ∧ r.isValidatedSoftudioProject = true ∧
          r.type = "softudio_project" ∧ r.uid = result.validatedUid) := by
  obtain ⟨h1, h2, h3⟩ := results_list_validated_and_not_known s events h
  have hev : ∀ o n u t m, Event.projectValidated o true n u t m ∈ events → u ≠ "" := by
    intro o n u t m hmem
    exact (ProjectFileValidatorWorker.Emits.sound (hreceivable _ hmem)).2 rfl
  refine ⟨?_, ?_⟩
  · intro r hr
    exact ⟨(h1 r hr).1, (h1 r hr).2.1, h2 hev r hr⟩
  · intro result hemits hvalid hknown
    have hne := (ProjectFileValidatorWorker.Emits.sound hemits).2 hvalid
    have := h3 result.originalInfo result.validatedName result.validatedUid result.timedOut
      result.errorMessage hne hknown
    unfold handleResult
    rw [hvalid]
    exact this

/-- Witness for C7: the known set holds `abc-123`; the validator, asked to
validate `/r/ProjectX` in the example file system with a project file that
carries the uid `zzz-9`, emits a Valid result, and the coordinator receives
it. -/
theorem results_list_unknown_uids_witness :
    (∀ r ∈ (deliverAll (setKnownProjectUids constructed ["abc-123"])
        [.projectValidated { name := "ProjectX", path := "/r/ProjectX" } true "ProjectX" "zzz-9"
            false ""]).m_validatedProjectsForResultsTable,
      r.isValidatedSoftudioProject = true ∧ r.type = "softudio_project" ∧
        r.uid ∉ (setKnownProjectUids constructed ["abc-123"]).m_knownProjectUids) ∧
    (deliverAll (setKnownProjectUids constructed ["abc-123"])
        [.projectValidated { name := "ProjectX", path := "/r/ProjectX" } true "ProjectX" "zzz-9"
            false ""]).m_validatedProjectsForResultsTable.map (fun r => (r.path, r.uid)) =
      [("/r/ProjectX", "zzz-9")] :=
  ⟨(results_list_unknown_uids (setKnownProjectUids constructed ["abc-123"])
      [.projectValidated { name := "ProjectX", path := "/r/ProjectX" } true "ProjectX" "zzz-9"
          false ""]
      rfl
      (by
        intro e he
        rw [List.mem_singleton.1 he]
        exact ⟨[.validateProjectCalled { name := "ProjectX", path := "/r/ProjectX" },
            .watcherFinished
              { ScanWorker.exampleEnv with
                openText := fun _ =>
                  .ok ["Signature: SOFTUDIO_PROJECT_FILE_V1.0", "UID: zzz-9"] }
              (fun _ => false)],
          fun _ _ => trivial, by decide⟩)).1,
    by decide⟩

/-- A record the walker sends for validation is not heuristically found. -/
theorem requests_unflagged (p : ProjectInfo) (h : ScanWorker.Requests p) :
    p.heuristicallyFound = false := by
  obtain ⟨env, stop, scanRoots, scanType, hmem⟩ := h
  obtain ⟨added, hadd, hp⟩ :=
    (ScanWorker.doScan_classified env { stopArrivesAfter := stop } scanRoots scanType).2
  rw [hadd] at hmem
  exact (hp p (by simpa using hmem)).2

/-- C23. For every sequence of events the coordinator can receive (found
events, terminal events, and validation results the validator emits when it
is asked to validate the records the walker sends for validation), a
master-list record whose kind is `softudio_project` or `validation_failed`
keeps its place and its path, and after the sequence its kind is again one of
these two, so neither `unknown` nor `softudio_potential`. -/
theorem kind_never_reverts (events : List Event) (s : State)
    (hreceivable : ∀ e ∈ events, Receivable ScanWorker.Requests e)
    (i : Nat) (r : ProjectInfo) (hr : s.m_allFoundProjectsInternalList[i]? = some r)
    (hkind : r.type = "softudio_project" ∨ r.type = "validation_failed") :
    ∃ r', (deliverAll s events).m_allFoundProjectsInternalList[i]? = some r' ∧
      r'.path = r.path ∧
      (r'.type = "softudio_project" ∨ r'.type = "validation_failed") ∧
      r'.type ≠ "unknown" ∧ r'.type ≠ "softudio_potential" := by
  have hresults : ∀ e ∈ events, ∀ o v n u t m,
      e = Event.projectValidated o v n u t m → o.heuristicallyFound = false := by
    intro e he o v n u t m heq
    have hrec := hreceivable e he
    rw [heq] at hrec
    exact requests_unflagged o (ProjectFileValidatorWorker.Emits.sound hrec).1
  obtain ⟨r', h1, h2, h3⟩ := kind_monotone_of_unflagged events s hresults i r hr hkind
  refine ⟨r', h1, h2, h3, ?_, ?_⟩
  · rcases h3 with h3 | h3 <;> rw [h3] <;> decide
  · rcases h3 with h3 | h3 <;> rw [h3] <;> decide

/-- Witness for C23: a Quick scan of `/r/ProjectX` in the example file system
sends its record for validation; the validator accepts it and times out; the
coordinator, whose master list holds the record as validated, receives the
timed-out result. -/
theorem kind_never_reverts_witness :
    ∃ r', (deliverAll
        { m_allFoundProjectsInternalList :=
            [{ name := "ProjectX", path := "/r/ProjectX", uid := "abc-123",
               type := "softudio_project", isSoftudioProjectFlag := true,
               isValidatedSoftudioProject := true }] }
        [.projectValidated { name := "ProjectX", path := "/r/ProjectX",
                             type := "softudio_potential", isSoftudioProjectFlag := true }
            false "" "" true "Validation timed out after 15s."]).m_allFoundProjectsInternalList[0]? =
        some r' ∧
      r'.path = ({ name := "ProjectX", path := "/r/ProjectX", uid := "abc-123",
                   type := "softudio_project", isSoftudioProjectFlag := true,
                   isValidatedSoftudioProject := true } : ProjectInfo).path ∧
      (r'.type = "softudio_project" ∨ r'.type = "validation_failed") ∧
      r'.type ≠ "unknown" ∧ r'.type ≠ "softudio_potential" :=
  kind_never_reverts
    [.projectValidated { name := "ProjectX", path := "/r/ProjectX",
                         type := "softudio_potential", isSoftudioProjectFlag := true }
        false "" "" true "Validation timed out after 15s."]
    { m_allFoundProjectsInternalList :=
        [{ name := "ProjectX", path := "/r/ProjectX", uid := "abc-123",
           type := "softudio_project", isSoftudioProjectFlag := true,
           isValidatedSoftudioProject := true }] }
    (by
      intro e he
      rw [List.mem_singleton.1 he]
      refine ⟨[.validateProjectCalled
                { name := "ProjectX", path := "/r/ProjectX", type := "softudio_potential",
                  isSoftudioProjectFlag := true },
              .timerTimeout], ?_, by decide⟩
      intro p hp
      simp only [List.mem_cons, ProjectFileValidatorWorker.Delivery.validateProjectCalled.injEq,
        List.mem_singleton, reduceCtorEq, or_false, List.not_mem_nil] at hp
      rw [hp]
      exact ⟨ScanWorker.exampleEnv, none, ["/r/ProjectX"], ScanWorker.SCAN_TYPE_QUICK,
        by decide⟩)
    0 _ rfl (Or.inl rfl)

end ScannerDialog

end Softudio
